import Mathlib

/-!
# Coalescing buffer channel (`internal/pkg/channels/buffer_channel.go`)

A shallow embedding of the worker of `BufferChannel`: the state owned by the
`serve` goroutine, the three outcomes of its `select`, `onInput` and `collect`.

Modelling conventions:

* A `*table.Path` is `Option Path` (`none` is the nil pointer).  Of a path only
  what the channel inspects is kept (`IsEOR`, `GetRouteFamily`,
  `GetNlri().PathIdentifier()`, `table.TableKey(GetNlri())`), plus `attrs`, which
  stands for everything else the path carries.
* `map[pathKey]int` is a partial function `pathKey → Option Nat`.
* A value sent on the input port is an `Item`: either a value that does not
  implement `BufferMessageInterface`, or a `Msg` (the `msg` struct of the test
  file, the only implementation in the package), with value semantics.
* Value semantics is what `collect` does as long as the path list of the incoming item
  does not share its backing array with the held one.  The section "Path lists in memory"
  models path lists as slices over shared backing arrays (`collectMem`), where the merge
  writes in place while it ranges over the incoming slice; `collectMem_refines` relates
  the two, and the properties of a whole merge (C2, C3, C18, C20) are stated there.
* The six `atomic.Uint64` counters are natural numbers: they only ever grow by one
  per event, so the model is exact for every run shorter than `2^64` events.
* The output port is a trace: the list of items handed to the consumer, oldest
  first, and a flag for `close(output)`.  A blocking send is taken to complete.
* `nextPathsList[idx] = path` panics when `idx` is out of range; `collect` therefore
  returns an `Option`, `none` being the panic.
-/

namespace Channels

/-- The part of `table.Path` that the channel looks at. -/
structure Path where
  /-- `path.GetRouteFamily()` -/
  rf : Nat
  /-- `table.TableKey(path.GetNlri())` -/
  nlri : String
  /-- `path.GetNlri().PathIdentifier()` -/
  pathIdentifier : Nat
  /-- `path.IsEOR()` -/
  eor : Bool
  /-- everything else the path carries (attributes, ...) -/
  attrs : Nat
  deriving DecidableEq, Repr

/-- `type pathKey struct { rf; nlri; pathIdentifier }` -/
structure pathKey where
  rf : Nat
  nlri : String
  pathIdentifier : Nat
  deriving DecidableEq, Repr

/-- The composite literal `pathKey{rf: ..., pathIdentifier: ..., nlri: ...}` built in `collect`. -/
def keyOf (p : Path) : pathKey :=
  { rf := p.rf, nlri := p.nlri, pathIdentifier := p.pathIdentifier }

/-- `[]*table.Path` -/
abbrev PathList := List (Option Path)

/-- `map[pathKey]int` -/
abbrev PathIdxs := pathKey → Option Nat

/-- The empty map (`make(map[pathKey]int)`, and the result of `clear`). -/
def PathIdxs.empty : PathIdxs := fun _ => none

/-- The map assignment `m[k] = v`. -/
def PathIdxs.set (m : PathIdxs) (k : pathKey) (v : Nat) : PathIdxs :=
  fun k' => if k' = k then some v else m k'

/-- `type msg struct { index int; pathList []*table.Path }` of the test file, the
implementation of `BufferMessageInterface`. -/
structure Msg where
  index : Int
  pathList : PathList
  deriving DecidableEq

/-- `(m *msg) SetPathList(pathList)` -/
def Msg.SetPathList (m : Msg) (pathList : PathList) : Msg :=
  { m with pathList := pathList }

/-- A value of type `any` sent on the input port. -/
inductive Item where
  /-- a value that does not implement `BufferMessageInterface` (an `int` in `TestAnyElement`) -/
  | other (v : Int)
  /-- a value implementing `BufferMessageInterface` -/
  | msg (m : Msg)
  deriving DecidableEq

/-- `type BufferChannel struct`: the capacities of the two ports, the six counters, and the
trace of the output port. -/
structure BufferChannel where
  /-- `cap(input)` -/
  inputCap : Nat
  /-- `cap(output)` -/
  outputCap : Nat
  in_ : Nat
  notifications : Nat
  collected : Nat
  rewritten : Nat
  retries : Nat
  out : Nat
  /-- the items sent on `output`, oldest first -/
  output : List Item
  /-- `close(output)` has run (and `serve` has returned) -/
  outputClosed : Bool

/-- `type bufferChannel struct { parent; pathIdxs; last }`: the state owned by the worker. -/
structure bufferChannel where
  parent : BufferChannel
  pathIdxs : PathIdxs
  last : Option Msg

/-- `defaultInSize = 64` -/
def defaultInSize : Int := 64

/-- `NewBufferChannel(inSize)`: the worker state handed to `go ibc.serve()`.
`make(chan any, inSize)` panics on a negative size (`none`). -/
def NewBufferChannel (inSize : Int) : Option bufferChannel :=
  let inSize := if inSize = 0 then defaultInSize else inSize
  if inSize < 0 then none
  else some
    { parent :=
        { inputCap := inSize.toNat, outputCap := 0,
          in_ := 0, notifications := 0, collected := 0, rewritten := 0, retries := 0, out := 0,
          output := [], outputClosed := false }
      pathIdxs := PathIdxs.empty
      last := none }

/-- The seed loop of `collect` (`bc.last == nil`): `for idx, path := range pathList`,
started at position `idx`. -/
def seedLoop : Nat → PathList → PathIdxs → PathIdxs
  | _, [], m => m
  | idx, none :: rest, m => seedLoop (idx + 1) rest m
  | idx, some path :: rest, m =>
    if path.eor then seedLoop (idx + 1) rest m
    else seedLoop (idx + 1) rest (m.set (keyOf path) idx)

/-- What the merge loop of `collect` updates: the map, `nextPathsList`, and the
`rewritten` counter. -/
structure MergeAcc where
  pathIdxs : PathIdxs
  nextPathsList : PathList
  rewritten : Nat

/-- One iteration of the merge loop of `collect`, on the contents of `nextPathsList`;
`none` is the index-out-of-range panic of `nextPathsList[idx] = path`.  The iteration on the
slice itself is `mergeStepMem`. -/
def mergeStep (a : MergeAcc) : Option Path → Option MergeAcc
  | none => some a
  | some path =>
    if path.eor then
      some { a with nextPathsList := a.nextPathsList ++ [some path] }
    else
      match a.pathIdxs (keyOf path) with
      | none =>
        some { a with
          pathIdxs := a.pathIdxs.set (keyOf path) a.nextPathsList.length
          nextPathsList := a.nextPathsList ++ [some path] }
      | some idx =>
        if idx < a.nextPathsList.length then
          some { a with
            rewritten := a.rewritten + 1
            nextPathsList := a.nextPathsList.set idx (some path) }
        else none

/-- The merge loop of `collect`, `for _, path := range pathList`, on the contents that
`pathList` has when the loop begins.  This is the loop of the program when `pathList` does
not share its backing array with the held list (`mergeLoopMem_refines`); the loop on slices,
which reads each element when its iteration comes, is `mergeLoopMem`. -/
def mergeLoop : MergeAcc → PathList → Option MergeAcc
  | a, [] => some a
  | a, path :: rest => (mergeStep a path).bind (fun a' => mergeLoop a' rest)

/-- `(bc *bufferChannel) collect(elem)`, on path lists as values: what the method does when
the path list of `elem` does not share its backing array with the held one
(`collectMem_refines`).  The method on slices is `collectMem`. -/
def collect (bc : bufferChannel) (elem : Msg) : Option bufferChannel :=
  let parent := { bc.parent with collected := bc.parent.collected + 1 }
  let pathList := elem.pathList
  match bc.last with
  | none =>
    some { parent := parent, pathIdxs := seedLoop 0 pathList bc.pathIdxs, last := some elem }
  | some last =>
    (mergeLoop
        { pathIdxs := bc.pathIdxs, nextPathsList := last.pathList, rewritten := parent.rewritten }
        pathList).map
      (fun a =>
        { parent := { parent with rewritten := a.rewritten }
          pathIdxs := a.pathIdxs
          last := some (elem.SetPathList a.nextPathsList) })

/-- The classification at the head of `onInput`:
`elem, ok := anyElem.(BufferMessageInterface)`, then `!ok || len(elem.PathList()) == 0`
sends the value down the pass-through branch (`none`). -/
def asPathBearing : Item → Option Msg
  | Item.other _ => none
  | Item.msg m => if m.pathList.length = 0 then none else some m

/-- The flush shared by `serve` and `onInput`: `output <- bc.last; out.Add(1);
clear(bc.pathIdxs); bc.last = nil`. -/
def flush (bc : bufferChannel) (last : Msg) : bufferChannel :=
  { parent := { bc.parent with
      output := bc.parent.output ++ [Item.msg last]
      out := bc.parent.out + 1 }
    pathIdxs := PathIdxs.empty
    last := none }

/-- `(bc *bufferChannel) onInput(anyElem)`.  `ready` tells whether a consumer is waiting
on the output port at the non-blocking send (`select { case output <- elem: ... default: ... }`). -/
def onInput (bc : bufferChannel) (anyElem : Item) (ready : Bool) : Option bufferChannel :=
  let bc := { bc with parent := { bc.parent with in_ := bc.parent.in_ + 1 } }
  match asPathBearing anyElem with
  | none =>
    let bc := { bc with parent := { bc.parent with notifications := bc.parent.notifications + 1 } }
    let bc := match bc.last with
      | some last => flush bc last
      | none => bc
    some { bc with parent := { bc.parent with
      output := bc.parent.output ++ [anyElem]
      out := bc.parent.out + 1 } }
  | some elem =>
    match bc.last with
    | some _ => collect bc elem
    | none =>
      if ready then
        some { bc with parent := { bc.parent with
          output := bc.parent.output ++ [Item.msg elem]
          out := bc.parent.out + 1 } }
      else
        collect { bc with parent := { bc.parent with retries := bc.parent.retries + 1 } } elem

/-- The outcomes of the `select` in `serve`. -/
inductive Event where
  /-- `elem, open := <-input` with `open`; `ready` is consulted by `onInput` -/
  | recv (elem : Item) (ready : Bool)
  /-- `out <- bc.last` was accepted by a consumer -/
  | sent
  /-- `elem, open := <-input` with `!open` -/
  | closed

/-- One iteration of the loop of `serve` under the given outcome of its `select`.
`none`: the outcome cannot happen (the worker has returned, or `out` is the nil channel
because nothing is held), or `collect` panicked. -/
def serve (bc : bufferChannel) (ev : Event) : Option bufferChannel :=
  if bc.parent.outputClosed then none
  else
    match ev with
    | Event.closed => some { bc with parent := { bc.parent with outputClosed := true } }
    | Event.recv elem ready => onInput bc elem ready
    | Event.sent =>
      match bc.last with
      | none => none
      | some last => some (flush bc last)

/-- The worker run over a finite sequence of `select` outcomes. -/
def run (bc : bufferChannel) : List Event → Option bufferChannel
  | [] => some bc
  | ev :: rest => (serve bc ev).bind (fun bc' => run bc' rest)

/-! ## Vocabulary of the properties -/

/-- The non-nil, non-EOR entries of a path list, in order. -/
def liveEntries (l : PathList) : List Path :=
  l.filterMap (fun o => o.bind (fun p => if p.eor then none else some p))

/-- The non-nil EOR entries of a path list, in order. -/
def eorEntries (l : PathList) : List Path :=
  l.filterMap (fun o => o.bind (fun p => if p.eor then some p else none))

/-- The identity keys of the non-nil, non-EOR entries of a path list, in order. -/
def liveKeys (l : PathList) : List pathKey :=
  (liveEntries l).map keyOf

/-- The number of non-nil entries of a path list. -/
def nonNilCount (l : PathList) : Nat :=
  (l.filter (fun o => o.isSome)).length

/-- The path lists of a sequence of items, concatenated in arrival order. -/
def allPaths : List Msg → PathList
  | [] => []
  | m :: rest => m.pathList ++ allPaths rest

/-- The events "item received, no consumer waiting", one per item, in order. -/
def collectEvents (items : List Msg) : List Event :=
  items.map (fun m => Event.recv (Item.msg m) false)

/-- The events "item received" for items paired with the readiness of the consumer. -/
def recvEvents (items : List (Item × Bool)) : List Event :=
  items.map (fun x => Event.recv x.1 x.2)

/-- The worker holds no aggregate. -/
def Idle (bc : bufferChannel) : Prop := bc.last = none

/-- The worker holds the aggregate `m`. -/
def Holding (bc : bufferChannel) (m : Msg) : Prop := bc.last = some m

/-- Every position recorded in the map is a position of the list, and the entry there is
non-nil, non-EOR and has the key it is recorded under. -/
def IndexSound (idxs : PathIdxs) (l : PathList) : Prop :=
  ∀ k i, idxs k = some i → ∃ q, l[i]? = some (some q) ∧ q.eor = false ∧ keyOf q = k

/-- Every key of a non-nil, non-EOR entry of the list is recorded in the map. -/
def IndexCovers (idxs : PathIdxs) (l : PathList) : Prop :=
  ∀ k, k ∈ liveKeys l → idxs k ≠ none

/-- The index invariant of the worker: the map is empty while nothing is held, and is sound
and covering for the path list of the held aggregate otherwise. -/
def WellIndexed (bc : bufferChannel) : Prop :=
  match bc.last with
  | none => bc.pathIdxs = PathIdxs.empty
  | some m => IndexSound bc.pathIdxs m.pathList ∧ IndexCovers bc.pathIdxs m.pathList

/-- The non-nil, non-EOR entries of the held aggregate, if any, have pairwise distinct keys. -/
def DistinctKeys (bc : bufferChannel) : Prop :=
  ∀ m, bc.last = some m → (liveKeys m.pathList).Nodup

/-- The accumulator with which `collect` enters its merge loop. -/
def mergeStart (bc : bufferChannel) (last : Msg) : MergeAcc :=
  { pathIdxs := bc.pathIdxs, nextPathsList := last.pathList, rewritten := bc.parent.rewritten }

/-- The rule of the specification for one incoming entry `x` of a merge, relating the
aggregate list, the index and `rewritten` before (`a`) and after (`a'`) the entry. -/
def EntryRule (a : MergeAcc) (x : Option Path) (a' : MergeAcc) : Prop :=
  (x = none → a' = a)
  ∧ (∀ p, x = some p → p.eor = true →
      a'.nextPathsList = a.nextPathsList ++ [some p] ∧ a'.pathIdxs = a.pathIdxs
      ∧ a'.rewritten = a.rewritten)
  ∧ (∀ p, x = some p → p.eor = false → a.pathIdxs (keyOf p) = none →
      a'.nextPathsList = a.nextPathsList ++ [some p]
      ∧ a'.pathIdxs (keyOf p) = some a.nextPathsList.length
      ∧ (∀ k, k ≠ keyOf p → a'.pathIdxs k = a.pathIdxs k)
      ∧ a'.rewritten = a.rewritten)
  ∧ (∀ p i, x = some p → p.eor = false → a.pathIdxs (keyOf p) = some i →
      i < a.nextPathsList.length
      ∧ a'.nextPathsList = a.nextPathsList.set i (some p)
      ∧ a'.nextPathsList[i]? = some (some p)
      ∧ a'.nextPathsList.length = a.nextPathsList.length
      ∧ a'.pathIdxs = a.pathIdxs
      ∧ a'.rewritten = a.rewritten + 1)

/-- An item that `onInput` passes through without collecting it: a value without the
path-list capability, or a message whose path list is empty. -/
def Notification : Item → Prop
  | Item.other _ => True
  | Item.msg m => m.pathList = []

/-- The number of aggregates held: 1 while holding, 0 while idle. -/
def heldCount (bc : bufferChannel) : Nat :=
  if bc.last.isSome then 1 else 0

/-- The keys of a list in the order of their first appearance. -/
def firstKeys (ks : List pathKey) : List pathKey :=
  ks.foldl (fun acc k => if k ∈ acc then acc else acc ++ [k]) []

/-- The most recent (last) entry of `xs` that carries the key `k`. -/
def latest (k : pathKey) (xs : List Path) : Option Path :=
  xs.reverse.find? (fun q => decide (keyOf q = k))

/-- What the specification says of an aggregate built from the entries `xs` (the non-nil,
non-EOR entries of the collected items, in arrival order): one entry per key, in the order
of first appearance of the keys, each being the most recent entry with that key. -/
def specAggregate (xs : List Path) : List Path :=
  (firstKeys (xs.map keyOf)).filterMap (fun k => latest k xs)

/-- Insert-or-replace on a list with one entry per key: an entry whose key is present
takes the place of the entry with that key, an entry with a new key goes to the end. -/
def upsert (ys : List Path) (p : Path) : List Path :=
  if keyOf p ∈ ys.map keyOf then ys.map (fun r => if keyOf r = keyOf p then p else r)
  else ys ++ [p]

/-- Along a run from `bc`, every item that seeds an aggregate (path-bearing, received while
nothing is held and no consumer is waiting) has pairwise distinct keys among the non-nil,
non-EOR entries of its path list. -/
def seedsDistinct : bufferChannel → List Event → Bool
  | _, [] => true
  | bc, ev :: rest =>
    (match ev with
      | Event.recv elem false =>
        (match asPathBearing elem, bc.last with
          | some m, none => decide (liveKeys m.pathList).Nodup
          | _, _ => true)
      | _ => true)
    && (match serve bc ev with
      | some bc' => seedsDistinct bc' rest
      | none => true)

/-! ## Path lists in memory

The definitions above treat a path list as a value.  In the program a `[]*table.Path` is a
slice: a window on a backing array that other slices may share, and the merge of `collect`
appends to, and overwrites, the held slice in place while it ranges over the incoming one.
The definitions below model that: `collectMem` is `collect` on slices over a memory of
backing arrays.  The two agree whenever the incoming slice has another backing array than
the held one (`collectMem_refines`). -/

/-- The backing arrays of the path lists; array `i` is `mem[i]`, and its length is what was
allocated for it. -/
abbrev Mem := List PathList

/-- A slice header: the backing array, the position in it of element 0, the length and the
capacity. -/
structure Slice where
  arr : Nat
  off : Nat
  len : Nat
  cap : Nat
  deriving DecidableEq, Repr

/-- The backing array of a slice. -/
def arrayOf (mem : Mem) (s : Slice) : PathList :=
  (mem[s.arr]?).getD []

/-- The slice lies within an allocated array. -/
def Slice.Valid (mem : Mem) (s : Slice) : Prop :=
  s.arr < mem.length ∧ s.len ≤ s.cap ∧ s.off + s.cap ≤ (arrayOf mem s).length

/-- The contents of a slice: `s[0], ..., s[len-1]`. -/
def readSlice (mem : Mem) (s : Slice) : PathList :=
  ((arrayOf mem s).drop s.off).take s.len

/-- The cell `i` of a slice, read from memory (`none` outside the array). -/
def elemAt (mem : Mem) (s : Slice) (i : Nat) : Option (Option Path) :=
  (arrayOf mem s)[s.off + i]?

/-- The assignment `s[i] = x`, in place. -/
def writeSlice (mem : Mem) (s : Slice) (i : Nat) (x : Option Path) : Mem :=
  mem.set s.arr ((arrayOf mem s).set (s.off + i) x)

/-- The built-in `append(s, x)`: in place when the capacity allows, otherwise into a newly
allocated array that receives the elements of `s`.  The capacity of the new array is the
runtime's choice, given by `grow` from the old capacity, and at least the length needed. -/
def appendSlice (grow : Nat → Nat) (mem : Mem) (s : Slice) (x : Option Path) : Mem × Slice :=
  if s.len < s.cap then
    (writeSlice mem s s.len x, { s with len := s.len + 1 })
  else
    (mem ++ [readSlice mem s ++ x ::
        List.replicate (max (s.len + 1) (grow s.cap) - (s.len + 1)) none],
      { arr := mem.length, off := 0, len := s.len + 1,
        cap := max (s.len + 1) (grow s.cap) })

/-- The message of the test file, its path list being a slice. -/
structure MsgMem where
  index : Int
  pathList : Slice
  deriving DecidableEq

/-- The state owned by the worker, with the memory that holds the path lists. -/
structure bufferChannelMem where
  parent : BufferChannel
  pathIdxs : PathIdxs
  last : Option MsgMem
  mem : Mem

/-- What the merge loop of `collect` updates, `nextPathsList` being a slice. -/
structure MergeAccMem where
  pathIdxs : PathIdxs
  nextPathsList : Slice
  mem : Mem
  rewritten : Nat

/-- One iteration of the merge loop of `collect` on slices; `none` is the
index-out-of-range panic of `nextPathsList[idx] = path`. -/
def mergeStepMem (grow : Nat → Nat) (a : MergeAccMem) : Option Path → Option MergeAccMem
  | none => some a
  | some path =>
    if path.eor then
      some { a with
        mem := (appendSlice grow a.mem a.nextPathsList (some path)).1
        nextPathsList := (appendSlice grow a.mem a.nextPathsList (some path)).2 }
    else
      match a.pathIdxs (keyOf path) with
      | none =>
        some { a with
          pathIdxs := a.pathIdxs.set (keyOf path) a.nextPathsList.len
          mem := (appendSlice grow a.mem a.nextPathsList (some path)).1
          nextPathsList := (appendSlice grow a.mem a.nextPathsList (some path)).2 }
      | some idx =>
        if idx < a.nextPathsList.len then
          some { a with
            rewritten := a.rewritten + 1
            mem := writeSlice a.mem a.nextPathsList idx (some path) }
        else none

/-- The merge loop of `collect` on slices, `for _, path := range pathList`: the length of
`pathList` is taken once, and element `i` is read from memory at iteration `i`, after the
writes of the iterations before it.  `n` iterations remain. -/
def mergeLoopMem (grow : Nat → Nat) (pathList : Slice) :
    Nat → Nat → MergeAccMem → Option MergeAccMem
  | 0, _, a => some a
  | n + 1, i, a =>
    (elemAt a.mem pathList i).bind (fun path =>
      (mergeStepMem grow a path).bind (fun a' => mergeLoopMem grow pathList n (i + 1) a'))

/-- The method `collect` on slices.  The seed loop writes no list, so that it ranges over
the contents of the slice. -/
def collectMem (grow : Nat → Nat) (bc : bufferChannelMem) (elem : MsgMem) :
    Option bufferChannelMem :=
  let parent := { bc.parent with collected := bc.parent.collected + 1 }
  let pathList := elem.pathList
  match bc.last with
  | none =>
    some { parent := parent
           pathIdxs := seedLoop 0 (readSlice bc.mem pathList) bc.pathIdxs
           last := some elem
           mem := bc.mem }
  | some last =>
    (mergeLoopMem grow pathList pathList.len 0
        { pathIdxs := bc.pathIdxs, nextPathsList := last.pathList, mem := bc.mem,
          rewritten := parent.rewritten }).map
      (fun a =>
        { parent := { parent with rewritten := a.rewritten }
          pathIdxs := a.pathIdxs
          last := some { elem with pathList := a.nextPathsList }
          mem := a.mem })

/-- A sequence of items collected one after the other. -/
def collectAllMem (grow : Nat → Nat) : bufferChannelMem → List MsgMem → Option bufferChannelMem
  | bc, [] => some bc
  | bc, m :: rest => (collectMem grow bc m).bind (fun bc' => collectAllMem grow bc' rest)

/-- The path lists of a sequence of items as they are when each item is collected. -/
def snapshots (grow : Nat → Nat) : bufferChannelMem → List MsgMem → List PathList
  | _, [] => []
  | bc, m :: rest =>
    readSlice bc.mem m.pathList ::
      (match collectMem grow bc m with
        | some bc' => snapshots grow bc' rest
        | none => [])

/-- The slice lies within an allocated array, as a test. -/
def validSlice (mem : Mem) (s : Slice) : Bool :=
  decide (s.arr < mem.length) && decide (s.len ≤ s.cap)
    && decide (s.off + s.cap ≤ (arrayOf mem s).length)

/-- Along the collection of a sequence of items, every item is a slice of an allocated
array, and no item that is merged has the backing array of the aggregate held at that
moment. -/
def aliasFree (grow : Nat → Nat) : bufferChannelMem → List MsgMem → Bool
  | _, [] => true
  | bc, m :: rest =>
    validSlice bc.mem m.pathList
    && (match bc.last with
      | some last => decide (last.pathList.arr ≠ m.pathList.arr)
      | none => true)
    && (match collectMem grow bc m with
      | some bc' => aliasFree grow bc' rest
      | none => true)

/-- The item with its path list read from memory. -/
def absMsg (mem : Mem) (m : MsgMem) : Msg :=
  { index := m.index, pathList := readSlice mem m.pathList }

/-- The state of the worker with the held path list read from memory. -/
def absState (bc : bufferChannelMem) : bufferChannel :=
  { parent := bc.parent, pathIdxs := bc.pathIdxs, last := bc.last.map (absMsg bc.mem) }

/-- The accumulator of the merge loop with `nextPathsList` read from memory. -/
def absAcc (a : MergeAccMem) : MergeAcc :=
  { pathIdxs := a.pathIdxs, nextPathsList := readSlice a.mem a.nextPathsList,
    rewritten := a.rewritten }

/-- What holds of the merge loop on slices while it ranges over the slice `inc`, which was
in the memory `mem0` when the loop began: `nextPathsList` is a valid slice with another
backing array than `inc`, and the backing array of `inc` is as it was. -/
def MergeInv (mem0 : Mem) (inc : Slice) (a : MergeAccMem) : Prop :=
  a.nextPathsList.Valid a.mem
  ∧ a.nextPathsList.arr ≠ inc.arr
  ∧ inc.arr < mem0.length
  ∧ mem0.length ≤ a.mem.length
  ∧ arrayOf a.mem inc = arrayOf mem0 inc

/-! ## The fixtures of `buffer_channel_test.go` -/

/-- `newPath4(ipAddress, community)`: an IPv4 unicast path (`RF_IPv4_UC = 1<<16 | 1`)
without path identifier, whose only attribute is the community. -/
def newPath4 (ipAddress : String) (community : Nat) : Path :=
  { rf := 65537, nlri := ipAddress, pathIdentifier := 0, eor := false, attrs := community }

/-- `newPathLabelled4(ipAddress, community)`: as `newPath4`, for a labelled IPv4 prefix
(`RF_IPv4_MPLS = 1<<16 | 4`). -/
def newPathLabelled4 (ipAddress : String) (community : Nat) : Path :=
  { rf := 65540, nlri := ipAddress, pathIdentifier := 0, eor := false, attrs := community }

/-- `newPathWithPI4(ipAddress, community, pi)`: as `newPath4`, with path identifier `pi`. -/
def newPathWithPI4 (ipAddress : String) (community : Nat) (pi : Nat) : Path :=
  { rf := 65537, nlri := ipAddress, pathIdentifier := pi, eor := false, attrs := community }

/-- An End-of-RIB marker of the IPv4 unicast family. -/
def eorPath4 : Path :=
  { rf := 65537, nlri := "", pathIdentifier := 0, eor := true, attrs := 0 }

/-- A single item that carries the same key twice. -/
def dupSeed : Msg :=
  { index := 1, pathList := [some (newPath4 "10.0.0.100" 1), some (newPath4 "10.0.0.100" 2)] }

/-- The worker state of `NewBufferChannel(1)`, the channel of the collecting tests. -/
def testChannel : bufferChannel :=
  { parent :=
      { inputCap := 1, outputCap := 0,
        in_ := 0, notifications := 0, collected := 0, rewritten := 0, retries := 0, out := 0,
        output := [], outputClosed := false }
    pathIdxs := PathIdxs.empty
    last := none }

/-- The four items of `TestCollect`. -/
def collectItems : List Msg :=
  [ { index := 1, pathList := [some (newPath4 "10.0.0.100" 1)] },
    { index := 2, pathList := [some (newPath4 "10.0.0.100" 2)] },
    { index := 3, pathList := [some (newPath4 "10.0.0.100" 3)] },
    { index := 4, pathList := [some (newPath4 "10.0.0.100" 4)] } ]

/-- The four items of `TestCollectMultiNlris`. -/
def multiNlrisItems : List Msg :=
  [ { index := 1, pathList := [some (newPath4 "10.0.0.100" 1), some (newPath4 "10.0.0.101" 11)] },
    { index := 2, pathList := [some (newPath4 "10.0.0.100" 2), some (newPath4 "10.0.0.102" 22)] },
    { index := 3, pathList := [some (newPath4 "10.0.0.100" 3), some (newPath4 "10.0.0.103" 33)] },
    { index := 4, pathList := [some (newPath4 "10.0.0.100" 4), some (newPath4 "10.0.0.104" 44)] } ]

/-- The path list that `TestCollectMultiNlris` expects. -/
def multiNlrisExpected : PathList :=
  [ some (newPath4 "10.0.0.100" 4), some (newPath4 "10.0.0.101" 11),
    some (newPath4 "10.0.0.102" 22), some (newPath4 "10.0.0.103" 33),
    some (newPath4 "10.0.0.104" 44) ]

/-- The item `dupSeed` followed by an item with the same key once more. -/
def staleItems : List Msg :=
  [ dupSeed, { index := 2, pathList := [some (newPath4 "10.0.0.100" 3)] } ]

/-- Three items that repeat one key and carry End-of-RIB markers, of two families. -/
def eorItems : List Msg :=
  [ { index := 1, pathList := [some (newPath4 "10.0.0.100" 1), some eorPath4] },
    { index := 2, pathList := [some { eorPath4 with rf := 131073 }, some (newPath4 "10.0.0.100" 2)] },
    { index := 3, pathList := [some (newPath4 "10.0.0.100" 3), none, some eorPath4] } ]

/-- The first item of `TestCollectMultiNlris`. -/
def firstItem : Msg :=
  { index := 1, pathList := [some (newPath4 "10.0.0.100" 1), some (newPath4 "10.0.0.101" 11)] }

/-- The second item of `TestCollectMultiNlris`. -/
def secondItem : Msg :=
  { index := 2, pathList := [some (newPath4 "10.0.0.100" 2), some (newPath4 "10.0.0.102" 22)] }

/-- The worker of `testChannel` after `firstItem` was received with no consumer waiting. -/
def heldFirst : bufferChannel :=
  { parent := { testChannel.parent with in_ := 1, retries := 1, collected := 1 }
    pathIdxs := seedLoop 0 firstItem.pathList PathIdxs.empty
    last := some firstItem }

/-- The four items of `TestCollectMultiRFs`. -/
def multiRFsItems : List Msg :=
  [ { index := 1, pathList := [some (newPath4 "10.0.0.100" 1)] },
    { index := 2, pathList := [some (newPath4 "10.0.0.100" 2)] },
    { index := 3, pathList := [some (newPathLabelled4 "10.0.0.100" 3)] },
    { index := 4, pathList := [some (newPathLabelled4 "10.0.0.100" 4)] } ]

/-- The worker of `testChannel` after the first two items of `TestCollectMultiRFs` were
received with no consumer waiting. -/
def heldTwoRFs : bufferChannel :=
  { parent := { testChannel.parent with in_ := 2, retries := 1, collected := 2, rewritten := 1 }
    pathIdxs := seedLoop 0 [some (newPath4 "10.0.0.100" 1)] PathIdxs.empty
    last := some { index := 2, pathList := [some (newPath4 "10.0.0.100" 2)] } }

/-- The four values of `TestAnyElement`, and the four empty messages of `TestBase`, each
with a state of the consumer. -/
def notificationItems : List (Item × Bool) :=
  [ (Item.other 1, false), (Item.other 2, true), (Item.other 3, false), (Item.other 4, true),
    (Item.msg { index := 1, pathList := [] }, false),
    (Item.msg { index := 2, pathList := [] }, true),
    (Item.msg { index := 3, pathList := [] }, false),
    (Item.msg { index := 4, pathList := [] }, true) ]

/-- The map records, for the key of every non-nil, non-EOR entry of the list, the last
position of the list that holds a non-nil, non-EOR entry with that key. -/
def IndexLast (idxs : PathIdxs) (l : PathList) : Prop :=
  ∀ i q, l[i]? = some (some q) → q.eor = false →
    ∃ j, idxs (keyOf q) = some j ∧ i ≤ j
      ∧ ∀ j' q', l[j']? = some (some q') → q'.eor = false → keyOf q' = keyOf q → j' ≤ j

/-- The number of items received in a sequence of `select` outcomes. -/
def recvCount : List Event → Nat
  | [] => 0
  | Event.recv _ _ :: rest => recvCount rest + 1
  | _ :: rest => recvCount rest

/-- Whether the outcome `ev` in the state `bc` sends the held aggregate downstream: the
pending aggregate is accepted, or an item that is passed through arrives while an aggregate
is held. -/
def sendsAggregate (bc : bufferChannel) : Event → Bool
  | Event.sent => bc.last.isSome
  | Event.recv elem _ => bc.last.isSome && (asPathBearing elem).isNone
  | Event.closed => false

/-- The number of aggregates sent downstream along a run from `bc`. -/
def aggregatesSent : bufferChannel → List Event → Nat
  | _, [] => 0
  | bc, ev :: rest =>
    match serve bc ev with
    | none => 0
    | some bc' => (if sendsAggregate bc ev then 1 else 0) + aggregatesSent bc' rest

/-- The map records exactly the keys of the non-nil, non-EOR entries of the list, each at
the position of its entry, and these keys are pairwise distinct. -/
def IndexExact (idxs : PathIdxs) (l : PathList) : Prop :=
  (liveKeys l).Nodup
  ∧ ∀ (k : pathKey) (i : Nat),
      idxs k = some i ↔ ∃ q, l[i]? = some (some q) ∧ q.eor = false ∧ keyOf q = k

/-- No entry of the path list is an EOR entry. -/
def EorFree (l : PathList) : Prop :=
  ∀ p, some p ∈ l → p.eor = false

/-- A choice of the runtime for the capacity of a reallocated array: twice the old one. -/
def growDouble : Nat → Nat := fun c => 2 * c

/-- A worker that holds nothing, with the counters of `testChannel`, over the memory `mem`. -/
def memChannel (mem : Mem) : bufferChannelMem :=
  { parent := testChannel.parent, pathIdxs := PathIdxs.empty, last := none, mem := mem }

/-- One backing array of four cells: a path, an End-of-RIB marker, and two more paths. -/
def sharedMem : Mem :=
  [[some (newPath4 "10.0.0.1" 1), some eorPath4, some (newPath4 "10.0.0.2" 2),
    some (newPath4 "10.0.0.3" 3)]]

/-- Two items over `sharedMem`: the first two cells, then all four (`arr[:2]`, `arr[:4]`). -/
def sharedItems : List MsgMem :=
  [ { index := 1, pathList := { arr := 0, off := 0, len := 2, cap := 4 } },
    { index := 2, pathList := { arr := 0, off := 0, len := 4, cap := 4 } } ]

/-- One backing array of three cells, the last of which is nil. -/
def sharedNilMem : Mem :=
  [[some (newPath4 "10.0.0.1" 1), some eorPath4, none]]

/-- Two items over `sharedNilMem`: the first two cells, then all three. -/
def sharedNilItems : List MsgMem :=
  [ { index := 1, pathList := { arr := 0, off := 0, len := 2, cap := 3 } },
    { index := 2, pathList := { arr := 0, off := 0, len := 3, cap := 3 } } ]

/-- The items of `TestCollectMultiNlris`, each path list in a backing array of its own. -/
def multiNlrisMem : Mem :=
  multiNlrisItems.map (fun m => m.pathList)

/-- The items of `TestCollectMultiNlris` as slices of `multiNlrisMem`. -/
def multiNlrisSlices : List MsgMem :=
  [ { index := 1, pathList := { arr := 0, off := 0, len := 2, cap := 2 } },
    { index := 2, pathList := { arr := 1, off := 0, len := 2, cap := 2 } },
    { index := 3, pathList := { arr := 2, off := 0, len := 2, cap := 2 } },
    { index := 4, pathList := { arr := 3, off := 0, len := 2, cap := 2 } } ]

/-- The items `eorItems`, each path list in a backing array of its own. -/
def eorMem : Mem :=
  eorItems.map (fun m => m.pathList)

/-- The items `eorItems` as slices of `eorMem`. -/
def eorSlices : List MsgMem :=
  [ { index := 1, pathList := { arr := 0, off := 0, len := 2, cap := 2 } },
    { index := 2, pathList := { arr := 1, off := 0, len := 2, cap := 2 } },
    { index := 3, pathList := { arr := 2, off := 0, len := 3, cap := 3 } } ]

/-- The items `staleItems`, each path list in a backing array of its own. -/
def staleMem : Mem :=
  staleItems.map (fun m => m.pathList)

/-- The items `staleItems` as slices of `staleMem`. -/
def staleSlices : List MsgMem :=
  [ { index := 1, pathList := { arr := 0, off := 0, len := 2, cap := 2 } },
    { index := 2, pathList := { arr := 1, off := 0, len := 1, cap := 1 } } ]

/-- The worker over `multiNlrisMem` after the first item of `TestCollectMultiNlris` seeded
the aggregate. -/
def heldFirstMem : bufferChannelMem :=
  { parent := heldFirst.parent
    pathIdxs := heldFirst.pathIdxs
    last := some { index := 1, pathList := { arr := 0, off := 0, len := 2, cap := 2 } }
    mem := multiNlrisMem }

/-- Two backing arrays with the contents of `dupSeed`. -/
def dupMem : Mem :=
  [dupSeed.pathList, dupSeed.pathList]

/-- The whole of the first array of `dupMem`, sent twice (the same slice), then the whole
of the second array. -/
def dupSlices : List MsgMem :=
  [ { index := 1, pathList := { arr := 0, off := 0, len := 2, cap := 2 } },
    { index := 1, pathList := { arr := 0, off := 0, len := 2, cap := 2 } },
    { index := 2, pathList := { arr := 1, off := 0, len := 2, cap := 2 } } ]

/-! ## Path lists -/

theorem liveEntries_nil : liveEntries [] = [] := rfl

theorem liveEntries_append (l l' : PathList) :
    liveEntries (l ++ l') = liveEntries l ++ liveEntries l' := by
  simp [liveEntries, List.filterMap_append]

theorem eorEntries_append (l l' : PathList) :
    eorEntries (l ++ l') = eorEntries l ++ eorEntries l' := by
  simp [eorEntries, List.filterMap_append]

theorem liveKeys_append (l l' : PathList) :
    liveKeys (l ++ l') = liveKeys l ++ liveKeys l' := by
  simp [liveKeys, liveEntries_append]

theorem liveEntries_cons_none (l : PathList) : liveEntries (none :: l) = liveEntries l := by
  simp [liveEntries]

theorem liveEntries_cons_eor (p : Path) (l : PathList) (h : p.eor = true) :
    liveEntries (some p :: l) = liveEntries l := by
  simp [liveEntries, h]

theorem liveEntries_cons_live (p : Path) (l : PathList) (h : p.eor = false) :
    liveEntries (some p :: l) = p :: liveEntries l := by
  simp [liveEntries, h]

theorem eorEntries_cons_none (l : PathList) : eorEntries (none :: l) = eorEntries l := by
  simp [eorEntries]

theorem eorEntries_cons_eor (p : Path) (l : PathList) (h : p.eor = true) :
    eorEntries (some p :: l) = p :: eorEntries l := by
  simp [eorEntries, h]

theorem eorEntries_cons_live (p : Path) (l : PathList) (h : p.eor = false) :
    eorEntries (some p :: l) = eorEntries l := by
  simp [eorEntries, h]

/-- Overwriting a non-EOR entry by a non-EOR entry leaves the EOR entries alone. -/
theorem eorEntries_set (l : PathList) (i : Nat) (q p : Path)
    (hq : l[i]? = some (some q)) (hqe : q.eor = false) (hpe : p.eor = false) :
    eorEntries (l.set i (some p)) = eorEntries l := by
  induction l generalizing i with
  | nil => simp
  | cons x l ih =>
    cases i with
    | zero =>
      simp at hq
      subst hq
      simp [eorEntries_cons_live, hqe, hpe]
    | succ i =>
      simp at hq
      have := ih i hq
      cases x with
      | none => simpa [eorEntries_cons_none] using this
      | some y =>
        cases hy : y.eor with
        | true => simp [eorEntries_cons_eor, hy, this]
        | false => simp [eorEntries_cons_live, hy, this]

/-- Overwriting a non-EOR entry by a non-EOR entry with the same key leaves the keys alone. -/
theorem liveKeys_set (l : PathList) (i : Nat) (q p : Path)
    (hq : l[i]? = some (some q)) (hqe : q.eor = false) (hpe : p.eor = false)
    (hk : keyOf p = keyOf q) :
    liveKeys (l.set i (some p)) = liveKeys l := by
  induction l generalizing i with
  | nil => simp
  | cons x l ih =>
    cases i with
    | zero =>
      simp at hq
      subst hq
      simp [liveKeys, liveEntries_cons_live, hqe, hpe, hk]
    | succ i =>
      simp at hq
      have := ih i hq
      cases x with
      | none => simpa [liveKeys, liveEntries_cons_none] using this
      | some y =>
        cases hy : y.eor with
        | true => simpa [liveKeys, liveEntries_cons_eor, hy] using this
        | false => simpa [liveKeys, liveEntries_cons_live, hy] using this

/-- An entry found at a position is among the non-nil, non-EOR entries. -/
theorem mem_liveEntries_of_getElem (l : PathList) (i : Nat) (q : Path)
    (hq : l[i]? = some (some q)) (hqe : q.eor = false) : q ∈ liveEntries l := by
  have hmem : some q ∈ l := List.getElem?_mem hq
  simp only [liveEntries, List.mem_filterMap]
  exact ⟨some q, hmem, by simp [hqe]⟩

theorem mem_liveEntries (l : PathList) (q : Path) :
    q ∈ liveEntries l ↔ some q ∈ l ∧ q.eor = false := by
  simp only [liveEntries, List.mem_filterMap]
  constructor
  · rintro ⟨o, ho, hb⟩
    cases o with
    | none => simp at hb
    | some r =>
      by_cases hr : r.eor = true
      · simp [hr] at hb
      · simp [hr] at hb
        subst hb
        exact ⟨ho, by simpa using hr⟩
  · rintro ⟨h1, h2⟩
    exact ⟨some q, h1, by simp [h2]⟩

/-! ## The specification of an aggregate -/

theorem firstKeys_snoc (ks : List pathKey) (k : pathKey) :
    firstKeys (ks ++ [k]) = if k ∈ firstKeys ks then firstKeys ks else firstKeys ks ++ [k] := by
  simp [firstKeys, List.foldl_append]

theorem mem_firstKeys (ks : List pathKey) (k : pathKey) : k ∈ firstKeys ks ↔ k ∈ ks := by
  induction ks using List.reverseRecOn with
  | nil => simp [firstKeys]
  | append_singleton ks k' ih =>
    rw [firstKeys_snoc]
    by_cases h : k' ∈ firstKeys ks
    · simp only [h, if_true, List.mem_append, List.mem_singleton]
      constructor
      · intro hk; exact Or.inl (ih.mp hk)
      · rintro (hk | hk)
        · exact ih.mpr hk
        · subst hk; exact h
    · simp only [h, if_false, List.mem_append, List.mem_singleton, ih]

theorem firstKeys_nodup (ks : List pathKey) : (firstKeys ks).Nodup := by
  induction ks using List.reverseRecOn with
  | nil => simp [firstKeys]
  | append_singleton ks k' ih =>
    rw [firstKeys_snoc]
    by_cases h : k' ∈ firstKeys ks
    · simpa [h] using ih
    · simp only [h, if_false]
      rw [List.nodup_append]
      refine ⟨ih, by simp, ?_⟩
      intro a ha hb
      simp at hb
      subst hb
      exact h ha

theorem latest_snoc (k : pathKey) (xs : List Path) (p : Path) :
    latest k (xs ++ [p]) = if keyOf p = k then some p else latest k xs := by
  simp [latest, List.find?_cons]
  by_cases h : keyOf p = k <;> simp [h]

theorem latest_key (k : pathKey) (xs : List Path) (q : Path) (h : latest k xs = some q) :
    keyOf q = k := by
  have := List.find?_some h
  simpa using this

theorem latest_isSome (k : pathKey) (xs : List Path) (h : k ∈ xs.map keyOf) :
    ∃ q, latest k xs = some q ∧ keyOf q = k := by
  cases hl : latest k xs with
  | none =>
    exfalso
    simp only [latest, List.find?_eq_none] at hl
    obtain ⟨q, hq, hk⟩ := List.mem_map.mp h
    have := hl q (by simpa using hq)
    simp [hk] at this
  | some q => exact ⟨q, rfl, latest_key k xs q hl⟩

theorem specAggregate_keys (xs : List Path) :
    (specAggregate xs).map keyOf = firstKeys (xs.map keyOf) := by
  unfold specAggregate
  have key : ∀ ks : List pathKey, (∀ k ∈ ks, k ∈ xs.map keyOf) →
      (ks.filterMap (fun k => latest k xs)).map keyOf = ks := by
    intro ks
    induction ks with
    | nil => intro _; simp
    | cons k ks ih =>
      intro h
      obtain ⟨q, hq, hk⟩ := latest_isSome k xs (h k (by simp))
      have := ih (fun k' hk' => h k' (by simp [hk']))
      simp [List.filterMap_cons, hq, hk, this]
  exact key _ (fun k hk => (mem_firstKeys _ k).mp hk)

theorem specAggregate_snoc (xs : List Path) (p : Path) :
    specAggregate (xs ++ [p]) = upsert (specAggregate xs) p := by
  unfold upsert
  rw [specAggregate_keys]
  unfold specAggregate
  rw [List.map_append, List.map_singleton, firstKeys_snoc]
  by_cases h : keyOf p ∈ firstKeys (xs.map keyOf)
  · simp only [h, if_true]
    have key : ∀ ks : List pathKey, (∀ k ∈ ks, k ∈ xs.map keyOf) →
        ks.filterMap (fun k => latest k (xs ++ [p]))
          = (ks.filterMap (fun k => latest k xs)).map
              (fun r => if keyOf r = keyOf p then p else r) := by
      intro ks
      induction ks with
      | nil => intro _; simp
      | cons k ks ih =>
        intro hks
        obtain ⟨q, hq, hk⟩ := latest_isSome k xs (hks k (by simp))
        have := ih (fun k' hk' => hks k' (by simp [hk']))
        rw [List.filterMap_cons, List.filterMap_cons, latest_snoc, hq, this]
        by_cases hpk : keyOf p = k
        · simp [hpk, hk]
        · have : ¬ keyOf q = keyOf p := by rw [hk]; exact fun e => hpk e.symm
          simp [hpk, this]
    exact key _ (fun k hk => (mem_firstKeys _ k).mp hk)
  · simp only [h, if_false]
    rw [List.filterMap_append]
    have h1 : (firstKeys (xs.map keyOf)).filterMap (fun k => latest k (xs ++ [p]))
        = (firstKeys (xs.map keyOf)).filterMap (fun k => latest k xs) := by
      apply List.filterMap_congr
      intro k hk
      rw [latest_snoc]
      have : ¬ keyOf p = k := by
        intro e; subst e; exact h hk
      simp [this]
    rw [h1]
    simp [latest_snoc]

theorem specAggregate_nil : specAggregate [] = [] := rfl

theorem upsert_fresh (ys : List Path) (p : Path) (h : keyOf p ∉ ys.map keyOf) :
    upsert ys p = ys ++ [p] := by
  simp only [upsert, h, if_false]

/-- A list with pairwise distinct keys is its own aggregate. -/
theorem specAggregate_of_nodup (xs : List Path) (h : (xs.map keyOf).Nodup) :
    specAggregate xs = xs := by
  induction xs using List.reverseRecOn with
  | nil => rfl
  | append_singleton xs p ih =>
    rw [List.map_append, List.nodup_append] at h
    obtain ⟨h1, _, h3⟩ := h
    rw [specAggregate_snoc, ih h1]
    apply upsert_fresh
    intro hm
    exact h3 hm (by simp)

theorem specAggregate_append (xs ys : List Path) :
    specAggregate (xs ++ ys) = ys.foldl upsert (specAggregate xs) := by
  induction ys using List.reverseRecOn with
  | nil => simp
  | append_singleton ys p ih =>
    rw [← List.append_assoc, specAggregate_snoc, ih, List.foldl_append]
    rfl

/-! ## One iteration of the merge loop -/

theorem mergeStep_nil (a : MergeAcc) : mergeStep a none = some a := rfl

theorem mergeStep_eor (a : MergeAcc) (p : Path) (h : p.eor = true) :
    mergeStep a (some p) = some { a with nextPathsList := a.nextPathsList ++ [some p] } := by
  simp [mergeStep, h]

theorem mergeStep_new (a : MergeAcc) (p : Path) (h : p.eor = false)
    (hk : a.pathIdxs (keyOf p) = none) :
    mergeStep a (some p) = some { a with
      pathIdxs := a.pathIdxs.set (keyOf p) a.nextPathsList.length
      nextPathsList := a.nextPathsList ++ [some p] } := by
  simp [mergeStep, h, hk]

theorem mergeStep_rewrite (a : MergeAcc) (p : Path) (i : Nat) (h : p.eor = false)
    (hk : a.pathIdxs (keyOf p) = some i) (hi : i < a.nextPathsList.length) :
    mergeStep a (some p) = some { a with
      rewritten := a.rewritten + 1
      nextPathsList := a.nextPathsList.set i (some p) } := by
  simp [mergeStep, h, hk, hi]

theorem IndexSound_lt {idxs : PathIdxs} {l : PathList} (h : IndexSound idxs l)
    {k : pathKey} {i : Nat} (hk : idxs k = some i) : i < l.length := by
  obtain ⟨q, hq, _, _⟩ := h k i hk
  by_contra hlt
  rw [List.getElem?_eq_none (by omega)] at hq
  cases hq

theorem IndexSound_append {idxs : PathIdxs} {l : PathList} (h : IndexSound idxs l)
    (l' : PathList) : IndexSound idxs (l ++ l') := by
  intro k i hk
  obtain ⟨q, hq, hqe, hqk⟩ := h k i hk
  refine ⟨q, ?_, hqe, hqk⟩
  rw [List.getElem?_append_left (IndexSound_lt h hk)]
  exact hq

theorem IndexSound_push {idxs : PathIdxs} {l : PathList} (h : IndexSound idxs l)
    (p : Path) (hp : p.eor = false) :
    IndexSound (idxs.set (keyOf p) l.length) (l ++ [some p]) := by
  intro k i hk
  unfold PathIdxs.set at hk
  by_cases e : k = keyOf p
  · simp only [e, if_true, Option.some.injEq] at hk
    subst hk
    exact ⟨p, by simp, hp, e.symm⟩
  · simp only [e, if_false] at hk
    exact IndexSound_append h [some p] k i hk

theorem IndexSound_rewrite {idxs : PathIdxs} {l : PathList} (h : IndexSound idxs l)
    (p : Path) (hp : p.eor = false) (i : Nat) (hi : idxs (keyOf p) = some i) :
    IndexSound idxs (l.set i (some p)) := by
  intro k j hk
  by_cases e : i = j
  · subst e
    obtain ⟨q, _, _, hqk⟩ := h k i hk
    obtain ⟨q', _, _, hqk'⟩ := h (keyOf p) i hi
    refine ⟨p, ?_, hp, ?_⟩
    · rw [List.getElem?_set]
      simp [IndexSound_lt h hi]
    · have hh := h k i hk
      have hh' := h (keyOf p) i hi
      obtain ⟨r, hr, _, hrk⟩ := hh
      obtain ⟨r', hr', _, hrk'⟩ := hh'
      rw [hr] at hr'
      simp only [Option.some.injEq] at hr'
      subst hr'
      rw [← hrk, hrk']
  · obtain ⟨q, hq, hqe, hqk⟩ := h k j hk
    exact ⟨q, by rw [List.getElem?_set_ne e]; exact hq, hqe, hqk⟩

theorem IndexCovers_push {idxs : PathIdxs} {l : PathList} (h : IndexCovers idxs l)
    (p : Path) (hp : p.eor = false) :
    IndexCovers (idxs.set (keyOf p) l.length) (l ++ [some p]) := by
  intro k hk
  unfold PathIdxs.set
  by_cases e : k = keyOf p
  · simp [e]
  · simp only [e, if_false]
    apply h
    rw [liveKeys_append] at hk
    simp [liveKeys, liveEntries, hp] at hk
    rcases hk with hk | hk
    · simpa [liveKeys, liveEntries] using hk
    · exact absurd hk e

theorem IndexCovers_push_eor {idxs : PathIdxs} {l : PathList} (h : IndexCovers idxs l)
    (p : Path) (hp : p.eor = true) : IndexCovers idxs (l ++ [some p]) := by
  intro k hk
  apply h
  rw [liveKeys_append] at hk
  simpa [liveKeys, liveEntries, hp] using hk

/-- Overwriting the slot of a key, in a list with pairwise distinct keys, is the
replacement of the entry with that key. -/
theorem liveEntries_set_nodup (l : PathList) (i : Nat) (q p : Path)
    (hq : l[i]? = some (some q)) (hqe : q.eor = false) (hpe : p.eor = false)
    (hk : keyOf q = keyOf p) (hnd : (liveKeys l).Nodup) :
    liveEntries (l.set i (some p))
      = (liveEntries l).map (fun r => if keyOf r = keyOf p then p else r) := by
  induction l generalizing i with
  | nil => simp at hq
  | cons x l ih =>
    cases i with
    | zero =>
      simp at hq
      subst hq
      simp only [List.set_cons_zero, liveEntries_cons_live _ _ hqe, liveEntries_cons_live _ _ hpe,
        List.map_cons, hk, if_true]
      congr 1
      simp only [liveKeys, liveEntries_cons_live _ _ hqe, List.map_cons, List.nodup_cons] at hnd
      have hid : (liveEntries l).map (fun r => if keyOf r = keyOf p then p else r)
          = (liveEntries l).map id := by
        apply List.map_congr_left
        intro r hr
        have : ¬ keyOf r = keyOf p := by
          intro e
          apply hnd.1
          rw [hk, ← e]
          exact List.mem_map_of_mem _ hr
        simp [this]
      rw [hid, List.map_id]
    | succ i =>
      simp at hq
      cases x with
      | none =>
        simp only [List.set_cons_succ, liveEntries_cons_none]
        exact ih i hq (by simpa [liveKeys, liveEntries_cons_none] using hnd)
      | some y =>
        cases hy : y.eor with
        | true =>
          simp only [List.set_cons_succ, liveEntries_cons_eor _ _ hy]
          exact ih i hq (by simpa [liveKeys, liveEntries_cons_eor _ _ hy] using hnd)
        | false =>
          simp only [liveKeys, liveEntries_cons_live _ _ hy, List.map_cons,
            List.nodup_cons] at hnd
          simp only [List.set_cons_succ, liveEntries_cons_live _ _ hy, List.map_cons]
          rw [ih i hq hnd.2]
          have : ¬ keyOf y = keyOf p := by
            intro e
            apply hnd.1
            rw [e, ← hk]
            exact List.mem_map_of_mem _ (mem_liveEntries_of_getElem l i q hq hqe)
          simp [this]

/-! ## The merge loop keeps a sound index -/

/-- With a sound index an iteration of the merge loop does not panic, the index stays
sound (and stays covering), the EOR entries are kept and extended, and, when the keys are
pairwise distinct, the non-EOR entries are updated by `upsert`. -/
theorem mergeStep_spec (a : MergeAcc) (x : Option Path)
    (hs : IndexSound a.pathIdxs a.nextPathsList) :
    ∃ a', mergeStep a x = some a'
      ∧ IndexSound a'.pathIdxs a'.nextPathsList
      ∧ (IndexCovers a.pathIdxs a.nextPathsList → IndexCovers a'.pathIdxs a'.nextPathsList)
      ∧ eorEntries a'.nextPathsList = eorEntries a.nextPathsList ++ eorEntries [x]
      ∧ (IndexCovers a.pathIdxs a.nextPathsList → (liveKeys a.nextPathsList).Nodup →
          (liveKeys a'.nextPathsList).Nodup
          ∧ liveEntries a'.nextPathsList
              = (liveEntries [x]).foldl upsert (liveEntries a.nextPathsList)) := by
  cases x with
  | none =>
    refine ⟨a, rfl, hs, id, by simp [eorEntries], fun _ hnd => ⟨hnd, by simp [liveEntries]⟩⟩
  | some p =>
    cases hp : p.eor with
    | true =>
      refine ⟨_, mergeStep_eor a p hp, IndexSound_append hs _, fun hc => IndexCovers_push_eor hc p hp, ?_, ?_⟩
      · simp [eorEntries_append, eorEntries, hp]
      · intro _ hnd
        constructor
        · simpa [liveKeys_append, liveKeys, liveEntries, hp] using hnd
        · simp [liveEntries_append, liveEntries, hp]
    | false =>
      cases hk : a.pathIdxs (keyOf p) with
      | none =>
        refine ⟨_, mergeStep_new a p hp hk, IndexSound_push hs p hp, fun hc => IndexCovers_push hc p hp, ?_, ?_⟩
        · simp [eorEntries_append, eorEntries, hp]
        · intro hc hnd
          have hfresh : keyOf p ∉ liveKeys a.nextPathsList := fun hm => hc _ hm hk
          have hl : liveEntries [some p] = [p] := by simp [liveEntries, hp]
          constructor
          · simp only [liveKeys_append]
            rw [List.nodup_append]
            refine ⟨hnd, by simp [liveKeys, hl], ?_⟩
            intro k hk1 hk2
            simp [liveKeys, hl] at hk2
            subst hk2
            exact hfresh hk1
          · simp only [liveEntries_append, hl, List.foldl_cons, List.foldl_nil]
            rw [upsert_fresh _ _ hfresh]
      | some i =>
        obtain ⟨q, hq, hqe, hqk⟩ := hs _ _ hk
        refine ⟨_, mergeStep_rewrite a p i hp hk (IndexSound_lt hs hk), IndexSound_rewrite hs p hp i hk, ?_, ?_, ?_⟩
        · intro hc k hkm
          apply hc
          simpa [liveKeys_set _ _ q p hq hqe hp hqk.symm] using hkm
        · show eorEntries (a.nextPathsList.set i (some p)) = _
          rw [eorEntries_set _ _ q p hq hqe hp]
          simp [eorEntries, hp]
        · intro _ hnd
          have hl : liveEntries [some p] = [p] := by simp [liveEntries, hp]
          constructor
          · simpa [liveKeys_set _ _ q p hq hqe hp hqk.symm] using hnd
          · simp only [hl, List.foldl_cons, List.foldl_nil]
            rw [liveEntries_set_nodup _ _ q p hq hqe hp hqk hnd]
            have hmem : keyOf p ∈ (liveEntries a.nextPathsList).map keyOf := by
              rw [← hqk]
              exact List.mem_map_of_mem _ (mem_liveEntries_of_getElem _ _ _ hq hqe)
            simp only [upsert, hmem, if_true]

/-- The statement of `mergeStep_spec` for the whole loop. -/
theorem mergeLoop_spec (L : PathList) (a : MergeAcc)
    (hs : IndexSound a.pathIdxs a.nextPathsList) :
    ∃ a', mergeLoop a L = some a'
      ∧ IndexSound a'.pathIdxs a'.nextPathsList
      ∧ (IndexCovers a.pathIdxs a.nextPathsList → IndexCovers a'.pathIdxs a'.nextPathsList)
      ∧ eorEntries a'.nextPathsList = eorEntries a.nextPathsList ++ eorEntries L
      ∧ (IndexCovers a.pathIdxs a.nextPathsList → (liveKeys a.nextPathsList).Nodup →
          (liveKeys a'.nextPathsList).Nodup
          ∧ liveEntries a'.nextPathsList
              = (liveEntries L).foldl upsert (liveEntries a.nextPathsList)) := by
  induction L generalizing a with
  | nil =>
    exact ⟨a, rfl, hs, id, by simp [eorEntries], fun _ hnd => ⟨hnd, by simp [liveEntries]⟩⟩
  | cons x L ih =>
    obtain ⟨a1, h1, hs1, hc1, he1, hd1⟩ := mergeStep_spec a x hs
    obtain ⟨a2, h2, hs2, hc2, he2, hd2⟩ := ih a1 hs1
    refine ⟨a2, by simp [mergeLoop, h1, h2], hs2, fun hc => hc2 (hc1 hc), ?_, ?_⟩
    · rw [he2, he1, List.append_assoc, ← eorEntries_append]
      rfl
    · intro hc hnd
      obtain ⟨hnd1, hl1⟩ := hd1 hc hnd
      obtain ⟨hnd2, hl2⟩ := hd2 (hc1 hc) hnd1
      refine ⟨hnd2, ?_⟩
      rw [hl2, hl1, ← List.foldl_append, ← liveEntries_append]
      rfl

/-! ## The seed loop builds a sound index -/

theorem seedLoop_sound (rest pre : PathList) (m : PathIdxs)
    (h : IndexSound m (pre ++ rest)) :
    IndexSound (seedLoop pre.length rest m) (pre ++ rest) := by
  induction rest generalizing pre m with
  | nil => simpa [seedLoop] using h
  | cons x rest ih =>
    have e : pre ++ x :: rest = (pre ++ [x]) ++ rest := by simp
    have len : (pre ++ [x]).length = pre.length + 1 := by simp
    cases x with
    | none =>
      rw [seedLoop, e, ← len]
      exact ih _ _ (by rw [← e]; exact h)
    | some p =>
      cases hp : p.eor with
      | true =>
        rw [seedLoop, if_pos hp, e, ← len]
        exact ih _ _ (by rw [← e]; exact h)
      | false =>
        rw [seedLoop, if_neg (by simp [hp]), e, ← len]
        apply ih
        intro k i hk
        unfold PathIdxs.set at hk
        by_cases ek : k = keyOf p
        · simp only [ek, if_true, Option.some.injEq] at hk
          subst hk
          refine ⟨p, ?_, hp, ek.symm⟩
          rw [List.getElem?_append_left (by simp)]
          exact List.getElem?_concat_length _ _
        · simp only [ek, if_false] at hk
          rw [← e]
          exact h k i hk

theorem seedLoop_covers (rest : PathList) (n : Nat) (m : PathIdxs) (k : pathKey)
    (h : m k ≠ none ∨ k ∈ liveKeys rest) : seedLoop n rest m k ≠ none := by
  induction rest generalizing n m with
  | nil =>
    rcases h with h | h
    · simpa [seedLoop] using h
    · simp [liveKeys, liveEntries] at h
  | cons x rest ih =>
    cases x with
    | none =>
      rw [seedLoop]
      apply ih
      simpa [liveKeys, liveEntries_cons_none] using h
    | some p =>
      cases hp : p.eor with
      | true =>
        rw [seedLoop, if_pos hp]
        apply ih
        simpa [liveKeys, liveEntries_cons_eor _ _ hp] using h
      | false =>
        rw [seedLoop, if_neg (by simp [hp])]
        apply ih
        unfold PathIdxs.set
        by_cases ek : k = keyOf p
        · left; simp [ek]
        · simp only [ek, if_false]
          rcases h with h | h
          · exact Or.inl h
          · right
            simp only [liveKeys, liveEntries_cons_live _ _ hp, List.map_cons,
              List.mem_cons] at h
            rcases h with h | h
            · exact absurd h ek
            · exact h

theorem IndexSound_empty (l : PathList) : IndexSound PathIdxs.empty l := by
  intro k i hk
  simp [PathIdxs.empty] at hk

theorem seed_sound (l : PathList) : IndexSound (seedLoop 0 l PathIdxs.empty) l := by
  have := seedLoop_sound l [] PathIdxs.empty (by simpa using IndexSound_empty l)
  simpa using this

theorem seed_covers (l : PathList) : IndexCovers (seedLoop 0 l PathIdxs.empty) l :=
  fun k hk => seedLoop_covers l 0 _ k (Or.inr hk)

/-! ## The branches of `onInput` -/

theorem onInput_passthrough_idle (bc : bufferChannel) (anyElem : Item) (ready : Bool)
    (hc : asPathBearing anyElem = none) (hl : bc.last = none) :
    onInput bc anyElem ready = some { bc with parent := { bc.parent with
      in_ := bc.parent.in_ + 1
      notifications := bc.parent.notifications + 1
      output := bc.parent.output ++ [anyElem]
      out := bc.parent.out + 1 } } := by
  simp [onInput, hc, hl]

theorem onInput_passthrough_holding (bc : bufferChannel) (anyElem : Item) (ready : Bool)
    (last : Msg) (hc : asPathBearing anyElem = none) (hl : bc.last = some last) :
    onInput bc anyElem ready = some
      { parent := { bc.parent with
          in_ := bc.parent.in_ + 1
          notifications := bc.parent.notifications + 1
          output := bc.parent.output ++ [Item.msg last, anyElem]
          out := bc.parent.out + 2 }
        pathIdxs := PathIdxs.empty
        last := none } := by
  simp [onInput, hc, hl, flush]

theorem onInput_fast (bc : bufferChannel) (anyElem : Item) (elem : Msg)
    (hc : asPathBearing anyElem = some elem) (hl : bc.last = none) :
    onInput bc anyElem true = some { bc with parent := { bc.parent with
      in_ := bc.parent.in_ + 1
      output := bc.parent.output ++ [Item.msg elem]
      out := bc.parent.out + 1 } } := by
  simp [onInput, hc, hl]

theorem onInput_seed (bc : bufferChannel) (anyElem : Item) (elem : Msg)
    (hc : asPathBearing anyElem = some elem) (hl : bc.last = none) :
    onInput bc anyElem false = some
      { parent := { bc.parent with
          in_ := bc.parent.in_ + 1
          retries := bc.parent.retries + 1
          collected := bc.parent.collected + 1 }
        pathIdxs := seedLoop 0 elem.pathList bc.pathIdxs
        last := some elem } := by
  simp [onInput, hc, hl, collect]

theorem onInput_merge (bc : bufferChannel) (anyElem : Item) (ready : Bool) (elem last : Msg)
    (hc : asPathBearing anyElem = some elem) (hl : bc.last = some last) :
    onInput bc anyElem ready =
      (mergeLoop
          { pathIdxs := bc.pathIdxs, nextPathsList := last.pathList,
            rewritten := bc.parent.rewritten }
          elem.pathList).map
        (fun a =>
          { parent := { bc.parent with
              in_ := bc.parent.in_ + 1
              collected := bc.parent.collected + 1
              rewritten := a.rewritten }
            pathIdxs := a.pathIdxs
            last := some { elem with pathList := a.nextPathsList } }) := by
  simp [onInput, hc, hl, collect, Msg.SetPathList]

theorem asPathBearing_msg (m : Msg) (h : m.pathList ≠ []) :
    asPathBearing (Item.msg m) = some m := by
  cases hm : m.pathList with
  | nil => exact absurd hm h
  | cons x l => simp [asPathBearing, hm]

theorem asPathBearing_some (anyElem : Item) (m : Msg) (h : asPathBearing anyElem = some m) :
    anyElem = Item.msg m ∧ m.pathList ≠ [] := by
  cases anyElem with
  | other v => simp [asPathBearing] at h
  | msg m' =>
    by_cases hl : m'.pathList.length = 0
    · simp [asPathBearing, hl] at h
    · simp [asPathBearing, hl] at h
      subst h
      exact ⟨rfl, by intro e; apply hl; simp [e]⟩

/-! ## The index invariant along a run -/

/-- What `NewBufferChannel` hands to the worker. -/
theorem NewBufferChannel_some (inSize : Int) (bc : bufferChannel)
    (h : NewBufferChannel inSize = some bc) :
    bc.last = none ∧ bc.pathIdxs = PathIdxs.empty ∧ bc.parent.in_ = 0
      ∧ bc.parent.notifications = 0 ∧ bc.parent.collected = 0 ∧ bc.parent.rewritten = 0
      ∧ bc.parent.retries = 0 ∧ bc.parent.out = 0 ∧ bc.parent.output = []
      ∧ bc.parent.outputClosed = false := by
  unfold NewBufferChannel at h
  by_cases hz : inSize = 0
  · simp [hz, defaultInSize] at h
    subst h
    simp
  · by_cases hn : inSize < 0
    · simp [hz, hn] at h
    · simp [hz, hn] at h
      subst h
      simp

theorem NewBufferChannel_wellIndexed (inSize : Int) (bc : bufferChannel)
    (h : NewBufferChannel inSize = some bc) : WellIndexed bc := by
  obtain ⟨h1, h2, _⟩ := NewBufferChannel_some inSize bc h
  simp [WellIndexed, h1, h2]

theorem flush_wellIndexed (bc : bufferChannel) (last : Msg) : WellIndexed (flush bc last) := by
  simp [WellIndexed, flush]

theorem onInput_wellIndexed (bc bc' : bufferChannel) (anyElem : Item) (ready : Bool)
    (hw : WellIndexed bc) (h : onInput bc anyElem ready = some bc') : WellIndexed bc' := by
  cases hc : asPathBearing anyElem with
  | none =>
    cases hl : bc.last with
    | none =>
      rw [onInput_passthrough_idle bc anyElem ready hc hl] at h
      simp only [Option.some.injEq] at h
      subst h
      simpa [WellIndexed, hl] using hw
    | some last =>
      rw [onInput_passthrough_holding bc anyElem ready last hc hl] at h
      simp only [Option.some.injEq] at h
      subst h
      simp [WellIndexed]
  | some elem =>
    cases hl : bc.last with
    | none =>
      have hidx : bc.pathIdxs = PathIdxs.empty := by simpa [WellIndexed, hl] using hw
      cases ready with
      | true =>
        rw [onInput_fast bc anyElem elem hc hl] at h
        simp only [Option.some.injEq] at h
        subst h
        simpa [WellIndexed, hl] using hw
      | false =>
        rw [onInput_seed bc anyElem elem hc hl] at h
        simp only [Option.some.injEq] at h
        subst h
        simp only [WellIndexed, hidx]
        exact ⟨seed_sound _, seed_covers _⟩
    | some last =>
      have hsc : IndexSound bc.pathIdxs last.pathList ∧ IndexCovers bc.pathIdxs last.pathList := by
        simpa [WellIndexed, hl] using hw
      rw [onInput_merge bc anyElem ready elem last hc hl] at h
      obtain ⟨a', ha, hs', hc', _, _⟩ := mergeLoop_spec elem.pathList
        { pathIdxs := bc.pathIdxs, nextPathsList := last.pathList,
          rewritten := bc.parent.rewritten } hsc.1
      rw [ha] at h
      simp only [Option.map_some', Option.some.injEq] at h
      subst h
      exact ⟨hs', hc' hsc.2⟩

theorem serve_wellIndexed (bc bc' : bufferChannel) (ev : Event)
    (hw : WellIndexed bc) (h : serve bc ev = some bc') : WellIndexed bc' := by
  unfold serve at h
  split at h
  · cases h
  · cases ev with
    | closed =>
      simp only [Option.some.injEq] at h
      subst h
      exact hw
    | recv elem ready => exact onInput_wellIndexed bc bc' elem ready hw h
    | sent =>
      cases hl : bc.last with
      | none => simp [hl] at h
      | some last =>
        simp only [hl, Option.some.injEq] at h
        subst h
        exact flush_wellIndexed bc last

theorem run_wellIndexed (evs : List Event) (bc bc' : bufferChannel)
    (hw : WellIndexed bc) (h : run bc evs = some bc') : WellIndexed bc' := by
  induction evs generalizing bc with
  | nil =>
    simp only [run, Option.some.injEq] at h
    subst h
    exact hw
  | cons ev evs ih =>
    cases hs : serve bc ev with
    | none => simp [run, hs] at h
    | some bc1 =>
      simp only [run, hs, Option.some_bind] at h
      exact ih bc1 (serve_wellIndexed bc bc1 ev hw hs) h

/-! ## C1: uniqueness of the keys of the held aggregate -/

theorem seedsDistinct_cons (bc bc' : bufferChannel) (ev : Event) (rest : List Event)
    (h : seedsDistinct bc (ev :: rest) = true) (hs : serve bc ev = some bc') :
    (∀ anyElem m, ev = Event.recv anyElem false → asPathBearing anyElem = some m →
        bc.last = none → (liveKeys m.pathList).Nodup)
    ∧ seedsDistinct bc' rest = true := by
  simp only [seedsDistinct, hs, Bool.and_eq_true] at h
  refine ⟨?_, h.2⟩
  intro anyElem m hev hc hl
  have h1 := h.1
  subst hev
  simpa [hc, hl] using h1

theorem onInput_distinct (bc bc' : bufferChannel) (anyElem : Item) (ready : Bool)
    (hw : WellIndexed bc) (hd : DistinctKeys bc)
    (hseed : ∀ m, ready = false → asPathBearing anyElem = some m → bc.last = none →
      (liveKeys m.pathList).Nodup)
    (h : onInput bc anyElem ready = some bc') : DistinctKeys bc' := by
  cases hc : asPathBearing anyElem with
  | none =>
    cases hl : bc.last with
    | none =>
      rw [onInput_passthrough_idle bc anyElem ready hc hl] at h
      simp only [Option.some.injEq] at h
      subst h
      intro m hm
      simp [hl] at hm
    | some last =>
      rw [onInput_passthrough_holding bc anyElem ready last hc hl] at h
      simp only [Option.some.injEq] at h
      subst h
      intro m hm
      simp at hm
  | some elem =>
    cases hl : bc.last with
    | none =>
      cases ready with
      | true =>
        rw [onInput_fast bc anyElem elem hc hl] at h
        simp only [Option.some.injEq] at h
        subst h
        intro m hm
        simp [hl] at hm
      | false =>
        rw [onInput_seed bc anyElem elem hc hl] at h
        simp only [Option.some.injEq] at h
        subst h
        intro m hm
        simp only [Option.some.injEq] at hm
        subst hm
        exact hseed elem rfl hc hl
    | some last =>
      have hsc : IndexSound bc.pathIdxs last.pathList ∧ IndexCovers bc.pathIdxs last.pathList := by
        simpa [WellIndexed, hl] using hw
      rw [onInput_merge bc anyElem ready elem last hc hl] at h
      obtain ⟨a', ha, _, _, _, hd'⟩ := mergeLoop_spec elem.pathList
        { pathIdxs := bc.pathIdxs, nextPathsList := last.pathList,
          rewritten := bc.parent.rewritten } hsc.1
      rw [ha] at h
      simp only [Option.map_some', Option.some.injEq] at h
      subst h
      intro m hm
      simp only [Option.some.injEq] at hm
      subst hm
      exact (hd' hsc.2 (hd last hl)).1

theorem serve_distinct (bc bc' : bufferChannel) (ev : Event)
    (hw : WellIndexed bc) (hd : DistinctKeys bc)
    (hseed : ∀ anyElem m, ev = Event.recv anyElem false → asPathBearing anyElem = some m →
      bc.last = none → (liveKeys m.pathList).Nodup)
    (h : serve bc ev = some bc') : DistinctKeys bc' := by
  unfold serve at h
  split at h
  · cases h
  · cases ev with
    | closed =>
      simp only [Option.some.injEq] at h
      subst h
      exact hd
    | recv elem ready =>
      refine onInput_distinct bc bc' elem ready hw hd ?_ h
      intro m hr hc hl
      subst hr
      exact hseed elem m rfl hc hl
    | sent =>
      cases hl : bc.last with
      | none => simp [hl] at h
      | some last =>
        simp only [hl, Option.some.injEq] at h
        subst h
        intro m hm
        simp [flush] at hm

theorem run_distinct (evs : List Event) (bc bc' : bufferChannel)
    (hw : WellIndexed bc) (hd : DistinctKeys bc) (hseed : seedsDistinct bc evs = true)
    (h : run bc evs = some bc') : DistinctKeys bc' := by
  induction evs generalizing bc with
  | nil =>
    simp only [run, Option.some.injEq] at h
    subst h
    exact hd
  | cons ev evs ih =>
    cases hs : serve bc ev with
    | none => simp [run, hs] at h
    | some bc1 =>
      simp only [run, hs, Option.some_bind] at h
      obtain ⟨h1, h2⟩ := seedsDistinct_cons bc bc1 ev evs hseed hs
      exact ih bc1 (serve_wellIndexed bc bc1 ev hw hs) (serve_distinct bc bc1 ev hw hd h1 hs) h2 h

/-- C1, as stated, fails: an item whose own path list carries a key twice is taken as the
aggregate unchanged when it seeds it, so that the held aggregate has two entries with the
same key. -/
theorem seed_keeps_duplicate_keys :
    ((NewBufferChannel 1).bind
        (fun bc => run bc [Event.recv (Item.msg dupSeed) false])).map (fun bc => bc.last)
      = some (some dupSeed)
    ∧ liveKeys dupSeed.pathList
      = [{ rf := 65537, nlri := "10.0.0.100", pathIdentifier := 0 },
         { rf := 65537, nlri := "10.0.0.100", pathIdentifier := 0 }]
    ∧ ¬ (liveKeys dupSeed.pathList).Nodup := by
  decide

/-- C1 (amended): in every state reachable from the initial worker state by a run in which
every item that seeds an aggregate has pairwise distinct keys among its own non-nil,
non-EOR entries, the non-nil, non-EOR entries of the held aggregate have pairwise distinct
identity keys. -/
theorem held_keys_distinct (inSize : Int) (bc0 bc : bufferChannel) (evs : List Event)
    (m : Msg) (h0 : NewBufferChannel inSize = some bc0)
    (hseed : seedsDistinct bc0 evs = true) (hrun : run bc0 evs = some bc)
    (hl : bc.last = some m) : (liveKeys m.pathList).Nodup := by
  have hw := NewBufferChannel_wellIndexed inSize bc0 h0
  have hd : DistinctKeys bc0 := by
    intro m' hm'
    rw [(NewBufferChannel_some inSize bc0 h0).1] at hm'
    cases hm'
  exact run_distinct evs bc0 bc hw hd hseed hrun m hl

theorem held_keys_distinct_witness : (liveKeys multiNlrisExpected).Nodup :=
  held_keys_distinct 1 testChannel
    ((run testChannel (collectEvents multiNlrisItems)).get rfl)
    (collectEvents multiNlrisItems)
    { index := 4, pathList := multiNlrisExpected }
    rfl rfl (Option.some_get _).symm rfl

/-! ## Collecting a sequence of items into one aggregate -/

theorem serve_recv (bc : bufferChannel) (anyElem : Item) (ready : Bool)
    (hopen : bc.parent.outputClosed = false) :
    serve bc (Event.recv anyElem ready) = onInput bc anyElem ready := by
  simp [serve, hopen]

theorem serve_sent (bc : bufferChannel) (last : Msg)
    (hopen : bc.parent.outputClosed = false) (hl : bc.last = some last) :
    serve bc Event.sent = some (flush bc last) := by
  simp [serve, hopen, hl]

theorem serve_closed (bc : bufferChannel) (hopen : bc.parent.outputClosed = false) :
    serve bc Event.closed = some { bc with parent := { bc.parent with outputClosed := true } } := by
  simp [serve, hopen]

theorem run_append (evs evs' : List Event) (bc : bufferChannel) :
    run bc (evs ++ evs') = (run bc evs).bind (fun bc' => run bc' evs') := by
  induction evs generalizing bc with
  | nil => simp [run]
  | cons ev evs ih =>
    cases hs : serve bc ev with
    | none => simp [run, hs]
    | some bc1 => simp [run, hs, ih]

/-- A path-bearing item received while an aggregate is held, with a sound index: the merge
does not panic and the item, carrying the merged list, becomes the held aggregate. -/
theorem serve_merge (bc : bufferChannel) (last m : Msg) (ready : Bool)
    (hl : bc.last = some last) (hopen : bc.parent.outputClosed = false)
    (hne : m.pathList ≠ []) (hs : IndexSound bc.pathIdxs last.pathList) :
    ∃ a, mergeLoop
          { pathIdxs := bc.pathIdxs, nextPathsList := last.pathList,
            rewritten := bc.parent.rewritten } m.pathList = some a
      ∧ serve bc (Event.recv (Item.msg m) ready) = some
          { parent := { bc.parent with
              in_ := bc.parent.in_ + 1
              collected := bc.parent.collected + 1
              rewritten := a.rewritten }
            pathIdxs := a.pathIdxs
            last := some { m with pathList := a.nextPathsList } } := by
  obtain ⟨a, ha, _⟩ := mergeLoop_spec m.pathList
    { pathIdxs := bc.pathIdxs, nextPathsList := last.pathList,
      rewritten := bc.parent.rewritten } hs
  refine ⟨a, ha, ?_⟩
  rw [serve_recv bc _ _ hopen, onInput_merge bc _ ready m last (asPathBearing_msg m hne) hl, ha]
  rfl

/-- Items received one after the other while an aggregate is held. -/
theorem run_collect_holding (ms : List Msg) (bc : bufferChannel) (last : Msg)
    (hl : bc.last = some last) (hopen : bc.parent.outputClosed = false)
    (hne : ∀ x ∈ ms, x.pathList ≠ []) (hs : IndexSound bc.pathIdxs last.pathList) :
    ∃ bc' agg, run bc (collectEvents ms) = some bc' ∧ bc'.last = some agg
      ∧ bc'.parent.outputClosed = false
      ∧ bc'.parent.output = bc.parent.output
      ∧ IndexSound bc'.pathIdxs agg.pathList
      ∧ eorEntries agg.pathList = eorEntries last.pathList ++ eorEntries (allPaths ms)
      ∧ (IndexCovers bc.pathIdxs last.pathList → (liveKeys last.pathList).Nodup →
          liveEntries agg.pathList
            = (liveEntries (allPaths ms)).foldl upsert (liveEntries last.pathList)) := by
  induction ms generalizing bc last with
  | nil =>
    exact ⟨bc, last, rfl, hl, hopen, rfl, hs, by simp [allPaths, eorEntries],
      fun _ _ => by simp [allPaths, liveEntries]⟩
  | cons m ms ih =>
    obtain ⟨a, ha, hserve⟩ := serve_merge bc last m false hl hopen (hne m (by simp)) hs
    obtain ⟨a', ha', hs1, hc1, he1, hd1⟩ := mergeLoop_spec m.pathList
      { pathIdxs := bc.pathIdxs, nextPathsList := last.pathList,
        rewritten := bc.parent.rewritten } hs
    rw [ha] at ha'
    simp only [Option.some.injEq] at ha'
    subst ha'
    obtain ⟨bc', agg, hrun, hl', hopen', hout', hs', he', hd'⟩ :=
      ih { parent := { bc.parent with
              in_ := bc.parent.in_ + 1
              collected := bc.parent.collected + 1
              rewritten := a.rewritten }
           pathIdxs := a.pathIdxs
           last := some { m with pathList := a.nextPathsList } }
        { m with pathList := a.nextPathsList } rfl hopen
        (fun x hx => hne x (by simp [hx])) hs1
    refine ⟨bc', agg, ?_, hl', hopen', hout', hs', ?_, ?_⟩
    · simp only [collectEvents, List.map_cons, run, hserve, Option.some_bind]
      exact hrun
    · rw [he', he1]
      simp [allPaths, eorEntries_append]
    · intro hc hnd
      obtain ⟨hnd1, hl1⟩ := hd1 hc hnd
      rw [hd' (hc1 hc) hnd1, hl1]
      simp [allPaths, liveEntries_append, List.foldl_append]

/-- The first item of a sequence received while nothing is held and no consumer waits. -/
theorem serve_seed (bc : bufferChannel) (m : Msg)
    (hl : bc.last = none) (hopen : bc.parent.outputClosed = false) (hne : m.pathList ≠ []) :
    serve bc (Event.recv (Item.msg m) false) = some
      { parent := { bc.parent with
          in_ := bc.parent.in_ + 1
          retries := bc.parent.retries + 1
          collected := bc.parent.collected + 1 }
        pathIdxs := seedLoop 0 m.pathList bc.pathIdxs
        last := some m } := by
  rw [serve_recv bc _ _ hopen, onInput_seed bc _ m (asPathBearing_msg m hne) hl]

/-- A non-empty sequence of path-bearing items collected into one aggregate. -/
theorem run_collect (m : Msg) (ms : List Msg) (bc : bufferChannel)
    (hl : bc.last = none) (hidx : bc.pathIdxs = PathIdxs.empty)
    (hopen : bc.parent.outputClosed = false) (hne : ∀ x ∈ m :: ms, x.pathList ≠ []) :
    ∃ bc' agg, run bc (collectEvents (m :: ms)) = some bc' ∧ bc'.last = some agg
      ∧ bc'.parent.outputClosed = false
      ∧ bc'.parent.output = bc.parent.output
      ∧ IndexSound bc'.pathIdxs agg.pathList
      ∧ eorEntries agg.pathList = eorEntries (allPaths (m :: ms))
      ∧ ((liveKeys m.pathList).Nodup →
          liveEntries agg.pathList = specAggregate (liveEntries (allPaths (m :: ms)))) := by
  have hserve := serve_seed bc m hl hopen (hne m (by simp))
  rw [hidx] at hserve
  obtain ⟨bc', agg, hrun, hl', hopen', hout', hs', he', hd'⟩ :=
    run_collect_holding ms
      { parent := { bc.parent with
          in_ := bc.parent.in_ + 1
          retries := bc.parent.retries + 1
          collected := bc.parent.collected + 1 }
        pathIdxs := seedLoop 0 m.pathList PathIdxs.empty
        last := some m }
      m rfl hopen (fun x hx => hne x (by simp [hx])) (seed_sound m.pathList)
  refine ⟨bc', agg, ?_, hl', hopen', hout', hs', ?_, ?_⟩
  · simp only [collectEvents, List.map_cons, run, hserve, Option.some_bind]
    exact hrun
  · rw [he']
    simp [allPaths, eorEntries_append]
  · intro hnd
    rw [hd' (seed_covers m.pathList) hnd]
    simp only [allPaths, liveEntries_append]
    rw [specAggregate_append, specAggregate_of_nodup _ hnd]

/-! ## Collecting on values: order of first appearance, most recent value -/

/-- On path lists as values: when the seeding item carries a key twice, the earlier of the two
entries stays in the aggregate, also after a later item with that key is merged; it is not
the most recent entry with its key, and the key occurs twice. -/
theorem seed_duplicate_stays_stale :
    (run testChannel (collectEvents staleItems)).map
        (fun bc => bc.last.map (fun agg => liveEntries agg.pathList))
      = some (some [newPath4 "10.0.0.100" 1, newPath4 "10.0.0.100" 3])
    ∧ latest (keyOf (newPath4 "10.0.0.100" 1)) (liveEntries (allPaths staleItems))
      = some (newPath4 "10.0.0.100" 3)
    ∧ specAggregate (liveEntries (allPaths staleItems)) = [newPath4 "10.0.0.100" 3] := by
  refine ⟨rfl, rfl, rfl⟩

/-- On path lists as values (no two share memory): a non-empty sequence of path-bearing,
non-empty items whose first item has
pairwise distinct keys among its non-nil, non-EOR entries is collected, from a worker that
holds nothing, into one aggregate whose non-nil, non-EOR entries are those of all the items
with one entry per key, in the order of first appearance of the keys, each entry being the
most recently collected one with its key. -/
theorem aggregate_first_appearance_latest (bc : bufferChannel) (m : Msg) (ms : List Msg)
    (hl : bc.last = none) (hidx : bc.pathIdxs = PathIdxs.empty)
    (hopen : bc.parent.outputClosed = false) (hne : ∀ x ∈ m :: ms, x.pathList ≠ [])
    (hseed : (liveKeys m.pathList).Nodup) :
    ∃ bc' agg, run bc (collectEvents (m :: ms)) = some bc' ∧ bc'.last = some agg
      ∧ liveEntries agg.pathList = specAggregate (liveEntries (allPaths (m :: ms))) := by
  obtain ⟨bc', agg, hrun, hl', _, _, _, _, hd⟩ := run_collect m ms bc hl hidx hopen hne
  exact ⟨bc', agg, hrun, hl', hd hseed⟩

theorem aggregate_first_appearance_latest_witness :
    (∃ bc' agg, run testChannel (collectEvents multiNlrisItems) = some bc' ∧ bc'.last = some agg
      ∧ liveEntries agg.pathList = specAggregate (liveEntries (allPaths multiNlrisItems)))
    ∧ specAggregate (liveEntries (allPaths multiNlrisItems)) = liveEntries multiNlrisExpected :=
  ⟨aggregate_first_appearance_latest testChannel
      { index := 1, pathList := [some (newPath4 "10.0.0.100" 1), some (newPath4 "10.0.0.101" 11)] }
      [ { index := 2, pathList := [some (newPath4 "10.0.0.100" 2), some (newPath4 "10.0.0.102" 22)] },
        { index := 3, pathList := [some (newPath4 "10.0.0.100" 3), some (newPath4 "10.0.0.103" 33)] },
        { index := 4, pathList := [some (newPath4 "10.0.0.100" 4), some (newPath4 "10.0.0.104" 44)] } ]
      rfl rfl rfl (by decide) (by decide),
    by decide⟩

/-! ## Collecting on values: End-of-RIB entries -/

theorem eorEntries_allPaths (items : List Msg) :
    eorEntries (allPaths items) = (items.map (fun x => eorEntries x.pathList)).flatten := by
  induction items with
  | nil => rfl
  | cons m ms ih => simp [allPaths, eorEntries_append, ih]

/-- On path lists as values (no two share memory): for every non-empty sequence of
path-bearing items collected into one aggregate,
whatever keys they carry, the EOR entries of the aggregate are the EOR entries of all the
items, concatenated in arrival order, and no position recorded in the index holds an EOR
entry (each holds a non-nil, non-EOR entry with the key it is recorded under). -/
theorem eor_entries_all_kept (bc : bufferChannel) (m : Msg) (ms : List Msg)
    (hl : bc.last = none) (hidx : bc.pathIdxs = PathIdxs.empty)
    (hopen : bc.parent.outputClosed = false) (hne : ∀ x ∈ m :: ms, x.pathList ≠ []) :
    ∃ bc' agg, run bc (collectEvents (m :: ms)) = some bc' ∧ bc'.last = some agg
      ∧ eorEntries agg.pathList = ((m :: ms).map (fun x => eorEntries x.pathList)).flatten
      ∧ (∀ k i, bc'.pathIdxs k = some i →
          ∃ q, agg.pathList[i]? = some (some q) ∧ q.eor = false ∧ keyOf q = k) := by
  obtain ⟨bc', agg, hrun, hl', _, _, hs, he, _⟩ := run_collect m ms bc hl hidx hopen hne
  exact ⟨bc', agg, hrun, hl', by rw [he, eorEntries_allPaths], hs⟩

theorem eor_entries_all_kept_witness :
    (∃ bc' agg, run testChannel (collectEvents eorItems) = some bc' ∧ bc'.last = some agg
      ∧ eorEntries agg.pathList = (eorItems.map (fun x => eorEntries x.pathList)).flatten
      ∧ (∀ k i, bc'.pathIdxs k = some i →
          ∃ q, agg.pathList[i]? = some (some q) ∧ q.eor = false ∧ keyOf q = k))
    ∧ (eorItems.map (fun x => eorEntries x.pathList)).flatten
        = [eorPath4, { eorPath4 with rf := 131073 }, eorPath4]
    ∧ (run testChannel (collectEvents eorItems)).map (fun bc => bc.last.map (fun a => a.pathList))
        = some (some [some (newPath4 "10.0.0.100" 3), some eorPath4,
            some { eorPath4 with rf := 131073 }, some eorPath4]) :=
  ⟨eor_entries_all_kept testChannel
      { index := 1, pathList := [some (newPath4 "10.0.0.100" 1), some eorPath4] }
      [ { index := 2,
          pathList := [some { eorPath4 with rf := 131073 }, some (newPath4 "10.0.0.100" 2)] },
        { index := 3, pathList := [some (newPath4 "10.0.0.100" 3), none, some eorPath4] } ]
      rfl rfl rfl (by decide),
    by decide, by rfl⟩

/-! ## C4: the merge, entry by entry -/

theorem mergeLoop_append (pre rest : PathList) (a : MergeAcc) :
    mergeLoop a (pre ++ rest) = (mergeLoop a pre).bind (fun a' => mergeLoop a' rest) := by
  induction pre generalizing a with
  | nil => simp [mergeLoop]
  | cons x pre ih =>
    cases hs : mergeStep a x with
    | none => simp [mergeLoop, hs]
    | some a1 => simp [mergeLoop, hs, ih]

theorem collect_merge_eq (bc : bufferChannel) (last elem : Msg) (hl : bc.last = some last) :
    collect bc elem = (mergeLoop (mergeStart bc last) elem.pathList).map
      (fun a =>
        { parent := { bc.parent with
            collected := bc.parent.collected + 1
            rewritten := a.rewritten }
          pathIdxs := a.pathIdxs
          last := some { elem with pathList := a.nextPathsList } }) := by
  simp [collect, hl, mergeStart, Msg.SetPathList]

theorem entryRule_of_sound (a a' : MergeAcc) (x : Option Path)
    (hs : IndexSound a.pathIdxs a.nextPathsList) (h : mergeStep a x = some a') :
    EntryRule a x a' := by
  refine ⟨?_, ?_, ?_, ?_⟩
  · intro hx
    subst hx
    rw [mergeStep_nil] at h
    exact (Option.some.inj h).symm
  · intro p hx hp
    subst hx
    rw [mergeStep_eor a p hp] at h
    have := Option.some.inj h
    subst this
    exact ⟨rfl, rfl, rfl⟩
  · intro p hx hp hk
    subst hx
    rw [mergeStep_new a p hp hk] at h
    have := Option.some.inj h
    subst this
    refine ⟨rfl, by simp [PathIdxs.set], ?_, rfl⟩
    intro k hkne
    simp [PathIdxs.set, hkne]
  · intro p i hx hp hk
    subst hx
    have hi := IndexSound_lt hs hk
    rw [mergeStep_rewrite a p i hp hk hi] at h
    have := Option.some.inj h
    subst this
    refine ⟨hi, rfl, ?_, by simp, rfl, rfl⟩
    simp [List.getElem?_set, hi]

/-- C4: in every state reachable from the initial state in which an aggregate is held,
merging the path list `pre ++ x :: post` of an item processes it in order (first `pre`,
then the entry `x`, then `post`, none of which panics), and the entry `x` follows the rule
of the specification: nil changes nothing; an EOR entry is appended, index and `rewritten`
unchanged; a non-EOR entry with a key absent from the index is appended and the key is
recorded at the length of the list before the append; a non-EOR entry whose key is recorded
at `i` replaces the element at `i`, with the length and the index unchanged and `rewritten`
increased by 1. -/
theorem merge_entry_by_entry (inSize : Int) (bc0 bc : bufferChannel) (evs : List Event)
    (last elem : Msg) (pre post : PathList) (x : Option Path)
    (h0 : NewBufferChannel inSize = some bc0) (hrun : run bc0 evs = some bc)
    (hl : bc.last = some last) (helem : elem.pathList = pre ++ x :: post) :
    ∃ a a' afin, mergeLoop (mergeStart bc last) pre = some a
      ∧ mergeStep a x = some a'
      ∧ mergeLoop a' post = some afin
      ∧ EntryRule a x a'
      ∧ collect bc elem = some
          { parent := { bc.parent with
              collected := bc.parent.collected + 1
              rewritten := afin.rewritten }
            pathIdxs := afin.pathIdxs
            last := some { elem with pathList := afin.nextPathsList } } := by
  have hw := run_wellIndexed evs bc0 bc (NewBufferChannel_wellIndexed inSize bc0 h0) hrun
  have hs : IndexSound (mergeStart bc last).pathIdxs (mergeStart bc last).nextPathsList := by
    have : IndexSound bc.pathIdxs last.pathList ∧ IndexCovers bc.pathIdxs last.pathList := by
      simpa [WellIndexed, hl] using hw
    exact this.1
  obtain ⟨a, ha, hsa, _⟩ := mergeLoop_spec pre (mergeStart bc last) hs
  obtain ⟨a', ha', hsa', _⟩ := mergeStep_spec a x hsa
  obtain ⟨afin, hafin, _⟩ := mergeLoop_spec post a' hsa'
  refine ⟨a, a', afin, ha, ha', hafin, entryRule_of_sound a a' x hsa ha', ?_⟩
  rw [collect_merge_eq bc last elem hl, helem, mergeLoop_append, ha]
  simp [mergeLoop, ha', hafin]

theorem merge_entry_by_entry_witness :
    ∃ a a' afin, mergeLoop (mergeStart heldFirst firstItem) [] = some a
      ∧ mergeStep a (some (newPath4 "10.0.0.100" 2)) = some a'
      ∧ mergeLoop a' [some (newPath4 "10.0.0.102" 22)] = some afin
      ∧ EntryRule a (some (newPath4 "10.0.0.100" 2)) a'
      ∧ collect heldFirst secondItem = some
          { parent := { heldFirst.parent with
              collected := heldFirst.parent.collected + 1
              rewritten := afin.rewritten }
            pathIdxs := afin.pathIdxs
            last := some { secondItem with pathList := afin.nextPathsList } } :=
  merge_entry_by_entry 1 testChannel heldFirst (collectEvents [firstItem]) firstItem secondItem
    [] [some (newPath4 "10.0.0.102" 22)] (some (newPath4 "10.0.0.100" 2)) rfl rfl rfl rfl

/-! ## C5: items that all carry the same single key -/

/-- Items with one non-EOR path of key `k` each, received while an aggregate with one
path of key `k` is held: the aggregate becomes the last item, unchanged. -/
theorem run_same_key (k : pathKey) (ms : List Msg) (bc : bufferChannel) (last : Msg) (q : Path)
    (hl : bc.last = some last) (hopen : bc.parent.outputClosed = false)
    (hlast : last.pathList = [some q]) (hq : q.eor = false) (hk : keyOf q = k)
    (hidx : bc.pathIdxs k = some 0)
    (hms : ∀ x ∈ ms, ∃ r, x.pathList = [some r] ∧ r.eor = false ∧ keyOf r = k) :
    ∃ bc', run bc (collectEvents ms) = some bc'
      ∧ bc'.last = some ((last :: ms).getLast (by simp))
      ∧ bc'.parent = { bc.parent with
          in_ := bc.parent.in_ + ms.length
          collected := bc.parent.collected + ms.length
          rewritten := bc.parent.rewritten + ms.length } := by
  induction ms generalizing bc last q with
  | nil => exact ⟨bc, rfl, by simpa using hl, by simp⟩
  | cons m ms ih =>
    obtain ⟨r, hr, hre, hrk⟩ := hms m (by simp)
    have hne : m.pathList ≠ [] := by simp [hr]
    have hstep : serve bc (Event.recv (Item.msg m) false) = some
        { parent := { bc.parent with
            in_ := bc.parent.in_ + 1
            collected := bc.parent.collected + 1
            rewritten := bc.parent.rewritten + 1 }
          pathIdxs := bc.pathIdxs
          last := some m } := by
      rw [serve_recv bc _ _ hopen,
        onInput_merge bc _ false m last (asPathBearing_msg m hne) hl, hr, hlast]
      have hkr : bc.pathIdxs (keyOf r) = some 0 := by rw [hrk]; exact hidx
      have hstep1 := mergeStep_rewrite
        { pathIdxs := bc.pathIdxs, nextPathsList := [some q], rewritten := bc.parent.rewritten }
        r 0 hre hkr (by simp)
      simp only [mergeLoop, hstep1, Option.some_bind, Option.map_some', List.set_cons_zero]
      congr 2
      cases m
      simp only at hr
      simp [hr]
    obtain ⟨bc', hrun, hl', hp'⟩ := ih
      { parent := { bc.parent with
          in_ := bc.parent.in_ + 1
          collected := bc.parent.collected + 1
          rewritten := bc.parent.rewritten + 1 }
        pathIdxs := bc.pathIdxs
        last := some m }
      m r rfl hopen hr hre hrk hidx (fun x hx => hms x (by simp [hx]))
    refine ⟨bc', ?_, ?_, ?_⟩
    · simp only [collectEvents, List.map_cons, run, hstep, Option.some_bind]
      exact hrun
    · rw [hl']
      simp [List.getLast_cons]
    · rw [hp']
      simp only [List.length_cons]
      congr 1 <;> omega

/-- C5: for every `N ≥ 1`, starting from the initial state, `N` path-bearing items that each
carry exactly one non-EOR path, all with the same identity key, received while no consumer
is ready, followed by one send of the pending aggregate, deliver exactly one item: the
`N`-th item, whose path list is its own single path; and the counters are `in = N`,
`collected = N`, `rewritten = N - 1`, `retries = 1`, `out = 1`, `notifications = 0`. -/
theorem single_key_coalescing (inSize : Int) (bc0 : bufferChannel) (k : pathKey)
    (items : List Msg) (hne : items ≠ [])
    (h0 : NewBufferChannel inSize = some bc0)
    (hitems : ∀ x ∈ items, ∃ r, x.pathList = [some r] ∧ r.eor = false ∧ keyOf r = k) :
    ∃ bc, run bc0 (collectEvents items ++ [Event.sent]) = some bc
      ∧ bc.parent.output = [Item.msg (items.getLast hne)]
      ∧ bc.last = none
      ∧ bc.parent.in_ = items.length
      ∧ bc.parent.collected = items.length
      ∧ bc.parent.rewritten = items.length - 1
      ∧ bc.parent.retries = 1
      ∧ bc.parent.out = 1
      ∧ bc.parent.notifications = 0 := by
  obtain ⟨hl0, hi0, hin, hno, hco, hrw, hre, hout, hop, hcl⟩ := NewBufferChannel_some inSize bc0 h0
  cases items with
  | nil => exact absurd rfl hne
  | cons m ms =>
    obtain ⟨q, hq, hqe, hqk⟩ := hitems m (by simp)
    have hmne : m.pathList ≠ [] := by simp [hq]
    have hseed := serve_seed bc0 m hl0 hcl hmne
    have hidx : seedLoop 0 m.pathList bc0.pathIdxs k = some 0 := by
      rw [hq, hi0]
      simp [seedLoop, hqe, PathIdxs.set, hqk]
    obtain ⟨bc1, hrun1, hl1, hp1⟩ := run_same_key k ms
      { parent := { bc0.parent with
          in_ := bc0.parent.in_ + 1
          retries := bc0.parent.retries + 1
          collected := bc0.parent.collected + 1 }
        pathIdxs := seedLoop 0 m.pathList bc0.pathIdxs
        last := some m }
      m q rfl hcl hq hqe hqk hidx (fun x hx => hitems x (by simp [hx]))
    have hopen1 : bc1.parent.outputClosed = false := by rw [hp1]; exact hcl
    refine ⟨flush bc1 ((m :: ms).getLast (by simp)), ?_, ?_, rfl, ?_, ?_, ?_, ?_, ?_, ?_⟩
    · rw [run_append]
      simp only [collectEvents, List.map_cons, run, hseed, Option.some_bind]
      have hrun1' : run _ (List.map (fun m => Event.recv (Item.msg m) false) ms) = some bc1 := hrun1
      rw [hrun1']
      simp only [Option.some_bind, serve_sent bc1 _ hopen1 hl1]
    · simp [flush, hp1, hop]
    · simp [flush, hp1, hin]; omega
    · simp [flush, hp1, hco]; omega
    · simp [flush, hp1, hrw]
    · simp [flush, hp1, hre]
    · simp [flush, hp1, hout]
    · simp [flush, hp1, hno]

theorem single_key_coalescing_witness :
    ∃ bc, run testChannel (collectEvents collectItems ++ [Event.sent]) = some bc
      ∧ bc.parent.output
          = [Item.msg { index := 4, pathList := [some (newPath4 "10.0.0.100" 4)] }]
      ∧ bc.last = none
      ∧ bc.parent.in_ = 4
      ∧ bc.parent.collected = 4
      ∧ bc.parent.rewritten = 3
      ∧ bc.parent.retries = 1
      ∧ bc.parent.out = 1
      ∧ bc.parent.notifications = 0 :=
  single_key_coalescing 1 testChannel (keyOf (newPath4 "10.0.0.100" 1)) collectItems
    (by decide) rfl
    (by
      intro x hx
      simp only [collectItems, List.mem_cons, List.mem_singleton, List.not_mem_nil,
        or_false] at hx
      rcases hx with rfl | rfl | rfl | rfl <;> exact ⟨_, rfl, rfl, rfl⟩)

/-! ## C6: entries with different keys do not share a slot -/

/-- C6, as stated, fails: an entry that differs from a held entry `e` in the route family
only is not always appended: when its own key is already in the index it overwrites the
slot of that key and `rewritten` is incremented (the fourth item of `TestCollectMultiRFs`,
which asserts `Rewritten: 2`). -/
theorem other_family_entry_rewrites_own_slot :
    (run testChannel (collectEvents (multiRFsItems.take 3))).map
        (fun bc => (bc.last.map (fun a => a.pathList), bc.parent.rewritten))
      = some (some [some (newPath4 "10.0.0.100" 2), some (newPathLabelled4 "10.0.0.100" 3)], 1)
    ∧ (run testChannel (collectEvents multiRFsItems)).map
        (fun bc => (bc.last.map (fun a => a.pathList), bc.parent.rewritten))
      = some (some [some (newPath4 "10.0.0.100" 2), some (newPathLabelled4 "10.0.0.100" 4)], 2)
    ∧ (newPathLabelled4 "10.0.0.100" 4).nlri = (newPath4 "10.0.0.100" 2).nlri
    ∧ (newPathLabelled4 "10.0.0.100" 4).pathIdentifier = (newPath4 "10.0.0.100" 2).pathIdentifier
    ∧ (newPathLabelled4 "10.0.0.100" 4).rf ≠ (newPath4 "10.0.0.100" 2).rf := by
  refine ⟨rfl, rfl, rfl, rfl, by decide⟩

theorem mem_set_of_ne (l : PathList) (i : Nat) (e : Path) (y : Option Path)
    (he : some e ∈ l) (hi : l[i]? ≠ some (some e)) : some e ∈ l.set i y := by
  obtain ⟨j, hj⟩ := List.getElem?_of_mem he
  have hne : i ≠ j := by
    intro h
    subst h
    exact hi hj
  apply List.getElem?_mem (n := j)
  rw [List.getElem?_set_ne hne]
  exact hj

/-- C6 (amended): in a merge into an aggregate held in a reachable state, let `e` be an
entry of the aggregate list when a non-EOR entry `e'` is processed that agrees with `e` on
NLRI key and path identifier but differs in route family (or agrees on route family and NLRI
key but differs in path identifier).  Then `e'` does not overwrite `e`: both `e` and `e'`
are in the resulting list.  When the key of `e'` is not in the index, `e'` is appended and
`rewritten` is not incremented; when it is recorded at `i`, the slot `i` does not hold `e`,
and it is that slot which `e'` overwrites, with `rewritten` incremented. -/
theorem distinct_keys_distinct_slots (inSize : Int) (bc0 bc : bufferChannel) (evs : List Event)
    (last : Msg) (pre : PathList) (a : MergeAcc) (e e' : Path)
    (h0 : NewBufferChannel inSize = some bc0) (hrun : run bc0 evs = some bc)
    (hl : bc.last = some last) (ha : mergeLoop (mergeStart bc last) pre = some a)
    (he : some e ∈ a.nextPathsList) (he' : e'.eor = false)
    (hdiff : (e'.nlri = e.nlri ∧ e'.pathIdentifier = e.pathIdentifier ∧ e'.rf ≠ e.rf)
      ∨ (e'.rf = e.rf ∧ e'.nlri = e.nlri ∧ e'.pathIdentifier ≠ e.pathIdentifier)) :
    ∃ a', mergeStep a (some e') = some a'
      ∧ some e ∈ a'.nextPathsList ∧ some e' ∈ a'.nextPathsList
      ∧ (a.pathIdxs (keyOf e') = none →
          a'.nextPathsList = a.nextPathsList ++ [some e'] ∧ a'.rewritten = a.rewritten)
      ∧ (∀ i, a.pathIdxs (keyOf e') = some i →
          a.nextPathsList[i]? ≠ some (some e)
          ∧ a'.nextPathsList = a.nextPathsList.set i (some e')
          ∧ a'.rewritten = a.rewritten + 1) := by
  have hw := run_wellIndexed evs bc0 bc (NewBufferChannel_wellIndexed inSize bc0 h0) hrun
  have hs : IndexSound (mergeStart bc last).pathIdxs (mergeStart bc last).nextPathsList := by
    have : IndexSound bc.pathIdxs last.pathList ∧ IndexCovers bc.pathIdxs last.pathList := by
      simpa [WellIndexed, hl] using hw
    exact this.1
  obtain ⟨a1, ha1, hsa, _⟩ := mergeLoop_spec pre (mergeStart bc last) hs
  rw [ha] at ha1
  simp only [Option.some.injEq] at ha1
  subst ha1
  have hkey : keyOf e' ≠ keyOf e := by
    intro hk
    simp only [keyOf, pathKey.mk.injEq] at hk
    rcases hdiff with ⟨_, _, h3⟩ | ⟨_, _, h3⟩
    · exact h3 hk.1
    · exact h3 hk.2.2
  cases hk : a.pathIdxs (keyOf e') with
  | none =>
    refine ⟨_, mergeStep_new a e' he' hk, ?_, ?_, ?_, ?_⟩
    · simp [he]
    · simp
    · intro _; exact ⟨rfl, rfl⟩
    · intro i hi; cases hi
  | some i =>
    obtain ⟨q, hq, _, hqk⟩ := hsa _ _ hk
    have hslot : a.nextPathsList[i]? ≠ some (some e) := by
      intro h
      rw [hq] at h
      simp only [Option.some.injEq] at h
      subst h
      exact hkey hqk.symm
    refine ⟨_, mergeStep_rewrite a e' i he' hk (IndexSound_lt hsa hk), ?_, ?_, ?_, ?_⟩
    · exact mem_set_of_ne _ _ _ _ he hslot
    · apply List.getElem?_mem (n := i)
      simp [List.getElem?_set, IndexSound_lt hsa hk]
    · intro h; cases h
    · intro j hj
      simp only [Option.some.injEq] at hj
      subst hj
      exact ⟨hslot, rfl, rfl⟩

theorem distinct_keys_distinct_slots_witness :
    ∃ a', mergeStep (mergeStart heldTwoRFs { index := 2, pathList := [some (newPath4 "10.0.0.100" 2)] })
          (some (newPathLabelled4 "10.0.0.100" 3)) = some a'
      ∧ some (newPath4 "10.0.0.100" 2) ∈ a'.nextPathsList
      ∧ some (newPathLabelled4 "10.0.0.100" 3) ∈ a'.nextPathsList
      ∧ (heldTwoRFs.pathIdxs (keyOf (newPathLabelled4 "10.0.0.100" 3)) = none →
          a'.nextPathsList
              = [some (newPath4 "10.0.0.100" 2)] ++ [some (newPathLabelled4 "10.0.0.100" 3)]
            ∧ a'.rewritten = 1)
      ∧ (∀ i, heldTwoRFs.pathIdxs (keyOf (newPathLabelled4 "10.0.0.100" 3)) = some i →
          [some (newPath4 "10.0.0.100" 2)][i]? ≠ some (some (newPath4 "10.0.0.100" 2))
          ∧ a'.nextPathsList
              = [some (newPath4 "10.0.0.100" 2)].set i (some (newPathLabelled4 "10.0.0.100" 3))
          ∧ a'.rewritten = 1 + 1) :=
  distinct_keys_distinct_slots 1 testChannel heldTwoRFs (collectEvents (multiRFsItems.take 2))
    { index := 2, pathList := [some (newPath4 "10.0.0.100" 2)] } []
    (mergeStart heldTwoRFs { index := 2, pathList := [some (newPath4 "10.0.0.100" 2)] })
    (newPath4 "10.0.0.100" 2) (newPathLabelled4 "10.0.0.100" 3)
    rfl rfl rfl rfl (by decide) rfl (Or.inl ⟨rfl, rfl, by decide⟩)

/-! ## C7, C8: items that are passed through -/

theorem asPathBearing_of_notification (anyElem : Item) (h : Notification anyElem) :
    asPathBearing anyElem = none := by
  cases anyElem with
  | other v => rfl
  | msg m =>
    have hm : m.pathList = [] := h
    simp [asPathBearing, hm]

/-- C7: in every state of a running worker that holds an aggregate, receiving an item
without the path-list capability, or with an empty path list, emits exactly two outputs in
this order: the held aggregate, then the item unchanged; afterwards nothing is held and the
index is empty; `in` and `notifications` grew by 1, `out` by 2, and `collected`, `rewritten`
and `retries` are unchanged. -/
theorem flush_before_forward (bc : bufferChannel) (last : Msg) (anyElem : Item) (ready : Bool)
    (hl : bc.last = some last) (hopen : bc.parent.outputClosed = false)
    (hn : Notification anyElem) :
    ∃ bc', serve bc (Event.recv anyElem ready) = some bc'
      ∧ bc'.parent.output = bc.parent.output ++ [Item.msg last, anyElem]
      ∧ bc'.last = none
      ∧ bc'.pathIdxs = PathIdxs.empty
      ∧ bc'.parent.in_ = bc.parent.in_ + 1
      ∧ bc'.parent.notifications = bc.parent.notifications + 1
      ∧ bc'.parent.out = bc.parent.out + 2
      ∧ bc'.parent.collected = bc.parent.collected
      ∧ bc'.parent.rewritten = bc.parent.rewritten
      ∧ bc'.parent.retries = bc.parent.retries := by
  have hstep : serve bc (Event.recv anyElem ready) = _ :=
    (serve_recv bc _ _ hopen).trans
      (onInput_passthrough_holding bc anyElem ready last
        (asPathBearing_of_notification _ hn) hl)
  exact ⟨_, hstep, rfl, rfl, rfl, rfl, rfl, rfl, rfl, rfl, rfl⟩

theorem flush_before_forward_witness :
    ∃ bc', serve heldFirst (Event.recv (Item.other 7) true) = some bc'
      ∧ bc'.parent.output = [] ++ [Item.msg firstItem, Item.other 7]
      ∧ bc'.last = none
      ∧ bc'.pathIdxs = PathIdxs.empty
      ∧ bc'.parent.in_ = 1 + 1
      ∧ bc'.parent.notifications = 0 + 1
      ∧ bc'.parent.out = 0 + 2
      ∧ bc'.parent.collected = 1
      ∧ bc'.parent.rewritten = 0
      ∧ bc'.parent.retries = 1 :=
  flush_before_forward heldFirst firstItem (Item.other 7) true rfl rfl trivial

/-- Items that are passed through, received while nothing is held. -/
theorem run_notifications (items : List (Item × Bool)) (bc : bufferChannel)
    (hl : bc.last = none) (hopen : bc.parent.outputClosed = false)
    (hall : ∀ x ∈ items, Notification x.1) :
    run bc (recvEvents items) = some { bc with parent := { bc.parent with
      in_ := bc.parent.in_ + items.length
      notifications := bc.parent.notifications + items.length
      out := bc.parent.out + items.length
      output := bc.parent.output ++ items.map (fun x => x.1) } } := by
  induction items generalizing bc with
  | nil => simp [recvEvents, run]
  | cons x items ih =>
    have hstep : serve bc (Event.recv x.1 x.2) = _ :=
      (serve_recv bc _ _ hopen).trans
        (onInput_passthrough_idle bc x.1 x.2
          (asPathBearing_of_notification _ (hall x (by simp))) hl)
    have hrest := ih
      { bc with parent := { bc.parent with
          in_ := bc.parent.in_ + 1
          notifications := bc.parent.notifications + 1
          output := bc.parent.output ++ [x.1]
          out := bc.parent.out + 1 } }
      hl hopen (fun y hy => hall y (by simp [hy]))
    simp only [recvEvents, List.map_cons, run, hstep, Option.some_bind]
    simp only [recvEvents] at hrest
    rw [hrest]
    simp only [List.length_cons, List.append_assoc, List.singleton_append, Option.some.injEq]
    congr 2 <;> omega

/-- C8: a finite list of items without the path-list capability, or with an empty path
list, fed to a worker in the initial state (whatever the consumer does) is emitted item for
item and in order; nothing is held after the run nor after any prefix of it; and the
counters are `in = notifications = out =` the length of the list, with
`collected = rewritten = retries = 0`. -/
theorem passthrough_in_order (inSize : Int) (bc0 : bufferChannel) (items : List (Item × Bool))
    (h0 : NewBufferChannel inSize = some bc0) (hall : ∀ x ∈ items, Notification x.1) :
    (∃ bc, run bc0 (recvEvents items) = some bc
      ∧ bc.parent.output = items.map (fun x => x.1)
      ∧ bc.last = none
      ∧ bc.parent.in_ = items.length
      ∧ bc.parent.notifications = items.length
      ∧ bc.parent.out = items.length
      ∧ bc.parent.collected = 0
      ∧ bc.parent.rewritten = 0
      ∧ bc.parent.retries = 0)
    ∧ (∀ n, ∃ bc, run bc0 (recvEvents (items.take n)) = some bc ∧ bc.last = none
        ∧ bc.parent.output = (items.take n).map (fun x => x.1)) := by
  obtain ⟨hl0, _, hin, hno, hco, hrw, hre, hout, hop, hcl⟩ := NewBufferChannel_some inSize bc0 h0
  constructor
  · refine ⟨_, run_notifications items bc0 hl0 hcl hall, ?_, hl0, ?_, ?_, ?_, hco, hrw, hre⟩
    · simp [hop]
    · simp [hin]
    · simp [hno]
    · simp [hout]
  · intro n
    refine ⟨_, run_notifications (items.take n) bc0 hl0 hcl
      (fun x hx => hall x (List.mem_of_mem_take hx)), hl0, ?_⟩
    simp [hop]

theorem passthrough_in_order_witness :
    (∃ bc, run testChannel (recvEvents notificationItems) = some bc
      ∧ bc.parent.output = notificationItems.map (fun x => x.1)
      ∧ bc.last = none
      ∧ bc.parent.in_ = 8
      ∧ bc.parent.notifications = 8
      ∧ bc.parent.out = 8
      ∧ bc.parent.collected = 0
      ∧ bc.parent.rewritten = 0
      ∧ bc.parent.retries = 0)
    ∧ (∀ n, ∃ bc, run testChannel (recvEvents (notificationItems.take n)) = some bc
        ∧ bc.last = none
        ∧ bc.parent.output = (notificationItems.take n).map (fun x => x.1)) :=
  passthrough_in_order 1 testChannel notificationItems rfl
    (by
      intro x hx
      simp only [notificationItems, List.mem_cons, List.mem_singleton, List.not_mem_nil,
        or_false] at hx
      rcases hx with rfl | rfl | rfl | rfl | rfl | rfl | rfl | rfl <;> trivial)

/-! ## C9: `out ≤ in` -/

theorem onInput_out_le_in (bc bc' : bufferChannel) (anyElem : Item) (ready : Bool)
    (hinv : bc.parent.out + heldCount bc ≤ bc.parent.in_)
    (h : onInput bc anyElem ready = some bc') :
    bc'.parent.out + heldCount bc' ≤ bc'.parent.in_ := by
  cases hc : asPathBearing anyElem with
  | none =>
    cases hl : bc.last with
    | none =>
      rw [onInput_passthrough_idle bc anyElem ready hc hl] at h
      simp only [Option.some.injEq] at h
      subst h
      simp only [heldCount, hl] at hinv ⊢
      simp at hinv ⊢
      omega
    | some last =>
      rw [onInput_passthrough_holding bc anyElem ready last hc hl] at h
      simp only [Option.some.injEq] at h
      subst h
      simp only [heldCount, hl] at hinv ⊢
      simp at hinv ⊢
      omega
  | some elem =>
    cases hl : bc.last with
    | none =>
      cases ready with
      | true =>
        rw [onInput_fast bc anyElem elem hc hl] at h
        simp only [Option.some.injEq] at h
        subst h
        simp only [heldCount, hl] at hinv ⊢
        simp at hinv ⊢
        omega
      | false =>
        rw [onInput_seed bc anyElem elem hc hl] at h
        simp only [Option.some.injEq] at h
        subst h
        simp only [heldCount, hl] at hinv ⊢
        simp at hinv ⊢
        omega
    | some last =>
      rw [onInput_merge bc anyElem ready elem last hc hl] at h
      cases hm : mergeLoop
          { pathIdxs := bc.pathIdxs, nextPathsList := last.pathList,
            rewritten := bc.parent.rewritten } elem.pathList with
      | none => simp [hm] at h
      | some a =>
        rw [hm] at h
        simp only [Option.map_some', Option.some.injEq] at h
        subst h
        simp only [heldCount, hl] at hinv ⊢
        simp at hinv ⊢
        omega

theorem serve_out_le_in (bc bc' : bufferChannel) (ev : Event)
    (hinv : bc.parent.out + heldCount bc ≤ bc.parent.in_) (h : serve bc ev = some bc') :
    bc'.parent.out + heldCount bc' ≤ bc'.parent.in_ := by
  unfold serve at h
  split at h
  · cases h
  · cases ev with
    | closed =>
      simp only [Option.some.injEq] at h
      subst h
      exact hinv
    | recv elem ready => exact onInput_out_le_in bc bc' elem ready hinv h
    | sent =>
      cases hl : bc.last with
      | none => simp [hl] at h
      | some last =>
        simp only [hl, Option.some.injEq] at h
        subst h
        simp only [heldCount, hl, flush] at hinv ⊢
        simp at hinv ⊢
        omega

theorem run_out_le_in (evs : List Event) (bc bc' : bufferChannel)
    (hinv : bc.parent.out + heldCount bc ≤ bc.parent.in_) (h : run bc evs = some bc') :
    bc'.parent.out + heldCount bc' ≤ bc'.parent.in_ := by
  induction evs generalizing bc with
  | nil =>
    simp only [run, Option.some.injEq] at h
    subst h
    exact hinv
  | cons ev evs ih =>
    cases hs : serve bc ev with
    | none => simp [run, hs] at h
    | some bc1 =>
      simp only [run, hs, Option.some_bind] at h
      exact ih bc1 (serve_out_le_in bc bc1 ev hinv hs) h

/-- C9: in every state reachable from the initial state by a finite sequence of worker
transitions (an item received, on any branch; the pending aggregate sent; the input
closed), the counters satisfy `out ≤ in`; while an aggregate is held even `out + 1 ≤ in`. -/
theorem out_le_in (inSize : Int) (bc0 bc : bufferChannel) (evs : List Event)
    (h0 : NewBufferChannel inSize = some bc0) (hrun : run bc0 evs = some bc) :
    bc.parent.out ≤ bc.parent.in_ ∧ bc.parent.out + heldCount bc ≤ bc.parent.in_ := by
  obtain ⟨hl0, _, hin, _, _, _, _, hout, _, _⟩ := NewBufferChannel_some inSize bc0 h0
  have h := run_out_le_in evs bc0 bc (by simp [heldCount, hl0, hin, hout]) hrun
  exact ⟨by omega, h⟩

theorem out_le_in_witness :
    ((run testChannel
        (collectEvents multiNlrisItems ++ [Event.recv (Item.other 5) true, Event.closed])).get
          rfl).parent.out
      ≤ ((run testChannel
        (collectEvents multiNlrisItems ++ [Event.recv (Item.other 5) true, Event.closed])).get
          rfl).parent.in_
    ∧ ((run testChannel
        (collectEvents multiNlrisItems ++ [Event.recv (Item.other 5) true, Event.closed])).get
          rfl).parent.out = 2
    ∧ ((run testChannel
        (collectEvents multiNlrisItems ++ [Event.recv (Item.other 5) true, Event.closed])).get
          rfl).parent.in_ = 5 :=
  ⟨(out_le_in 1 testChannel _
      (collectEvents multiNlrisItems ++ [Event.recv (Item.other 5) true, Event.closed])
      rfl (Option.some_get _).symm).1, rfl, rfl⟩

/-! ## C10: the input port is closed -/

/-- C10: when a running worker observes that the input port is closed, the output port is
closed and nothing is emitted: the output trace and all six counters are unchanged, a held
aggregate stays where it is, unsent, and no transition follows (the worker has returned). -/
theorem input_closed_discards (bc : bufferChannel) (hopen : bc.parent.outputClosed = false) :
    ∃ bc', serve bc Event.closed = some bc'
      ∧ bc'.parent.outputClosed = true
      ∧ bc'.parent.output = bc.parent.output
      ∧ bc'.last = bc.last
      ∧ bc'.parent.in_ = bc.parent.in_
      ∧ bc'.parent.notifications = bc.parent.notifications
      ∧ bc'.parent.collected = bc.parent.collected
      ∧ bc'.parent.rewritten = bc.parent.rewritten
      ∧ bc'.parent.retries = bc.parent.retries
      ∧ bc'.parent.out = bc.parent.out
      ∧ (∀ ev, serve bc' ev = none) := by
  refine ⟨_, serve_closed bc hopen, rfl, rfl, rfl, rfl, rfl, rfl, rfl, rfl, rfl, ?_⟩
  intro ev
  simp [serve]

theorem input_closed_discards_witness :
    ∃ bc', serve heldFirst Event.closed = some bc'
      ∧ bc'.parent.outputClosed = true
      ∧ bc'.parent.output = []
      ∧ bc'.last = some firstItem
      ∧ bc'.parent.in_ = 1
      ∧ bc'.parent.notifications = 0
      ∧ bc'.parent.collected = 1
      ∧ bc'.parent.rewritten = 0
      ∧ bc'.parent.retries = 1
      ∧ bc'.parent.out = 0
      ∧ (∀ ev, serve bc' ev = none) :=
  input_closed_discards heldFirst rfl

/-! ## C11: an item received while nothing is held -/

theorem mem_liveKeys_iff (l : PathList) (k : pathKey) :
    k ∈ liveKeys l ↔ ∃ (i : Nat) (q : Path), l[i]? = some (some q) ∧ q.eor = false ∧ keyOf q = k := by
  constructor
  · intro h
    obtain ⟨q, hq, hk⟩ := List.mem_map.mp h
    obtain ⟨hm, he⟩ := (mem_liveEntries l q).mp hq
    obtain ⟨i, hi⟩ := List.getElem?_of_mem hm
    exact ⟨i, q, hi, he, hk⟩
  · rintro ⟨i, q, hi, he, hk⟩
    exact List.mem_map.mpr ⟨q, mem_liveEntries_of_getElem l i q hi he, hk⟩

/-- The seed loop leaves the keys that do not occur alone, and records every key that
occurs at the last position where it occurs. -/
theorem seedLoop_last (rest : PathList) (n : Nat) (m : PathIdxs) (k : pathKey) :
    (k ∉ liveKeys rest → seedLoop n rest m k = m k)
    ∧ (k ∈ liveKeys rest → ∃ j q, seedLoop n rest m k = some (n + j)
        ∧ rest[j]? = some (some q) ∧ q.eor = false ∧ keyOf q = k
        ∧ ∀ j' q', rest[j']? = some (some q') → q'.eor = false → keyOf q' = k → j' ≤ j) := by
  induction rest generalizing n m with
  | nil =>
    refine ⟨fun _ => rfl, fun h => ?_⟩
    simp [liveKeys, liveEntries] at h
  | cons x rest ih =>
    have shift : ∀ m' : PathIdxs, liveKeys (x :: rest) = liveKeys rest →
        seedLoop n (x :: rest) m = seedLoop (n + 1) rest m' → m' k = m k →
        (∀ q, x = some q → q.eor = true) →
        (k ∉ liveKeys (x :: rest) → seedLoop n (x :: rest) m k = m k)
        ∧ (k ∈ liveKeys (x :: rest) → ∃ j q, seedLoop n (x :: rest) m k = some (n + j)
            ∧ (x :: rest)[j]? = some (some q) ∧ q.eor = false ∧ keyOf q = k
            ∧ ∀ j' q', (x :: rest)[j']? = some (some q') → q'.eor = false → keyOf q' = k →
                j' ≤ j) := by
      intro m' hkeys hloop hm' hx
      rw [hkeys, hloop]
      obtain ⟨ih1, ih2⟩ := ih (n + 1) m'
      refine ⟨fun h => by rw [ih1 h, hm'], fun h => ?_⟩
      obtain ⟨j, q, hj, hq, hqe, hqk, hmax⟩ := ih2 h
      refine ⟨j + 1, q, by rw [hj]; congr 1; omega, by simpa using hq, hqe, hqk, ?_⟩
      intro j' q' hj' hq'e hq'k
      cases j' with
      | zero =>
        simp
      | succ j' =>
        have := hmax j' q' (by simpa using hj') hq'e hq'k
        omega
    cases x with
    | none =>
      exact shift m (by simp [liveKeys, liveEntries_cons_none]) (by rw [seedLoop]) rfl
        (fun q hq => by cases hq)
    | some p =>
      cases hp : p.eor with
      | true =>
        exact shift m (by simp [liveKeys, liveEntries_cons_eor _ _ hp])
          (by rw [seedLoop, if_pos hp]) rfl
          (fun q hq => by cases hq; exact hp)
      | false =>
        have hloop : seedLoop n (some p :: rest) m
            = seedLoop (n + 1) rest (m.set (keyOf p) n) := by
          rw [seedLoop, if_neg (by simp [hp])]
        have hkeys : liveKeys (some p :: rest) = keyOf p :: liveKeys rest := by
          simp [liveKeys, liveEntries_cons_live _ _ hp]
        obtain ⟨ih1, ih2⟩ := ih (n + 1) (m.set (keyOf p) n)
        rw [hloop, hkeys]
        constructor
        · intro h
          simp only [List.mem_cons, not_or] at h
          rw [ih1 h.2]
          simp [PathIdxs.set, h.1]
        · intro h
          by_cases hin : k ∈ liveKeys rest
          · obtain ⟨j, q, hj, hq, hqe, hqk, hmax⟩ := ih2 hin
            refine ⟨j + 1, q, by rw [hj]; congr 1; omega, by simpa using hq, hqe, hqk, ?_⟩
            intro j' q' hj' hq'e hq'k
            cases j' with
            | zero => simp
            | succ j' =>
              have := hmax j' q' (by simpa using hj') hq'e hq'k
              omega
          · have hk : k = keyOf p := by
              simp only [List.mem_cons] at h
              rcases h with h | h
              · exact h
              · exact absurd h hin
            refine ⟨0, p, ?_, by simp, hp, hk.symm, ?_⟩
            · rw [ih1 hin]
              simp [PathIdxs.set, hk]
            · intro j' q' hj' hq'e hq'k
              cases j' with
              | zero => exact Nat.le_refl 0
              | succ j' =>
                exfalso
                apply hin
                rw [mem_liveKeys_iff]
                exact ⟨j', q', by simpa using hj', hq'e, hq'k⟩

theorem seed_last (l : PathList) : IndexLast (seedLoop 0 l PathIdxs.empty) l := by
  intro i q hq hqe
  have hin : keyOf q ∈ liveKeys l := (mem_liveKeys_iff l _).mpr ⟨i, q, hq, hqe, rfl⟩
  obtain ⟨j, q', hj, hq', hq'e, hq'k, hmax⟩ := (seedLoop_last l 0 PathIdxs.empty (keyOf q)).2 hin
  refine ⟨j, by simpa using hj, hmax i q hq hqe rfl, hmax⟩

theorem seed_absent (l : PathList) (k : pathKey) (h : k ∉ liveKeys l) :
    seedLoop 0 l PathIdxs.empty k = none :=
  (seedLoop_last l 0 PathIdxs.empty k).1 h

/-- In a list with pairwise distinct keys, a key sits at one position only. -/
theorem nodup_position (l : PathList) (i j : Nat) (q q' : Path)
    (hnd : (liveKeys l).Nodup) (hq : l[i]? = some (some q)) (hq' : l[j]? = some (some q'))
    (hqe : q.eor = false) (hq'e : q'.eor = false) (hk : keyOf q = keyOf q') : i = j := by
  induction l generalizing i j with
  | nil => simp at hq
  | cons x l ih =>
    have tail : ∀ i' j', l[i']? = some (some q) → l[j']? = some (some q') →
        (liveKeys l).Nodup → i' = j' := fun i' j' h1 h2 h3 => ih i' j' h3 h1 h2
    have hndl : (liveKeys l).Nodup := by
      cases x with
      | none => simpa [liveKeys, liveEntries_cons_none] using hnd
      | some y =>
        cases hy : y.eor with
        | true => simpa [liveKeys, liveEntries_cons_eor _ _ hy] using hnd
        | false =>
          simp only [liveKeys, liveEntries_cons_live _ _ hy, List.map_cons,
            List.nodup_cons] at hnd
          exact hnd.2
    have head : ∀ (r r' : Path) (n : Nat), x = some r → r.eor = false →
        l[n]? = some (some r') → r'.eor = false → keyOf r = keyOf r' → False := by
      intro r r' n hx hre hn hr'e hkk
      subst hx
      simp only [liveKeys, liveEntries_cons_live _ _ hre, List.map_cons,
        List.nodup_cons] at hnd
      apply hnd.1
      rw [hkk]
      exact List.mem_map_of_mem _ (mem_liveEntries_of_getElem l n r' hn hr'e)
    cases i with
    | zero =>
      cases j with
      | zero => rfl
      | succ j =>
        simp at hq hq'
        exact (head q q' j hq hqe hq' hq'e hk).elim
    | succ i =>
      cases j with
      | zero =>
        simp at hq hq'
        exact (head q' q i hq' hq'e hq hqe hk.symm).elim
      | succ j =>
        simp at hq hq'
        rw [tail i j hq hq' hndl]

/-- C11, as stated, fails in its last part: when the seeding item carries a key twice, the
index maps that key to the position of the later entry, so the key of the earlier entry
(at position 0) is not mapped to that entry's position. -/
theorem seed_index_records_last_position :
    (run testChannel [Event.recv (Item.msg dupSeed) false]).map
        (fun bc => (bc.last, bc.pathIdxs (keyOf (newPath4 "10.0.0.100" 1))))
      = some (some dupSeed, some 1)
    ∧ dupSeed.pathList[0]? = some (some (newPath4 "10.0.0.100" 1))
    ∧ (newPath4 "10.0.0.100" 1).eor = false := by
  refine ⟨rfl, rfl, rfl⟩

/-- C11 (amended): in a running worker that holds nothing (empty index), for a path-bearing
item with a non-empty path list: if the non-blocking send succeeds, the item is emitted
unchanged, only `in` and `out` increase, by 1 each, and the worker still holds nothing, with
an empty index; if it fails, nothing is emitted, `in`, `retries` and `collected` increase by
1 each, the worker holds that item with its path list unchanged, and the index maps the key
of each non-nil, non-EOR entry to the last position that holds a non-nil, non-EOR entry with
that key, which is the entry's own position when the keys of the item are pairwise distinct;
every recorded position holds a non-nil, non-EOR entry, and no other key is recorded. -/
theorem idle_path_bearing (bc : bufferChannel) (m : Msg)
    (hl : bc.last = none) (hidx : bc.pathIdxs = PathIdxs.empty)
    (hopen : bc.parent.outputClosed = false) (hne : m.pathList ≠ []) :
    (∃ bc', serve bc (Event.recv (Item.msg m) true) = some bc'
      ∧ bc'.parent.output = bc.parent.output ++ [Item.msg m]
      ∧ bc'.parent.in_ = bc.parent.in_ + 1
      ∧ bc'.parent.out = bc.parent.out + 1
      ∧ bc'.parent.notifications = bc.parent.notifications
      ∧ bc'.parent.collected = bc.parent.collected
      ∧ bc'.parent.rewritten = bc.parent.rewritten
      ∧ bc'.parent.retries = bc.parent.retries
      ∧ bc'.last = none
      ∧ bc'.pathIdxs = PathIdxs.empty)
    ∧ (∃ bc', serve bc (Event.recv (Item.msg m) false) = some bc'
      ∧ bc'.parent.output = bc.parent.output
      ∧ bc'.parent.in_ = bc.parent.in_ + 1
      ∧ bc'.parent.retries = bc.parent.retries + 1
      ∧ bc'.parent.collected = bc.parent.collected + 1
      ∧ bc'.parent.notifications = bc.parent.notifications
      ∧ bc'.parent.rewritten = bc.parent.rewritten
      ∧ bc'.parent.out = bc.parent.out
      ∧ bc'.last = some m
      ∧ IndexSound bc'.pathIdxs m.pathList
      ∧ IndexLast bc'.pathIdxs m.pathList
      ∧ (∀ k, k ∉ liveKeys m.pathList → bc'.pathIdxs k = none)
      ∧ ((liveKeys m.pathList).Nodup → ∀ i q, m.pathList[i]? = some (some q) →
          q.eor = false → bc'.pathIdxs (keyOf q) = some i)) := by
  constructor
  · have hstep : serve bc (Event.recv (Item.msg m) true) = _ :=
      (serve_recv bc _ _ hopen).trans (onInput_fast bc _ m (asPathBearing_msg m hne) hl)
    exact ⟨_, hstep, rfl, rfl, rfl, rfl, rfl, rfl, rfl, hl, hidx⟩
  · have hstep := serve_seed bc m hl hopen hne
    rw [hidx] at hstep
    refine ⟨_, hstep, rfl, rfl, rfl, rfl, rfl, rfl, rfl, rfl, seed_sound _, seed_last _,
      seed_absent _, ?_⟩
    intro hnd i q hq hqe
    obtain ⟨j, hj, _, _⟩ := seed_last m.pathList i q hq hqe
    obtain ⟨q', hq', hq'e, hq'k⟩ := seed_sound m.pathList _ _ hj
    have : i = j := nodup_position m.pathList i j q q' hnd hq hq' hqe hq'e hq'k.symm
    show seedLoop 0 m.pathList PathIdxs.empty (keyOf q) = some i
    rw [this]
    exact hj

theorem idle_path_bearing_witness :
    (∃ bc', serve testChannel (Event.recv (Item.msg firstItem) true) = some bc'
      ∧ bc'.parent.output = [] ++ [Item.msg firstItem]
      ∧ bc'.parent.in_ = 0 + 1
      ∧ bc'.parent.out = 0 + 1
      ∧ bc'.parent.notifications = 0
      ∧ bc'.parent.collected = 0
      ∧ bc'.parent.rewritten = 0
      ∧ bc'.parent.retries = 0
      ∧ bc'.last = none
      ∧ bc'.pathIdxs = PathIdxs.empty)
    ∧ (∃ bc', serve testChannel (Event.recv (Item.msg firstItem) false) = some bc'
      ∧ bc'.parent.output = []
      ∧ bc'.parent.in_ = 0 + 1
      ∧ bc'.parent.retries = 0 + 1
      ∧ bc'.parent.collected = 0 + 1
      ∧ bc'.parent.notifications = 0
      ∧ bc'.parent.rewritten = 0
      ∧ bc'.parent.out = 0
      ∧ bc'.last = some firstItem
      ∧ IndexSound bc'.pathIdxs firstItem.pathList
      ∧ IndexLast bc'.pathIdxs firstItem.pathList
      ∧ (∀ k, k ∉ liveKeys firstItem.pathList → bc'.pathIdxs k = none)
      ∧ ((liveKeys firstItem.pathList).Nodup → ∀ i q, firstItem.pathList[i]? = some (some q) →
          q.eor = false → bc'.pathIdxs (keyOf q) = some i)) :=
  idle_path_bearing testChannel firstItem rfl rfl rfl (by decide)

/-! ## C12: the held item is the item collected last -/

/-- One merge: the held item becomes the received item, with the merged list. -/
theorem serve_merge_last (bc bc' : bufferChannel) (last elem : Msg) (ready : Bool)
    (hl : bc.last = some last) (hopen : bc.parent.outputClosed = false)
    (hne : elem.pathList ≠ [])
    (h : serve bc (Event.recv (Item.msg elem) ready) = some bc') :
    ∃ a, mergeLoop (mergeStart bc last) elem.pathList = some a
      ∧ bc'.last = some (elem.SetPathList a.nextPathsList)
      ∧ bc'.parent.outputClosed = false
      ∧ bc'.parent.output = bc.parent.output := by
  rw [serve_recv bc _ _ hopen,
    onInput_merge bc _ ready elem last (asPathBearing_msg elem hne) hl] at h
  cases hm : mergeLoop (mergeStart bc last) elem.pathList with
  | none =>
    simp only [mergeStart] at hm
    simp [hm] at h
  | some a =>
    refine ⟨a, rfl, ?_⟩
    simp only [mergeStart] at hm
    rw [hm] at h
    simp only [Option.map_some', Option.some.injEq] at h
    subst h
    exact ⟨rfl, hopen, rfl⟩

theorem run_collect_last (ms : List Msg) (bc bc' : bufferChannel) (last : Msg)
    (hl : bc.last = some last) (hopen : bc.parent.outputClosed = false)
    (hne : ∀ x ∈ ms, x.pathList ≠ []) (h : run bc (collectEvents ms) = some bc') :
    ∃ L, bc'.last = some (((last :: ms).getLast (by simp)).SetPathList L)
      ∧ (ms = [] → L = last.pathList) := by
  induction ms generalizing bc last with
  | nil =>
    simp only [collectEvents, List.map_nil, run, Option.some.injEq] at h
    subst h
    exact ⟨last.pathList, by simpa [Msg.SetPathList] using hl, fun _ => rfl⟩
  | cons m ms ih =>
    simp only [collectEvents, List.map_cons, run] at h
    cases hs : serve bc (Event.recv (Item.msg m) false) with
    | none => simp [hs] at h
    | some bc1 =>
      rw [hs] at h
      simp only [Option.some_bind] at h
      obtain ⟨a, _, hl1, hopen1, _⟩ :=
        serve_merge_last bc bc1 last m false hl hopen (hne m (by simp)) hs
      obtain ⟨L, hL, _⟩ := ih bc1 _ hl1 hopen1 (fun x hx => hne x (by simp [hx])) h
      refine ⟨L, ?_, fun hnil => by cases hnil⟩
      rw [hL]
      cases ms with
      | nil => simp [Msg.SetPathList]
      | cons m' ms' => simp [List.getLast_cons]

/-- C12: a merge makes the received item the held item, its path list replaced by the merged
list and its other fields kept; and for every run of `N ≥ 1` path-bearing items collected
from a worker that holds nothing, the aggregate that is held, and that the next send emits,
is the `N`-th item (with the index of the `N`-th item) carrying the merged path list. -/
theorem held_item_is_last_collected (bc : bufferChannel) (m : Msg) (ms : List Msg)
    (hl : bc.last = none) (hidx : bc.pathIdxs = PathIdxs.empty)
    (hopen : bc.parent.outputClosed = false) (hne : ∀ x ∈ m :: ms, x.pathList ≠ []) :
    (∀ (b b' : bufferChannel) (last elem : Msg) (ready : Bool), b.last = some last →
        b.parent.outputClosed = false → elem.pathList ≠ [] →
        serve b (Event.recv (Item.msg elem) ready) = some b' →
        ∃ a, mergeLoop (mergeStart b last) elem.pathList = some a
          ∧ b'.last = some (elem.SetPathList a.nextPathsList)
          ∧ (elem.SetPathList a.nextPathsList).index = elem.index)
    ∧ ∃ bc' agg, run bc (collectEvents (m :: ms)) = some bc' ∧ bc'.last = some agg
      ∧ agg = ((m :: ms).getLast (by simp)).SetPathList agg.pathList
      ∧ agg.index = ((m :: ms).getLast (by simp)).index
      ∧ (ms = [] → agg = m)
      ∧ eorEntries agg.pathList = eorEntries (allPaths (m :: ms))
      ∧ ((liveKeys m.pathList).Nodup →
          liveEntries agg.pathList = specAggregate (liveEntries (allPaths (m :: ms))))
      ∧ ∃ bc'', run bc (collectEvents (m :: ms) ++ [Event.sent]) = some bc''
          ∧ bc''.parent.output = bc.parent.output ++ [Item.msg agg]
          ∧ bc''.last = none := by
  constructor
  · intro b b' last elem ready hbl hbo hen hs
    obtain ⟨a, ha, hl', _, _⟩ := serve_merge_last b b' last elem ready hbl hbo hen hs
    exact ⟨a, ha, hl', rfl⟩
  · obtain ⟨bc', agg, hrun, hl', hopen', hout', _, he, hd⟩ :=
      run_collect m ms bc hl hidx hopen hne
    have hseed := serve_seed bc m hl hopen (hne m (by simp))
    have hrun' := hrun
    simp only [collectEvents, List.map_cons, run, hseed, Option.some_bind] at hrun'
    obtain ⟨L, hL, hnil⟩ := run_collect_last ms
      { parent := { bc.parent with
          in_ := bc.parent.in_ + 1
          retries := bc.parent.retries + 1
          collected := bc.parent.collected + 1 }
        pathIdxs := seedLoop 0 m.pathList bc.pathIdxs
        last := some m }
      bc' m rfl hopen (fun x hx => hne x (by simp [hx])) hrun'
    rw [hl'] at hL
    simp only [Option.some.injEq] at hL
    have hagg : agg = ((m :: ms).getLast (by simp)).SetPathList agg.pathList := by
      conv_lhs => rw [hL]
      rw [hL]
      rfl
    refine ⟨bc', agg, hrun, hl', hagg, ?_, ?_, he, hd, flush bc' agg, ?_, ?_, rfl⟩
    · rw [hL]; rfl
    · intro hms
      subst hms
      rw [hL, hnil rfl]
      rfl
    · rw [run_append, hrun]
      simp only [Option.some_bind, run, serve_sent bc' agg hopen' hl']
    · simp [flush, hout']

theorem held_item_is_last_collected_witness :
    ((∀ (b b' : bufferChannel) (last elem : Msg) (ready : Bool), b.last = some last →
        b.parent.outputClosed = false → elem.pathList ≠ [] →
        serve b (Event.recv (Item.msg elem) ready) = some b' →
        ∃ a, mergeLoop (mergeStart b last) elem.pathList = some a
          ∧ b'.last = some (elem.SetPathList a.nextPathsList)
          ∧ (elem.SetPathList a.nextPathsList).index = elem.index)
    ∧ ∃ bc' agg, run testChannel (collectEvents multiNlrisItems) = some bc' ∧ bc'.last = some agg
      ∧ agg = (multiNlrisItems.getLast (by decide)).SetPathList agg.pathList
      ∧ agg.index = (multiNlrisItems.getLast (by decide)).index
      ∧ (multiNlrisItems.tail = [] → agg = firstItem)
      ∧ eorEntries agg.pathList = eorEntries (allPaths multiNlrisItems)
      ∧ ((liveKeys firstItem.pathList).Nodup →
          liveEntries agg.pathList = specAggregate (liveEntries (allPaths multiNlrisItems)))
      ∧ ∃ bc'', run testChannel (collectEvents multiNlrisItems ++ [Event.sent]) = some bc''
          ∧ bc''.parent.output = [] ++ [Item.msg agg]
          ∧ bc''.last = none)
    ∧ (run testChannel (collectEvents multiNlrisItems ++ [Event.sent])).map
        (fun bc => bc.parent.output)
      = some [Item.msg { index := 4, pathList := multiNlrisExpected }] :=
  ⟨held_item_is_last_collected testChannel firstItem multiNlrisItems.tail rfl rfl rfl
      (by decide), rfl⟩

/-! ## C13: construction -/

/-- C13: for every non-negative capacity `c`, `NewBufferChannel(c)` creates an input port of
capacity 64 when `c = 0` and of capacity `c` otherwise, an output port of capacity 0, and a
worker that holds nothing, with an empty index, all six counters 0, nothing sent and the
output port open. -/
theorem newBufferChannel_initial (c : Int) (hc : 0 ≤ c) :
    ∃ bc, NewBufferChannel c = some bc
      ∧ (bc.parent.inputCap : Int) = (if c = 0 then 64 else c)
      ∧ bc.parent.outputCap = 0
      ∧ bc.last = none
      ∧ bc.pathIdxs = PathIdxs.empty
      ∧ bc.parent.in_ = 0 ∧ bc.parent.notifications = 0 ∧ bc.parent.collected = 0
      ∧ bc.parent.rewritten = 0 ∧ bc.parent.retries = 0 ∧ bc.parent.out = 0
      ∧ bc.parent.output = [] ∧ bc.parent.outputClosed = false := by
  by_cases hz : c = 0
  · subst hz
    exact ⟨_, rfl, rfl, rfl, rfl, rfl, rfl, rfl, rfl, rfl, rfl, rfl, rfl, rfl⟩
  · have hn : ¬ c < 0 := by omega
    have hnew : NewBufferChannel c = some
        { parent :=
            { inputCap := c.toNat, outputCap := 0,
              in_ := 0, notifications := 0, collected := 0, rewritten := 0, retries := 0,
              out := 0, output := [], outputClosed := false }
          pathIdxs := PathIdxs.empty
          last := none } := by
      simp [NewBufferChannel, hz, hn]
    refine ⟨_, hnew, ?_, rfl, rfl, rfl, rfl, rfl, rfl, rfl, rfl, rfl, rfl, rfl⟩
    simp [hz, Int.toNat_of_nonneg hc]

theorem newBufferChannel_initial_witness :
    (∃ bc, NewBufferChannel 8 = some bc
      ∧ (bc.parent.inputCap : Int) = (if (8 : Int) = 0 then 64 else 8)
      ∧ bc.parent.outputCap = 0
      ∧ bc.last = none
      ∧ bc.pathIdxs = PathIdxs.empty
      ∧ bc.parent.in_ = 0 ∧ bc.parent.notifications = 0 ∧ bc.parent.collected = 0
      ∧ bc.parent.rewritten = 0 ∧ bc.parent.retries = 0 ∧ bc.parent.out = 0
      ∧ bc.parent.output = [] ∧ bc.parent.outputClosed = false)
    ∧ (NewBufferChannel 0).map (fun bc => bc.parent.inputCap) = some 64
    ∧ (NewBufferChannel 8).map (fun bc => bc.parent.inputCap) = some 8 :=
  ⟨newBufferChannel_initial 8 (by decide), rfl, rfl⟩

/-! ## Appends and rewrites of one merge, on values -/

theorem nonNilCount_cons_none (l : PathList) : nonNilCount (none :: l) = nonNilCount l := by
  simp [nonNilCount]

theorem nonNilCount_cons_some (p : Path) (l : PathList) :
    nonNilCount (some p :: l) = nonNilCount l + 1 := by
  simp [nonNilCount]

theorem mergeStep_count (a a' : MergeAcc) (x : Option Path) (h : mergeStep a x = some a') :
    a'.nextPathsList.length + a'.rewritten
        = a.nextPathsList.length + a.rewritten + nonNilCount [x]
      ∧ a.nextPathsList.length ≤ a'.nextPathsList.length
      ∧ a.rewritten ≤ a'.rewritten := by
  cases x with
  | none =>
    rw [mergeStep_nil] at h
    cases h
    simp [nonNilCount]
  | some p =>
    cases hp : p.eor with
    | true =>
      rw [mergeStep_eor a p hp] at h
      cases h
      simp [nonNilCount]
      omega
    | false =>
      cases hk : a.pathIdxs (keyOf p) with
      | none =>
        rw [mergeStep_new a p hp hk] at h
        cases h
        simp [nonNilCount]
        omega
      | some i =>
        by_cases hi : i < a.nextPathsList.length
        · rw [mergeStep_rewrite a p i hp hk hi] at h
          cases h
          simp [nonNilCount]
          omega
        · simp [mergeStep, hp, hk, hi] at h

theorem mergeLoop_count (L : PathList) (a a' : MergeAcc) (h : mergeLoop a L = some a') :
    a'.nextPathsList.length + a'.rewritten
        = a.nextPathsList.length + a.rewritten + nonNilCount L
      ∧ a.nextPathsList.length ≤ a'.nextPathsList.length
      ∧ a.rewritten ≤ a'.rewritten := by
  induction L generalizing a with
  | nil =>
    simp only [mergeLoop, Option.some.injEq] at h
    subst h
    simp [nonNilCount]
  | cons x L ih =>
    cases hs : mergeStep a x with
    | none => simp [mergeLoop, hs] at h
    | some a1 =>
      simp only [mergeLoop, hs, Option.some_bind] at h
      obtain ⟨h1, h2, h3⟩ := mergeStep_count a a1 x hs
      obtain ⟨h4, h5, h6⟩ := ih a1 h
      have hx : nonNilCount (x :: L) = nonNilCount [x] + nonNilCount L := by
        cases x with
        | none => simp [nonNilCount]
        | some p => simp [nonNilCount]; omega
      refine ⟨by omega, by omega, by omega⟩

/-- On path lists as values (no two share memory): for every state in which an aggregate is
held with a valid index (every recorded
position holds a non-nil, non-EOR entry with the key it is recorded under) and every item,
the merge accounts for every non-nil entry of the item's path list exactly once, as an
append or as a rewrite: the growth of the aggregate list plus the growth of `rewritten` is
the number of non-nil entries, and neither the list nor `rewritten` gets smaller. -/
theorem merge_accounts_for_entries (bc : bufferChannel) (last elem : Msg)
    (hl : bc.last = some last) (hs : IndexSound bc.pathIdxs last.pathList) :
    ∃ bc' agg, collect bc elem = some bc' ∧ bc'.last = some agg
      ∧ last.pathList.length ≤ agg.pathList.length
      ∧ bc.parent.rewritten ≤ bc'.parent.rewritten
      ∧ (agg.pathList.length - last.pathList.length)
          + (bc'.parent.rewritten - bc.parent.rewritten) = nonNilCount elem.pathList := by
  obtain ⟨a, ha, _⟩ := mergeLoop_spec elem.pathList (mergeStart bc last) hs
  obtain ⟨h1, h2, h3⟩ := mergeLoop_count elem.pathList (mergeStart bc last) a ha
  simp only [mergeStart] at h1 h2 h3
  refine ⟨_, _, by rw [collect_merge_eq bc last elem hl, ha]; rfl, rfl, h2, h3, ?_⟩
  show (a.nextPathsList.length - last.pathList.length)
    + (a.rewritten - bc.parent.rewritten) = nonNilCount elem.pathList
  omega

theorem merge_accounts_for_entries_witness :
    ∃ bc' agg, collect heldFirst secondItem = some bc' ∧ bc'.last = some agg
      ∧ firstItem.pathList.length ≤ agg.pathList.length
      ∧ heldFirst.parent.rewritten ≤ bc'.parent.rewritten
      ∧ (agg.pathList.length - firstItem.pathList.length)
          + (bc'.parent.rewritten - heldFirst.parent.rewritten) = nonNilCount secondItem.pathList :=
  merge_accounts_for_entries heldFirst firstItem secondItem rfl (seed_sound firstItem.pathList)

/-! ## The counters along a run -/

/-- The effect of `onInput` on the counters, whatever the branch. -/
theorem onInput_effect (bc bc' : bufferChannel) (anyElem : Item) (ready : Bool)
    (h : onInput bc anyElem ready = some bc') :
    bc'.parent.in_ = bc.parent.in_ + 1
    ∧ (bc.parent.out + bc.parent.collected + heldCount bc = bc.parent.in_ + bc.parent.retries →
        bc'.parent.out + bc'.parent.collected + heldCount bc'
          = bc'.parent.in_ + bc'.parent.retries)
    ∧ (bc.parent.retries ≤ bc.parent.collected → bc'.parent.retries ≤ bc'.parent.collected)
    ∧ (if sendsAggregate bc (Event.recv anyElem ready) then 1 else 0) + heldCount bc'
          + bc.parent.retries = bc'.parent.retries + heldCount bc := by
  cases hc : asPathBearing anyElem with
  | none =>
    cases hl : bc.last with
    | none =>
      rw [onInput_passthrough_idle bc anyElem ready hc hl] at h
      simp only [Option.some.injEq] at h
      subst h
      simp only [heldCount, sendsAggregate, hl, hc]
      simp
      omega
    | some last =>
      rw [onInput_passthrough_holding bc anyElem ready last hc hl] at h
      simp only [Option.some.injEq] at h
      subst h
      simp only [heldCount, sendsAggregate, hl, hc]
      simp
      omega
  | some elem =>
    cases hl : bc.last with
    | none =>
      cases ready with
      | true =>
        rw [onInput_fast bc anyElem elem hc hl] at h
        simp only [Option.some.injEq] at h
        subst h
        simp only [heldCount, sendsAggregate, hl, hc]
        simp
        omega
      | false =>
        rw [onInput_seed bc anyElem elem hc hl] at h
        simp only [Option.some.injEq] at h
        subst h
        simp only [heldCount, sendsAggregate, hl, hc]
        simp
        omega
    | some last =>
      rw [onInput_merge bc anyElem ready elem last hc hl] at h
      cases hm : mergeLoop
          { pathIdxs := bc.pathIdxs, nextPathsList := last.pathList,
            rewritten := bc.parent.rewritten } elem.pathList with
      | none => simp [hm] at h
      | some a =>
        rw [hm] at h
        simp only [Option.map_some', Option.some.injEq] at h
        subst h
        simp only [heldCount, sendsAggregate, hl, hc]
        simp
        omega

/-- The effect of one iteration of `serve` on the counters. -/
theorem serve_effect (bc bc' : bufferChannel) (ev : Event) (h : serve bc ev = some bc') :
    bc'.parent.in_ = bc.parent.in_ + recvCount [ev]
    ∧ (bc.parent.out + bc.parent.collected + heldCount bc = bc.parent.in_ + bc.parent.retries →
        bc'.parent.out + bc'.parent.collected + heldCount bc'
          = bc'.parent.in_ + bc'.parent.retries)
    ∧ (bc.parent.retries ≤ bc.parent.collected → bc'.parent.retries ≤ bc'.parent.collected)
    ∧ (if sendsAggregate bc ev then 1 else 0) + heldCount bc' + bc.parent.retries
        = bc'.parent.retries + heldCount bc := by
  unfold serve at h
  split at h
  · cases h
  · cases ev with
    | closed =>
      simp only [Option.some.injEq] at h
      subst h
      simp [recvCount, sendsAggregate, heldCount]
      omega
    | recv elem ready => exact onInput_effect bc bc' elem ready h
    | sent =>
      cases hl : bc.last with
      | none => simp [hl] at h
      | some last =>
        simp only [hl, Option.some.injEq] at h
        subst h
        simp only [recvCount, sendsAggregate, heldCount, hl, flush]
        simp
        omega

theorem recvCount_cons (ev : Event) (evs : List Event) :
    recvCount (ev :: evs) = recvCount [ev] + recvCount evs := by
  cases ev with
  | recv elem ready => simp [recvCount]; omega
  | sent => simp [recvCount]
  | closed => simp [recvCount]

theorem run_effect (evs : List Event) (bc bc' : bufferChannel) (h : run bc evs = some bc') :
    bc'.parent.in_ = bc.parent.in_ + recvCount evs
    ∧ (bc.parent.out + bc.parent.collected + heldCount bc = bc.parent.in_ + bc.parent.retries →
        bc'.parent.out + bc'.parent.collected + heldCount bc'
          = bc'.parent.in_ + bc'.parent.retries)
    ∧ (bc.parent.retries ≤ bc.parent.collected → bc'.parent.retries ≤ bc'.parent.collected)
    ∧ aggregatesSent bc evs + heldCount bc' + bc.parent.retries
        = bc'.parent.retries + heldCount bc := by
  induction evs generalizing bc with
  | nil =>
    simp only [run, Option.some.injEq] at h
    subst h
    simp [recvCount, aggregatesSent]
    omega
  | cons ev evs ih =>
    cases hs : serve bc ev with
    | none => simp [run, hs] at h
    | some bc1 =>
      simp only [run, hs, Option.some_bind] at h
      obtain ⟨h1, h2, h3, h4⟩ := serve_effect bc bc1 ev hs
      obtain ⟨g1, g2, g3, g4⟩ := ih bc1 h
      refine ⟨?_, fun hi => g2 (h2 hi), fun hi => g3 (h3 hi), ?_⟩
      · have hcons := recvCount_cons ev evs
        omega
      · simp only [aggregatesSent, hs]
        omega

/-- In a running worker with a well-formed index every received item is handled. -/
theorem serve_recv_total (bc : bufferChannel) (anyElem : Item) (ready : Bool)
    (hw : WellIndexed bc) (hopen : bc.parent.outputClosed = false) :
    ∃ bc', serve bc (Event.recv anyElem ready) = some bc' := by
  rw [serve_recv bc _ _ hopen]
  cases hc : asPathBearing anyElem with
  | none =>
    cases hl : bc.last with
    | none => exact ⟨_, onInput_passthrough_idle bc anyElem ready hc hl⟩
    | some last => exact ⟨_, onInput_passthrough_holding bc anyElem ready last hc hl⟩
  | some elem =>
    cases hl : bc.last with
    | none =>
      cases ready with
      | true => exact ⟨_, onInput_fast bc anyElem elem hc hl⟩
      | false => exact ⟨_, onInput_seed bc anyElem elem hc hl⟩
    | some last =>
      have hsc : IndexSound bc.pathIdxs last.pathList ∧ IndexCovers bc.pathIdxs last.pathList := by
        simpa [WellIndexed, hl] using hw
      obtain ⟨a, ha, _⟩ := mergeLoop_spec elem.pathList
        { pathIdxs := bc.pathIdxs, nextPathsList := last.pathList,
          rewritten := bc.parent.rewritten } hsc.1
      rw [onInput_merge bc anyElem ready elem last hc hl, ha]
      exact ⟨_, rfl⟩

/-! ## C14: `in` counts the items received -/

/-- C14: in every state reachable from the initial state, `in` is the number of items
received so far; if the worker is running, every item that arrives is handled, whatever the
branch, and increases `in` by exactly 1; the pending-aggregate-sent and the input-closed
transitions leave `in` unchanged. -/
theorem in_counts_received (inSize : Int) (bc0 bc : bufferChannel) (evs : List Event)
    (h0 : NewBufferChannel inSize = some bc0) (hrun : run bc0 evs = some bc) :
    bc.parent.in_ = recvCount evs
    ∧ (∀ anyElem ready, bc.parent.outputClosed = false →
        ∃ bc', serve bc (Event.recv anyElem ready) = some bc'
          ∧ bc'.parent.in_ = bc.parent.in_ + 1)
    ∧ (∀ bc', serve bc Event.sent = some bc' → bc'.parent.in_ = bc.parent.in_)
    ∧ (∀ bc', serve bc Event.closed = some bc' → bc'.parent.in_ = bc.parent.in_) := by
  have hw := run_wellIndexed evs bc0 bc (NewBufferChannel_wellIndexed inSize bc0 h0) hrun
  obtain ⟨_, _, hin, _⟩ := NewBufferChannel_some inSize bc0 h0
  refine ⟨?_, ?_, ?_, ?_⟩
  · rw [(run_effect evs bc0 bc hrun).1, hin]; omega
  · intro anyElem ready hopen
    obtain ⟨bc', hs⟩ := serve_recv_total bc anyElem ready hw hopen
    exact ⟨bc', hs, by simpa [recvCount] using (serve_effect bc bc' _ hs).1⟩
  · intro bc' hs
    simpa [recvCount] using (serve_effect bc bc' _ hs).1
  · intro bc' hs
    simpa [recvCount] using (serve_effect bc bc' _ hs).1

theorem in_counts_received_witness :
    heldFirst.parent.in_ = recvCount (collectEvents [firstItem])
    ∧ (∀ anyElem ready, heldFirst.parent.outputClosed = false →
        ∃ bc', serve heldFirst (Event.recv anyElem ready) = some bc'
          ∧ bc'.parent.in_ = heldFirst.parent.in_ + 1)
    ∧ (∀ bc', serve heldFirst Event.sent = some bc' → bc'.parent.in_ = heldFirst.parent.in_)
    ∧ (∀ bc', serve heldFirst Event.closed = some bc' → bc'.parent.in_ = heldFirst.parent.in_) :=
  in_counts_received 1 testChannel heldFirst (collectEvents [firstItem]) rfl rfl

/-! ## C15: one aggregate at most, and an empty index while nothing is held -/

/-- C15: in every state reachable from the initial state the worker holds at most one
aggregate, and the index is empty whenever it holds none.  Every transition that sends the
aggregate downstream (the pending aggregate accepted, or the flush before an item that is
passed through) sends exactly the held aggregate and leaves the held item absent and the
index empty; so a seed starts from the empty index. -/
theorem index_empty_when_idle (inSize : Int) (bc0 bc : bufferChannel) (evs : List Event)
    (h0 : NewBufferChannel inSize = some bc0) (hrun : run bc0 evs = some bc) :
    heldCount bc ≤ 1
    ∧ (bc.last = none → bc.pathIdxs = PathIdxs.empty)
    ∧ (∀ last, bc.last = some last → bc.parent.outputClosed = false →
        ∃ bc', serve bc Event.sent = some bc' ∧ bc'.last = none
          ∧ bc'.pathIdxs = PathIdxs.empty
          ∧ bc'.parent.output = bc.parent.output ++ [Item.msg last])
    ∧ (∀ last anyElem ready, bc.last = some last → bc.parent.outputClosed = false →
        Notification anyElem →
        ∃ bc', serve bc (Event.recv anyElem ready) = some bc' ∧ bc'.last = none
          ∧ bc'.pathIdxs = PathIdxs.empty
          ∧ bc'.parent.output = bc.parent.output ++ [Item.msg last, anyElem])
    ∧ (∀ m, bc.last = none → bc.parent.outputClosed = false → m.pathList ≠ [] →
        ∃ bc', serve bc (Event.recv (Item.msg m) false) = some bc' ∧ bc'.last = some m
          ∧ bc'.pathIdxs = seedLoop 0 m.pathList PathIdxs.empty) := by
  have hw := run_wellIndexed evs bc0 bc (NewBufferChannel_wellIndexed inSize bc0 h0) hrun
  have hidle : bc.last = none → bc.pathIdxs = PathIdxs.empty := by
    intro hl
    simpa [WellIndexed, hl] using hw
  refine ⟨?_, hidle, ?_, ?_, ?_⟩
  · unfold heldCount
    split <;> omega
  · intro last hl hopen
    exact ⟨_, serve_sent bc last hopen hl, rfl, rfl, rfl⟩
  · intro last anyElem ready hl hopen hn
    have hs : serve bc (Event.recv anyElem ready) = _ :=
      (serve_recv bc _ _ hopen).trans
        (onInput_passthrough_holding bc anyElem ready last
          (asPathBearing_of_notification _ hn) hl)
    exact ⟨_, hs, rfl, rfl, rfl⟩
  · intro m hl hopen hne
    have hs := serve_seed bc m hl hopen hne
    rw [hidle hl] at hs
    exact ⟨_, hs, rfl, rfl⟩

theorem index_empty_when_idle_witness :
    heldCount heldFirst ≤ 1
    ∧ (heldFirst.last = none → heldFirst.pathIdxs = PathIdxs.empty)
    ∧ (∀ last, heldFirst.last = some last → heldFirst.parent.outputClosed = false →
        ∃ bc', serve heldFirst Event.sent = some bc' ∧ bc'.last = none
          ∧ bc'.pathIdxs = PathIdxs.empty
          ∧ bc'.parent.output = heldFirst.parent.output ++ [Item.msg last])
    ∧ (∀ last anyElem ready, heldFirst.last = some last →
        heldFirst.parent.outputClosed = false → Notification anyElem →
        ∃ bc', serve heldFirst (Event.recv anyElem ready) = some bc' ∧ bc'.last = none
          ∧ bc'.pathIdxs = PathIdxs.empty
          ∧ bc'.parent.output = heldFirst.parent.output ++ [Item.msg last, anyElem])
    ∧ (∀ m, heldFirst.last = none → heldFirst.parent.outputClosed = false → m.pathList ≠ [] →
        ∃ bc', serve heldFirst (Event.recv (Item.msg m) false) = some bc' ∧ bc'.last = some m
          ∧ bc'.pathIdxs = seedLoop 0 m.pathList PathIdxs.empty) :=
  index_empty_when_idle 1 testChannel heldFirst (collectEvents [firstItem]) rfl rfl

/-! ## C16: the recorded positions are in range -/

/-- C16: in every state reachable from the initial state in which an aggregate is held,
every position recorded in the index is strictly less than the length of the aggregate's
path list, and the entry at that position is non-nil, non-EOR and has exactly the key it is
recorded under; consequently collecting any further item does not panic, and no entry of
any incoming path list, after any entries before it, makes the overwrite go out of range. -/
theorem index_positions_in_range (inSize : Int) (bc0 bc : bufferChannel) (evs : List Event)
    (last : Msg) (h0 : NewBufferChannel inSize = some bc0) (hrun : run bc0 evs = some bc)
    (hl : bc.last = some last) :
    (∀ k i, bc.pathIdxs k = some i →
        i < last.pathList.length
        ∧ ∃ q, last.pathList[i]? = some (some q) ∧ q.eor = false ∧ keyOf q = k)
    ∧ (∀ elem, ∃ bc', collect bc elem = some bc')
    ∧ (∀ (pre : PathList) (x : Option Path),
        ∃ a a', mergeLoop (mergeStart bc last) pre = some a ∧ mergeStep a x = some a') := by
  have hw := run_wellIndexed evs bc0 bc (NewBufferChannel_wellIndexed inSize bc0 h0) hrun
  have hs : IndexSound bc.pathIdxs last.pathList := by
    have : IndexSound bc.pathIdxs last.pathList ∧ IndexCovers bc.pathIdxs last.pathList := by
      simpa [WellIndexed, hl] using hw
    exact this.1
  refine ⟨fun k i hk => ⟨IndexSound_lt hs hk, hs k i hk⟩, ?_, ?_⟩
  · intro elem
    obtain ⟨a, ha, _⟩ := mergeLoop_spec elem.pathList (mergeStart bc last) hs
    exact ⟨_, by rw [collect_merge_eq bc last elem hl, ha]; rfl⟩
  · intro pre x
    obtain ⟨a, ha, hsa, _⟩ := mergeLoop_spec pre (mergeStart bc last) hs
    obtain ⟨a', ha', _⟩ := mergeStep_spec a x hsa
    exact ⟨a, a', ha, ha'⟩

theorem index_positions_in_range_witness :
    (∀ k i, heldFirst.pathIdxs k = some i →
        i < firstItem.pathList.length
        ∧ ∃ q, firstItem.pathList[i]? = some (some q) ∧ q.eor = false ∧ keyOf q = k)
    ∧ (∀ elem, ∃ bc', collect heldFirst elem = some bc')
    ∧ (∀ (pre : PathList) (x : Option Path),
        ∃ a a', mergeLoop (mergeStart heldFirst firstItem) pre = some a
          ∧ mergeStep a x = some a') :=
  index_positions_in_range 1 testChannel heldFirst (collectEvents [firstItem]) firstItem
    rfl rfl rfl

/-! ## C17: the balance of the counters -/

/-- C17: in every state reachable from the initial state (counters as exact integers) the
counters satisfy `out + collected + h = in + retries`, where `h` is 1 if an aggregate is
held and 0 otherwise; moreover `retries ≤ collected`, `h ≤ retries`, and the number of
aggregates sent downstream along the run is `retries - h`. -/
theorem counters_balance (inSize : Int) (bc0 bc : bufferChannel) (evs : List Event)
    (h0 : NewBufferChannel inSize = some bc0) (hrun : run bc0 evs = some bc) :
    bc.parent.out + bc.parent.collected + heldCount bc = bc.parent.in_ + bc.parent.retries
    ∧ bc.parent.retries ≤ bc.parent.collected
    ∧ heldCount bc ≤ bc.parent.retries
    ∧ aggregatesSent bc0 evs = bc.parent.retries - heldCount bc := by
  obtain ⟨hl0, _, hin, _, hco, _, hre, hout, _, _⟩ := NewBufferChannel_some inSize bc0 h0
  have hh0 : heldCount bc0 = 0 := by simp [heldCount, hl0]
  obtain ⟨_, h2, h3, h4⟩ := run_effect evs bc0 bc hrun
  refine ⟨h2 (by omega), h3 (by omega), by omega, by omega⟩

theorem counters_balance_witness :
    heldFirst.parent.out + heldFirst.parent.collected + heldCount heldFirst
        = heldFirst.parent.in_ + heldFirst.parent.retries
    ∧ heldFirst.parent.retries ≤ heldFirst.parent.collected
    ∧ heldCount heldFirst ≤ heldFirst.parent.retries
    ∧ aggregatesSent testChannel (collectEvents [firstItem])
        = heldFirst.parent.retries - heldCount heldFirst :=
  counters_balance 1 testChannel heldFirst (collectEvents [firstItem]) rfl rfl

/-! ## C19: the merge keeps an exact index -/

theorem indexExact_iff (idxs : PathIdxs) (l : PathList) :
    IndexExact idxs l ↔ IndexSound idxs l ∧ IndexCovers idxs l ∧ (liveKeys l).Nodup := by
  constructor
  · rintro ⟨hnd, hiff⟩
    refine ⟨fun k i hk => (hiff k i).mp hk, ?_, hnd⟩
    intro k hk
    obtain ⟨i, q, hq, hqe, hqk⟩ := (mem_liveKeys_iff l k).mp hk
    rw [(hiff k i).mpr ⟨q, hq, hqe, hqk⟩]
    simp
  · rintro ⟨hs, hc, hnd⟩
    refine ⟨hnd, fun k i => ⟨fun hk => hs k i hk, ?_⟩⟩
    rintro ⟨q, hq, hqe, hqk⟩
    have hin : k ∈ liveKeys l := (mem_liveKeys_iff l k).mpr ⟨i, q, hq, hqe, hqk⟩
    cases hj : idxs k with
    | none => exact absurd hj (hc k hin)
    | some j =>
      obtain ⟨q', hq', hq'e, hq'k⟩ := hs k j hj
      rw [nodup_position l i j q q' hnd hq hq' hqe hq'e (hqk.trans hq'k.symm)]

theorem collect_exact (bc : bufferChannel) (last elem : Msg) (hl : bc.last = some last)
    (hex : IndexExact bc.pathIdxs last.pathList) :
    ∃ a, mergeLoop (mergeStart bc last) elem.pathList = some a
      ∧ collect bc elem = some
          { parent := { bc.parent with
              collected := bc.parent.collected + 1
              rewritten := a.rewritten }
            pathIdxs := a.pathIdxs
            last := some { elem with pathList := a.nextPathsList } }
      ∧ IndexExact a.pathIdxs a.nextPathsList := by
  obtain ⟨hs, hc, hnd⟩ := (indexExact_iff _ _).mp hex
  obtain ⟨a, ha, hs', hc', _, hd'⟩ := mergeLoop_spec elem.pathList (mergeStart bc last) hs
  refine ⟨a, ha, by rw [collect_merge_eq bc last elem hl, ha]; rfl, ?_⟩
  exact (indexExact_iff _ _).mpr ⟨hs', hc' hc, (hd' hc hnd).1⟩

theorem run_collect_exact (ms : List Msg) (bc : bufferChannel) (last : Msg)
    (hl : bc.last = some last) (hopen : bc.parent.outputClosed = false)
    (hne : ∀ x ∈ ms, x.pathList ≠ []) (hex : IndexExact bc.pathIdxs last.pathList) :
    ∃ bc' agg, run bc (collectEvents ms) = some bc' ∧ bc'.last = some agg
      ∧ IndexExact bc'.pathIdxs agg.pathList := by
  induction ms generalizing bc last with
  | nil => exact ⟨bc, last, rfl, hl, hex⟩
  | cons m ms ih =>
    obtain ⟨a, ha, _, hex'⟩ := collect_exact bc last m hl hex
    obtain ⟨a', ha', hserve⟩ := serve_merge bc last m false hl hopen (hne m (by simp))
      ((indexExact_iff _ _).mp hex).1
    have haa : a' = a := by
      have h := ha'.symm.trans ha
      exact Option.some.inj h
    subst haa
    obtain ⟨bc', agg, hrun, hl', hx⟩ := ih
      { parent := { bc.parent with
          in_ := bc.parent.in_ + 1
          collected := bc.parent.collected + 1
          rewritten := a'.rewritten }
        pathIdxs := a'.pathIdxs
        last := some { m with pathList := a'.nextPathsList } }
      { m with pathList := a'.nextPathsList } rfl hopen
      (fun x hx => hne x (by simp [hx])) hex'
    refine ⟨bc', agg, ?_, hl', hx⟩
    simp only [collectEvents, List.map_cons, run, hserve, Option.some_bind]
    exact hrun

/-- C19: if, when an item is collected into a held aggregate, the non-nil, non-EOR entries
of the aggregate have pairwise distinct keys and the index maps exactly those keys, each to
the position of its entry, then the merge does not panic and the same holds afterwards.  A
seed whose non-nil, non-EOR keys are pairwise distinct yields such an index, and then the
index is exact, and the keys distinct, after every further item collected into that
aggregate. -/
theorem merge_preserves_exact_index (bc : bufferChannel) (last elem : Msg)
    (hl : bc.last = some last) (hex : IndexExact bc.pathIdxs last.pathList) :
    (∃ bc' agg, collect bc elem = some bc' ∧ bc'.last = some agg
      ∧ IndexExact bc'.pathIdxs agg.pathList)
    ∧ (∀ (b : bufferChannel) (m : Msg) (ms : List Msg), b.last = none →
        b.pathIdxs = PathIdxs.empty → b.parent.outputClosed = false →
        (∀ x ∈ m :: ms, x.pathList ≠ []) → (liveKeys m.pathList).Nodup →
        (∃ b', collect b m = some b' ∧ b'.last = some m ∧ IndexExact b'.pathIdxs m.pathList)
        ∧ ∃ b' agg, run b (collectEvents (m :: ms)) = some b' ∧ b'.last = some agg
            ∧ IndexExact b'.pathIdxs agg.pathList ∧ (liveKeys agg.pathList).Nodup) := by
  constructor
  · obtain ⟨a, _, hc, hx⟩ := collect_exact bc last elem hl hex
    exact ⟨_, _, hc, rfl, hx⟩
  · intro b m ms hbl hbi hbo hne hnd
    have hseedx : IndexExact (seedLoop 0 m.pathList PathIdxs.empty) m.pathList :=
      (indexExact_iff _ _).mpr ⟨seed_sound _, seed_covers _, hnd⟩
    constructor
    · have hcol : collect b m = some
          { parent := { b.parent with collected := b.parent.collected + 1 }
            pathIdxs := seedLoop 0 m.pathList b.pathIdxs
            last := some m } := by
        simp [collect, hbl]
      refine ⟨_, hcol, rfl, ?_⟩
      show IndexExact (seedLoop 0 m.pathList b.pathIdxs) m.pathList
      rw [hbi]
      exact hseedx
    · have hserve := serve_seed b m hbl hbo (hne m (by simp))
      rw [hbi] at hserve
      obtain ⟨b', agg, hrun, hl', hx⟩ := run_collect_exact ms
        { parent := { b.parent with
            in_ := b.parent.in_ + 1
            retries := b.parent.retries + 1
            collected := b.parent.collected + 1 }
          pathIdxs := seedLoop 0 m.pathList PathIdxs.empty
          last := some m }
        m rfl hbo (fun x hx => hne x (by simp [hx])) hseedx
      refine ⟨b', agg, ?_, hl', hx, hx.1⟩
      simp only [collectEvents, List.map_cons, run, hserve, Option.some_bind]
      exact hrun

theorem merge_preserves_exact_index_witness :
    (∃ bc' agg, collect heldFirst secondItem = some bc' ∧ bc'.last = some agg
      ∧ IndexExact bc'.pathIdxs agg.pathList)
    ∧ (∀ (b : bufferChannel) (m : Msg) (ms : List Msg), b.last = none →
        b.pathIdxs = PathIdxs.empty → b.parent.outputClosed = false →
        (∀ x ∈ m :: ms, x.pathList ≠ []) → (liveKeys m.pathList).Nodup →
        (∃ b', collect b m = some b' ∧ b'.last = some m ∧ IndexExact b'.pathIdxs m.pathList)
        ∧ ∃ b' agg, run b (collectEvents (m :: ms)) = some b' ∧ b'.last = some agg
            ∧ IndexExact b'.pathIdxs agg.pathList ∧ (liveKeys agg.pathList).Nodup) :=
  merge_preserves_exact_index heldFirst firstItem secondItem rfl
    ((indexExact_iff _ _).mpr ⟨seed_sound _, seed_covers _, by decide⟩)

/-! ## Merging the same EOR-free list twice, on values -/

theorem mergeLoop_snoc (a : MergeAcc) (L : PathList) (x : Option Path) :
    mergeLoop a (L ++ [x]) = (mergeLoop a L).bind (fun a' => mergeStep a' x) := by
  rw [mergeLoop_append]
  cases mergeLoop a L with
  | none => rfl
  | some a' =>
    simp only [Option.some_bind, mergeLoop]
    cases mergeStep a' x <;> rfl

/-- After a merge, every key of the incoming list is recorded, at a position that holds
the most recent entry of the incoming list with that key. -/
theorem mergeLoop_settled (L : PathList) (a a1 : MergeAcc)
    (hs : IndexSound a.pathIdxs a.nextPathsList) (h : mergeLoop a L = some a1) :
    ∀ k, k ∈ liveKeys L → ∃ i, a1.pathIdxs k = some i
      ∧ a1.nextPathsList[i]? = some (latest k (liveEntries L)) := by
  induction L using List.reverseRecOn generalizing a1 with
  | nil =>
    intro k hk
    simp [liveKeys, liveEntries] at hk
  | append_singleton L x ih =>
    obtain ⟨a', ha', hsa', _⟩ := mergeLoop_spec L a hs
    rw [mergeLoop_snoc, ha'] at h
    simp only [Option.some_bind] at h
    have hrule := entryRule_of_sound a' a1 x hsa' h
    have ih' := ih a' ha'
    intro k hk
    cases x with
    | none =>
      have := hrule.1 rfl
      subst this
      have e : liveEntries (L ++ [none]) = liveEntries L := by
        simp [liveEntries_append, liveEntries]
      rw [e]
      apply ih'
      simpa [liveKeys, e] using hk
    | some p =>
      cases hp : p.eor with
      | true =>
        obtain ⟨hl1, hi1, _⟩ := hrule.2.1 p rfl hp
        have e : liveEntries (L ++ [some p]) = liveEntries L := by
          simp [liveEntries_append, liveEntries, hp]
        rw [e]
        obtain ⟨i, hi, hv⟩ := ih' k (by simpa [liveKeys, e] using hk)
        refine ⟨i, by rw [hi1]; exact hi, ?_⟩
        rw [hl1, List.getElem?_append_left (IndexSound_lt hsa' hi)]
        exact hv
      | false =>
        have e : liveEntries (L ++ [some p]) = liveEntries L ++ [p] := by
          simp [liveEntries_append, liveEntries, hp]
        rw [e, latest_snoc]
        by_cases hkp : keyOf p = k
        · rw [if_pos hkp]
          subst hkp
          cases hidx : a'.pathIdxs (keyOf p) with
          | none =>
            obtain ⟨hl1, hi1, _, _⟩ := hrule.2.2.1 p rfl hp hidx
            exact ⟨_, hi1, by rw [hl1]; exact List.getElem?_concat_length _ _⟩
          | some i =>
            obtain ⟨_, _, hv, _, hi1, _⟩ := hrule.2.2.2 p i rfl hp hidx
            exact ⟨i, by rw [hi1]; exact hidx, hv⟩
        · rw [if_neg hkp]
          have hkL : k ∈ liveKeys L := by
            simp only [liveKeys, e, List.map_append, List.map_singleton, List.mem_append,
              List.mem_singleton] at hk
            rcases hk with hk | hk
            · exact hk
            · exact absurd hk.symm hkp
          obtain ⟨i, hi, hv⟩ := ih' k hkL
          cases hidx : a'.pathIdxs (keyOf p) with
          | none =>
            obtain ⟨hl1, _, hi1, _⟩ := hrule.2.2.1 p rfl hp hidx
            refine ⟨i, by rw [hi1 k (fun e' => hkp e'.symm)]; exact hi, ?_⟩
            rw [hl1, List.getElem?_append_left (IndexSound_lt hsa' hi)]
            exact hv
          | some i0 =>
            obtain ⟨_, hl1, _, _, hi1, _⟩ := hrule.2.2.2 p i0 rfl hp hidx
            refine ⟨i, by rw [hi1]; exact hi, ?_⟩
            have hne : i0 ≠ i := by
              intro e'
              subst e'
              obtain ⟨q, hq, _, hqk⟩ := hsa' _ _ hidx
              obtain ⟨q', hq', _, hq'k⟩ := hsa' _ _ hi
              rw [hq] at hq'
              simp only [Option.some.injEq] at hq'
              subst hq'
              exact hkp (hqk.symm.trans hq'k)
            rw [hl1, List.getElem?_set_ne hne]
            exact hv

theorem nonNilCount_append (l l' : PathList) :
    nonNilCount (l ++ l') = nonNilCount l + nonNilCount l' := by
  simp [nonNilCount, List.filter_append]

/-- A merge of an EOR-free list all of whose keys are recorded only rewrites: the index and
the length are unchanged, every non-nil entry counts as a rewrite, and the positions that
are recorded for no key of the list keep their entry. -/
theorem mergeLoop_present (L : PathList) (a a2 : MergeAcc)
    (hs : IndexSound a.pathIdxs a.nextPathsList) (hfree : EorFree L)
    (hpres : ∀ k, k ∈ liveKeys L → a.pathIdxs k ≠ none) (h : mergeLoop a L = some a2) :
    a2.pathIdxs = a.pathIdxs
    ∧ a2.nextPathsList.length = a.nextPathsList.length
    ∧ a2.rewritten = a.rewritten + nonNilCount L
    ∧ ∀ j, (∀ k, k ∈ liveKeys L → a.pathIdxs k ≠ some j) →
        a2.nextPathsList[j]? = a.nextPathsList[j]? := by
  induction L using List.reverseRecOn generalizing a2 with
  | nil =>
    simp only [mergeLoop, Option.some.injEq] at h
    subst h
    simp [nonNilCount]
  | append_singleton L x ih =>
    obtain ⟨a', ha', hsa', _⟩ := mergeLoop_spec L a hs
    rw [mergeLoop_snoc, ha'] at h
    simp only [Option.some_bind] at h
    have hrule := entryRule_of_sound a' a2 x hsa' h
    have hsub : ∀ k, k ∈ liveKeys L → k ∈ liveKeys (L ++ [x]) := by
      intro k hk
      rw [liveKeys_append]
      exact List.mem_append_left _ hk
    obtain ⟨i1, i2, i3, i4⟩ := ih a' (fun p hp => hfree p (List.mem_append_left _ hp))
      (fun k hk => hpres k (hsub k hk)) ha'
    cases x with
    | none =>
      have := hrule.1 rfl
      subst this
      refine ⟨i1, i2, by rw [i3, nonNilCount_append]; simp [nonNilCount], ?_⟩
      intro j hj
      exact i4 j (fun k hk => hj k (hsub k hk))
    | some p =>
      have hp : p.eor = false := hfree p (by simp)
      have hkin : keyOf p ∈ liveKeys (L ++ [some p]) := by
        rw [liveKeys_append]
        apply List.mem_append_right
        simp [liveKeys, liveEntries, hp]
      cases hidx : a'.pathIdxs (keyOf p) with
      | none =>
        rw [i1] at hidx
        exact absurd hidx (hpres _ hkin)
      | some i =>
        obtain ⟨_, hl1, _, hlen, hi1, hr1⟩ := hrule.2.2.2 p i rfl hp hidx
        refine ⟨by rw [hi1, i1], by rw [hlen, i2], ?_, ?_⟩
        · rw [hr1, i3, nonNilCount_append]
          simp [nonNilCount]
          omega
        · intro j hj
          have hne : i ≠ j := by
            intro e
            subst e
            rw [i1] at hidx
            exact hj _ hkin hidx
          rw [hl1, List.getElem?_set_ne hne]
          exact i4 j (fun k hk => hj k (hsub k hk))

/-- Merging an EOR-free list a second time changes only `rewritten`. -/
theorem mergeLoop_twice (L : PathList) (a : MergeAcc)
    (hs : IndexSound a.pathIdxs a.nextPathsList) (hfree : EorFree L) :
    ∃ a1 a2, mergeLoop a L = some a1
      ∧ mergeLoop { a1 with rewritten := a1.rewritten } L = some a2
      ∧ IndexSound a1.pathIdxs a1.nextPathsList
      ∧ a2.nextPathsList = a1.nextPathsList
      ∧ a2.pathIdxs = a1.pathIdxs
      ∧ a2.rewritten = a1.rewritten + nonNilCount L := by
  obtain ⟨a1, h1, hs1, _⟩ := mergeLoop_spec L a hs
  obtain ⟨a2, h2, _⟩ := mergeLoop_spec L a1 hs1
  have hset1 := mergeLoop_settled L a a1 hs h1
  have hset2 := mergeLoop_settled L a1 a2 hs1 h2
  have hpres : ∀ k, k ∈ liveKeys L → a1.pathIdxs k ≠ none := by
    intro k hk
    obtain ⟨i, hi, _⟩ := hset1 k hk
    simp [hi]
  obtain ⟨p1, _, p3, p4⟩ := mergeLoop_present L a1 a2 hs1 hfree hpres h2
  refine ⟨a1, a2, h1, h2, hs1, ?_, p1, p3⟩
  apply List.ext_getElem?
  intro j
  by_cases hj : ∃ k, k ∈ liveKeys L ∧ a1.pathIdxs k = some j
  · obtain ⟨k, hk, hkj⟩ := hj
    obtain ⟨i, hi, hv⟩ := hset1 k hk
    obtain ⟨i', hi', hv'⟩ := hset2 k hk
    rw [p1, hkj] at hi'
    rw [hkj] at hi
    simp only [Option.some.injEq] at hi hi'
    subst hi
    subst hi'
    rw [hv, hv']
  · exact p4 j (fun k hk hkj => hj ⟨k, hk, hkj⟩)

/-- On path lists as values (no two share memory): for every state in which an aggregate is
held with a valid index, and every path
list without EOR entries, collecting two items with that path list one after the other
leaves the same aggregate path list and the same index as collecting one: the second merge
appends nothing and increases `rewritten` by the number of non-nil entries of the list. -/
theorem merge_twice_same_list (bc : bufferChannel) (last elem elem' : Msg)
    (hl : bc.last = some last) (hs : IndexSound bc.pathIdxs last.pathList)
    (hfree : EorFree elem.pathList) (hsame : elem'.pathList = elem.pathList) :
    ∃ bc1 agg1 bc2 agg2, collect bc elem = some bc1 ∧ bc1.last = some agg1
      ∧ collect bc1 elem' = some bc2 ∧ bc2.last = some agg2
      ∧ agg2.pathList = agg1.pathList
      ∧ bc2.pathIdxs = bc1.pathIdxs
      ∧ agg2.pathList.length = agg1.pathList.length
      ∧ bc2.parent.rewritten = bc1.parent.rewritten + nonNilCount elem.pathList := by
  obtain ⟨a1, a2, h1, h2, _, hlist, hidx, hrw⟩ :=
    mergeLoop_twice elem.pathList (mergeStart bc last) hs hfree
  have hc1 : collect bc elem = some
      { parent := { bc.parent with
          collected := bc.parent.collected + 1
          rewritten := a1.rewritten }
        pathIdxs := a1.pathIdxs
        last := some { elem with pathList := a1.nextPathsList } } := by
    rw [collect_merge_eq bc last elem hl, h1]
    rfl
  have hc2 : collect
      { parent := { bc.parent with
          collected := bc.parent.collected + 1
          rewritten := a1.rewritten }
        pathIdxs := a1.pathIdxs
        last := some { elem with pathList := a1.nextPathsList } } elem' = some
      { parent := { bc.parent with
          collected := bc.parent.collected + 1 + 1
          rewritten := a2.rewritten }
        pathIdxs := a2.pathIdxs
        last := some { elem' with pathList := a2.nextPathsList } } := by
    rw [collect_merge_eq _ { elem with pathList := a1.nextPathsList } elem' rfl, hsame]
    have : mergeLoop (mergeStart
        { parent := { bc.parent with
            collected := bc.parent.collected + 1
            rewritten := a1.rewritten }
          pathIdxs := a1.pathIdxs
          last := some { elem with pathList := a1.nextPathsList } }
        { elem with pathList := a1.nextPathsList }) elem.pathList = some a2 := h2
    rw [this]
    rfl
  exact ⟨_, _, _, _, hc1, rfl, hc2, rfl, hlist, hidx, by rw [hlist], hrw⟩

theorem merge_twice_same_list_witness :
    ∃ bc1 agg1 bc2 agg2, collect heldFirst secondItem = some bc1 ∧ bc1.last = some agg1
      ∧ collect bc1 { index := 3, pathList := secondItem.pathList } = some bc2
      ∧ bc2.last = some agg2
      ∧ agg2.pathList = agg1.pathList
      ∧ bc2.pathIdxs = bc1.pathIdxs
      ∧ agg2.pathList.length = agg1.pathList.length
      ∧ bc2.parent.rewritten = bc1.parent.rewritten + nonNilCount secondItem.pathList :=
  merge_twice_same_list heldFirst firstItem secondItem
    { index := 3, pathList := secondItem.pathList } rfl (seed_sound firstItem.pathList)
    (by
      intro p hp
      simp only [secondItem, List.mem_cons, List.mem_singleton, Option.some.injEq,
        List.not_mem_nil, or_false] at hp
      rcases hp with rfl | rfl <;> rfl)
    rfl

/-! ## Slices -/

theorem readSlice_getElem? (mem : Mem) (s : Slice) (j : Nat) :
    (readSlice mem s)[j]? = if j < s.len then (arrayOf mem s)[s.off + j]? else none := by
  simp only [readSlice, List.getElem?_take, List.getElem?_drop]

theorem readSlice_length (mem : Mem) (s : Slice) (h : s.Valid mem) :
    (readSlice mem s).length = s.len := by
  obtain ⟨_, h2, h3⟩ := h
  simp only [readSlice, List.length_take, List.length_drop]
  omega

theorem elemAt_eq (mem : Mem) (s : Slice) (i : Nat) (hi : i < s.len) :
    elemAt mem s i = (readSlice mem s)[i]? := by
  rw [readSlice_getElem?, if_pos hi]
  rfl

theorem writeSlice_length (mem : Mem) (s : Slice) (i : Nat) (x : Option Path) :
    (writeSlice mem s i x).length = mem.length := by
  simp [writeSlice]

theorem arrayOf_write_same (mem : Mem) (s t : Slice) (i : Nat) (x : Option Path)
    (hs : s.arr < mem.length) (ht : t.arr = s.arr) :
    arrayOf (writeSlice mem s i x) t = (arrayOf mem s).set (s.off + i) x := by
  simp [arrayOf, writeSlice, ht, List.getElem?_set, hs]

theorem arrayOf_write_other (mem : Mem) (s t : Slice) (i : Nat) (x : Option Path)
    (ht : t.arr ≠ s.arr) :
    arrayOf (writeSlice mem s i x) t = arrayOf mem t := by
  simp only [arrayOf, writeSlice]
  rw [List.getElem?_set_ne (fun e => ht e.symm)]

theorem arrayOf_write_length (mem : Mem) (s t : Slice) (i : Nat) (x : Option Path)
    (hs : s.arr < mem.length) :
    (arrayOf (writeSlice mem s i x) t).length = (arrayOf mem t).length := by
  by_cases ht : t.arr = s.arr
  · rw [arrayOf_write_same mem s t i x hs ht]
    simp [arrayOf, ht]
  · rw [arrayOf_write_other mem s t i x ht]

theorem valid_write (mem : Mem) (s t : Slice) (i : Nat) (x : Option Path)
    (hs : s.arr < mem.length) (ht : t.Valid mem) : t.Valid (writeSlice mem s i x) := by
  obtain ⟨h1, h2, h3⟩ := ht
  refine ⟨by rw [writeSlice_length]; exact h1, h2, ?_⟩
  rw [arrayOf_write_length mem s t i x hs]
  exact h3

/-- The assignment `s[i] = x` seen on the contents of `s`. -/
theorem readSlice_write (mem : Mem) (s : Slice) (i : Nat) (x : Option Path)
    (hv : s.Valid mem) (hi : i < s.len) :
    readSlice (writeSlice mem s i x) s = (readSlice mem s).set i x := by
  obtain ⟨h1, h2, h3⟩ := hv
  apply List.ext_getElem?
  intro j
  rw [readSlice_getElem?, arrayOf_write_same mem s s i x h1 rfl, List.getElem?_set,
    List.getElem?_set, readSlice_getElem?, readSlice_length mem s ⟨h1, h2, h3⟩]
  by_cases hj : j < s.len
  · by_cases e : i = j
    · subst e
      have : s.off + i < (arrayOf mem s).length := by omega
      simp [hj, this]
    · have : ¬ s.off + i = s.off + j := by omega
      simp [hj, e, this]
  · have e : ¬ i = j := by omega
    simp [hj, e]

/-- An append within the capacity seen on the contents. -/
theorem readSlice_write_end (mem : Mem) (s : Slice) (x : Option Path)
    (hv : s.Valid mem) (hc : s.len < s.cap) :
    readSlice (writeSlice mem s s.len x) { s with len := s.len + 1 }
      = readSlice mem s ++ [x] := by
  obtain ⟨h1, h2, h3⟩ := hv
  apply List.ext_getElem?
  intro j
  rw [readSlice_getElem?, arrayOf_write_same mem s { s with len := s.len + 1 } s.len x h1 rfl,
    List.getElem?_set, List.getElem?_append, readSlice_getElem?,
    readSlice_length mem s ⟨h1, h2, h3⟩]
  show (if j < s.len + 1 then
      (if s.off + s.len = s.off + j then
        (if s.off + s.len < (arrayOf mem s).length then some x else none)
      else (arrayOf mem s)[s.off + j]?)
    else none)
    = if j < s.len then (if j < s.len then (arrayOf mem s)[s.off + j]? else none)
      else [x][j - s.len]?
  have hin : s.off + s.len < (arrayOf mem s).length := by omega
  by_cases hj : j < s.len
  · have : ¬ s.off + s.len = s.off + j := by omega
    have hj' : j < s.len + 1 := by omega
    simp [hj, hj', this]
  · by_cases e : j = s.len
    · subst e
      simp [hin]
    · have h1' : ¬ j < s.len + 1 := by omega
      have h2' : (1 : Nat) ≤ j - s.len := by omega
      simp [hj, h1']
      omega

/-- What `append` does, seen on the contents: the element is added at the end, the new
slice is valid, it has the old backing array or a new one, and the other arrays and the
validity of the other slices are untouched. -/
theorem appendSlice_spec (grow : Nat → Nat) (mem : Mem) (s : Slice) (x : Option Path)
    (hv : s.Valid mem) :
    readSlice (appendSlice grow mem s x).1 (appendSlice grow mem s x).2
        = readSlice mem s ++ [x]
    ∧ (appendSlice grow mem s x).2.Valid (appendSlice grow mem s x).1
    ∧ (appendSlice grow mem s x).2.len = s.len + 1
    ∧ mem.length ≤ (appendSlice grow mem s x).1.length
    ∧ ((appendSlice grow mem s x).2.arr = s.arr
        ∨ (appendSlice grow mem s x).2.arr = mem.length)
    ∧ (∀ t : Slice, t.arr ≠ s.arr → t.arr < mem.length →
        arrayOf (appendSlice grow mem s x).1 t = arrayOf mem t) := by
  obtain ⟨h1, h2, h3⟩ := hv
  by_cases hc : s.len < s.cap
  · have e : appendSlice grow mem s x
        = (writeSlice mem s s.len x, { s with len := s.len + 1 }) := by
      simp [appendSlice, hc]
    rw [e]
    refine ⟨readSlice_write_end mem s x ⟨h1, h2, h3⟩ hc, ?_, rfl, ?_, Or.inl rfl, ?_⟩
    · refine ⟨by rw [writeSlice_length]; exact h1, by show s.len + 1 ≤ s.cap; omega, ?_⟩
      rw [arrayOf_write_length mem s _ s.len x h1]
      exact h3
    · show mem.length ≤ (writeSlice mem s s.len x).length
      rw [writeSlice_length]
    · intro t ht _
      exact arrayOf_write_other mem s t s.len x ht
  · have e : appendSlice grow mem s x
        = (mem ++ [readSlice mem s ++ x ::
              List.replicate (max (s.len + 1) (grow s.cap) - (s.len + 1)) none],
            { arr := mem.length, off := 0, len := s.len + 1,
              cap := max (s.len + 1) (grow s.cap) }) := by
      simp [appendSlice, hc]
    rw [e]
    have hlen := readSlice_length mem s ⟨h1, h2, h3⟩
    have harr : arrayOf (mem ++ [readSlice mem s ++ x ::
          List.replicate (max (s.len + 1) (grow s.cap) - (s.len + 1)) none])
        { arr := mem.length, off := 0, len := s.len + 1,
          cap := max (s.len + 1) (grow s.cap) }
        = readSlice mem s ++ x ::
          List.replicate (max (s.len + 1) (grow s.cap) - (s.len + 1)) none := by
      simp [arrayOf]
    refine ⟨?_, ?_, rfl, ?_, Or.inr rfl, ?_⟩
    · show ((arrayOf _ _).drop 0).take (s.len + 1) = _
      rw [harr, List.drop_zero]
      have := @List.take_append _ (readSlice mem s)
        (x :: List.replicate (max (s.len + 1) (grow s.cap) - (s.len + 1)) none) 1
      rw [hlen] at this
      rw [this]
      simp
    · refine ⟨by show mem.length < (mem ++ [_]).length; simp,
        by show s.len + 1 ≤ max (s.len + 1) (grow s.cap); omega, ?_⟩
      rw [harr]
      show 0 + max (s.len + 1) (grow s.cap) ≤ _
      simp only [List.length_append, List.length_cons, List.length_replicate, hlen]
      omega
    · show mem.length ≤ (mem ++ [_]).length
      simp
    · intro t _ ht
      show arrayOf (mem ++ [_]) t = arrayOf mem t
      simp only [arrayOf]
      rw [List.getElem?_append_left ht]

/-! ## The merge on slices and the merge on values -/

theorem absAcc_length (a : MergeAccMem) (hv : a.nextPathsList.Valid a.mem) :
    (absAcc a).nextPathsList.length = a.nextPathsList.len :=
  readSlice_length a.mem a.nextPathsList hv

theorem mergeInv_append (grow : Nat → Nat) (mem0 : Mem) (inc : Slice) (a : MergeAccMem)
    (x : Option Path) (idxs : PathIdxs) (h : MergeInv mem0 inc a) :
    absAcc { a with
        pathIdxs := idxs
        mem := (appendSlice grow a.mem a.nextPathsList x).1
        nextPathsList := (appendSlice grow a.mem a.nextPathsList x).2 }
      = { pathIdxs := idxs, nextPathsList := (absAcc a).nextPathsList ++ [x],
          rewritten := a.rewritten }
    ∧ MergeInv mem0 inc { a with
        pathIdxs := idxs
        mem := (appendSlice grow a.mem a.nextPathsList x).1
        nextPathsList := (appendSlice grow a.mem a.nextPathsList x).2 } := by
  obtain ⟨hv, hne, hin, hle, harr⟩ := h
  obtain ⟨s1, s2, _, s4, s5, s6⟩ := appendSlice_spec grow a.mem a.nextPathsList x hv
  refine ⟨?_, s2, ?_, hin, Nat.le_trans hle s4, ?_⟩
  · simp only [absAcc, s1]
  · show (appendSlice grow a.mem a.nextPathsList x).2.arr ≠ inc.arr
    rcases s5 with e | e
    · rw [e]; exact hne
    · rw [e]; omega
  · show arrayOf (appendSlice grow a.mem a.nextPathsList x).1 inc = arrayOf mem0 inc
    rw [s6 inc (fun e => hne e.symm) (by omega)]
    exact harr

/-- One iteration of the merge loop on slices is the iteration on the contents. -/
theorem mergeStepMem_refines (grow : Nat → Nat) (mem0 : Mem) (inc : Slice) (a : MergeAccMem)
    (x : Option Path) (h : MergeInv mem0 inc a) :
    (mergeStepMem grow a x).map absAcc = mergeStep (absAcc a) x
    ∧ ∀ a', mergeStepMem grow a x = some a' → MergeInv mem0 inc a' := by
  have hlen := absAcc_length a h.1
  cases x with
  | none =>
    refine ⟨rfl, ?_⟩
    intro a' ha'
    simp only [mergeStepMem, Option.some.injEq] at ha'
    subst ha'
    exact h
  | some p =>
    cases hp : p.eor with
    | true =>
      obtain ⟨e1, e2⟩ := mergeInv_append grow mem0 inc a (some p) a.pathIdxs h
      have hstep : mergeStepMem grow a (some p) = some { a with
          pathIdxs := a.pathIdxs
          mem := (appendSlice grow a.mem a.nextPathsList (some p)).1
          nextPathsList := (appendSlice grow a.mem a.nextPathsList (some p)).2 } := by
        simp [mergeStepMem, hp]
      refine ⟨?_, ?_⟩
      · rw [hstep, mergeStep_eor _ p hp, Option.map_some', e1]
        rfl
      · intro a' ha'
        rw [hstep] at ha'
        simp only [Option.some.injEq] at ha'
        subst ha'
        exact e2
    | false =>
      cases hk : a.pathIdxs (keyOf p) with
      | none =>
        obtain ⟨e1, e2⟩ := mergeInv_append grow mem0 inc a (some p)
          (a.pathIdxs.set (keyOf p) a.nextPathsList.len) h
        have hstep : mergeStepMem grow a (some p) = some { a with
            pathIdxs := a.pathIdxs.set (keyOf p) a.nextPathsList.len
            mem := (appendSlice grow a.mem a.nextPathsList (some p)).1
            nextPathsList := (appendSlice grow a.mem a.nextPathsList (some p)).2 } := by
          simp [mergeStepMem, hp, hk]
        refine ⟨?_, ?_⟩
        · rw [hstep, mergeStep_new (absAcc a) p hp hk, Option.map_some', e1, hlen]
          rfl
        · intro a' ha'
          rw [hstep] at ha'
          simp only [Option.some.injEq] at ha'
          subst ha'
          exact e2
      | some i =>
        have hk' : (absAcc a).pathIdxs (keyOf p) = some i := hk
        by_cases hi : i < a.nextPathsList.len
        · have hstep : mergeStepMem grow a (some p) = some { a with
              rewritten := a.rewritten + 1
              mem := writeSlice a.mem a.nextPathsList i (some p) } := by
            simp [mergeStepMem, hp, hk, hi]
          obtain ⟨hv, hne, hin, hle, harr⟩ := h
          refine ⟨?_, ?_⟩
          · rw [hstep, mergeStep_rewrite (absAcc a) p i hp hk' (by rw [hlen]; exact hi),
              Option.map_some']
            simp only [absAcc, readSlice_write a.mem a.nextPathsList i (some p) hv hi]
          · intro a' ha'
            rw [hstep] at ha'
            simp only [Option.some.injEq] at ha'
            subst ha'
            refine ⟨valid_write a.mem _ _ i (some p) hv.1 hv, hne, hin, ?_, ?_⟩
            · show mem0.length ≤ (writeSlice a.mem a.nextPathsList i (some p)).length
              rw [writeSlice_length]
              exact hle
            · show arrayOf (writeSlice a.mem a.nextPathsList i (some p)) inc = arrayOf mem0 inc
              rw [arrayOf_write_other _ _ _ _ _ (fun e => hne e.symm)]
              exact harr
        · have hstep : mergeStepMem grow a (some p) = none := by
            simp [mergeStepMem, hp, hk, hi]
          have hval : mergeStep (absAcc a) (some p) = none := by
            have : ¬ i < (absAcc a).nextPathsList.length := by rw [hlen]; exact hi
            simp [mergeStep, hp, hk', this]
          refine ⟨by rw [hstep, hval]; rfl, ?_⟩
          intro a' ha'
          rw [hstep] at ha'
          cases ha'

/-- The merge loop on slices, ranging over a slice with another backing array than the held
one, is the merge loop on the contents that the slice had when the loop began. -/
theorem mergeLoopMem_refines (grow : Nat → Nat) (mem0 : Mem) (inc : Slice)
    (hinc : inc.Valid mem0) (n i : Nat) (a : MergeAccMem) (hn : i + n = inc.len)
    (h : MergeInv mem0 inc a) :
    (mergeLoopMem grow inc n i a).map absAcc
        = mergeLoop (absAcc a) ((readSlice mem0 inc).drop i)
    ∧ ∀ a', mergeLoopMem grow inc n i a = some a' → MergeInv mem0 inc a' := by
  induction n generalizing i a with
  | zero =>
    have hdrop : (readSlice mem0 inc).drop i = [] := by
      apply List.drop_of_length_le
      rw [readSlice_length mem0 inc hinc]
      omega
    rw [hdrop]
    refine ⟨rfl, ?_⟩
    intro a' ha'
    simp only [mergeLoopMem, Option.some.injEq] at ha'
    subst ha'
    exact h
  | succ n ih =>
    have hi : i < inc.len := by omega
    have hlt : i < (readSlice mem0 inc).length := by
      rw [readSlice_length mem0 inc hinc]; exact hi
    have hread : elemAt a.mem inc i = some ((readSlice mem0 inc)[i]) := by
      have : elemAt a.mem inc i = elemAt mem0 inc i := by
        simp only [elemAt, h.2.2.2.2]
      rw [this, elemAt_eq mem0 inc i hi, List.getElem?_eq_getElem hlt]
    rw [List.drop_eq_getElem_cons hlt]
    obtain ⟨hs1, hs2⟩ := mergeStepMem_refines grow mem0 inc a ((readSlice mem0 inc)[i]) h
    cases hstep : mergeStepMem grow a ((readSlice mem0 inc)[i]) with
    | none =>
      rw [hstep] at hs1
      refine ⟨?_, ?_⟩
      · simp only [mergeLoopMem, hread, Option.some_bind, hstep, Option.none_bind, mergeLoop,
          ← hs1, Option.map_none']
      · intro a' ha'
        simp [mergeLoopMem, hread, hstep] at ha'
    | some a1 =>
      rw [hstep] at hs1
      obtain ⟨ih1, ih2⟩ := ih (i + 1) a1 (by omega) (hs2 a1 hstep)
      refine ⟨?_, ?_⟩
      · simp only [mergeLoopMem, hread, Option.some_bind, hstep, mergeLoop, ← hs1,
          Option.map_some']
        exact ih1
      · intro a' ha'
        simp only [mergeLoopMem, hread, Option.some_bind, hstep] at ha'
        exact ih2 a' ha'

/-- The method `collect` on slices is `collect` on the contents of the slices, whenever the
incoming slice lies in an allocated array which is not the backing array of the held slice;
and the item it leaves held is a valid slice again. -/
theorem collectMem_refines (grow : Nat → Nat) (bc : bufferChannelMem) (elem : MsgMem)
    (hve : elem.pathList.Valid bc.mem)
    (hheld : ∀ last, bc.last = some last →
      last.pathList.Valid bc.mem ∧ last.pathList.arr ≠ elem.pathList.arr) :
    (collectMem grow bc elem).map absState = collect (absState bc) (absMsg bc.mem elem)
    ∧ ∀ bc', collectMem grow bc elem = some bc' →
        ∃ agg, bc'.last = some agg ∧ agg.pathList.Valid bc'.mem ∧ agg.index = elem.index := by
  cases hl : bc.last with
  | none =>
    have hc : collectMem grow bc elem = some
        { parent := { bc.parent with collected := bc.parent.collected + 1 }
          pathIdxs := seedLoop 0 (readSlice bc.mem elem.pathList) bc.pathIdxs
          last := some elem
          mem := bc.mem } := by
      simp [collectMem, hl]
    refine ⟨?_, ?_⟩
    · rw [hc]
      simp [collect, absState, absMsg, hl]
    · intro bc' hbc'
      rw [hc] at hbc'
      simp only [Option.some.injEq] at hbc'
      subst hbc'
      exact ⟨elem, rfl, hve, rfl⟩
  | some last =>
    obtain ⟨hvl, hne⟩ := hheld last hl
    have hinv : MergeInv bc.mem elem.pathList
        { pathIdxs := bc.pathIdxs, nextPathsList := last.pathList, mem := bc.mem,
          rewritten := bc.parent.rewritten } :=
      ⟨hvl, hne, hve.1, Nat.le_refl _, rfl⟩
    obtain ⟨r1, r2⟩ := mergeLoopMem_refines grow bc.mem elem.pathList hve
      elem.pathList.len 0 _ (by omega) hinv
    rw [List.drop_zero] at r1
    have hcv : collect (absState bc) (absMsg bc.mem elem)
        = (mergeLoop (absAcc ⟨bc.pathIdxs, last.pathList, bc.mem, bc.parent.rewritten⟩)
            (readSlice bc.mem elem.pathList)).map
          (fun a =>
            { parent := { bc.parent with
                collected := bc.parent.collected + 1
                rewritten := a.rewritten }
              pathIdxs := a.pathIdxs
              last := some { index := elem.index, pathList := a.nextPathsList } }) := by
      simp [collect, absState, absMsg, hl, absAcc, Msg.SetPathList]
    have hcm : collectMem grow bc elem
        = (mergeLoopMem grow elem.pathList elem.pathList.len 0
            { pathIdxs := bc.pathIdxs, nextPathsList := last.pathList, mem := bc.mem,
              rewritten := bc.parent.rewritten }).map
          (fun a =>
            { parent := { bc.parent with
                collected := bc.parent.collected + 1
                rewritten := a.rewritten }
              pathIdxs := a.pathIdxs
              last := some { elem with pathList := a.nextPathsList }
              mem := a.mem }) := by
      simp [collectMem, hl]
    cases hm : mergeLoopMem grow elem.pathList elem.pathList.len 0
        { pathIdxs := bc.pathIdxs, nextPathsList := last.pathList, mem := bc.mem,
          rewritten := bc.parent.rewritten } with
    | none =>
      rw [hm] at r1 hcm
      refine ⟨?_, ?_⟩
      · rw [hcm, hcv, ← r1]
        rfl
      · intro bc' hbc'
        rw [hcm] at hbc'
        cases hbc'
    | some a =>
      rw [hm] at r1 hcm
      have hva := (r2 a hm).1
      refine ⟨?_, ?_⟩
      · rw [hcm, hcv, ← r1]
        rfl
      · intro bc' hbc'
        rw [hcm] at hbc'
        simp only [Option.map_some', Option.some.injEq] at hbc'
        subst hbc'
        exact ⟨_, rfl, hva, rfl⟩

/-! ## Collecting items whose slices do not share the held backing array -/

theorem validSlice_iff (mem : Mem) (s : Slice) : validSlice mem s = true ↔ s.Valid mem := by
  simp [validSlice, Slice.Valid, and_assoc]

theorem aliasFree_cons (grow : Nat → Nat) (bc : bufferChannelMem) (m : MsgMem)
    (rest : List MsgMem) (h : aliasFree grow bc (m :: rest) = true) :
    m.pathList.Valid bc.mem
    ∧ (∀ last, bc.last = some last → last.pathList.arr ≠ m.pathList.arr)
    ∧ (∀ bc', collectMem grow bc m = some bc' → aliasFree grow bc' rest = true) := by
  simp only [aliasFree, Bool.and_eq_true] at h
  obtain ⟨⟨h1, h2⟩, h3⟩ := h
  refine ⟨(validSlice_iff _ _).mp h1, ?_, ?_⟩
  · intro last hl
    rw [hl] at h2
    simpa using h2
  · intro bc' hbc'
    rw [hbc'] at h3
    exact h3

/-- A merge on values, with a sound index: what it leaves. -/
theorem collect_holding_spec (b : bufferChannel) (last e : Msg) (hl : b.last = some last)
    (hs : IndexSound b.pathIdxs last.pathList) :
    ∃ b' agg, collect b e = some b' ∧ b'.last = some agg
      ∧ IndexSound b'.pathIdxs agg.pathList
      ∧ (IndexCovers b.pathIdxs last.pathList → IndexCovers b'.pathIdxs agg.pathList)
      ∧ eorEntries agg.pathList = eorEntries last.pathList ++ eorEntries e.pathList
      ∧ (IndexCovers b.pathIdxs last.pathList → (liveKeys last.pathList).Nodup →
          (liveKeys agg.pathList).Nodup
          ∧ liveEntries agg.pathList
              = (liveEntries e.pathList).foldl upsert (liveEntries last.pathList))
      ∧ agg.pathList.length + b'.parent.rewritten
          = last.pathList.length + b.parent.rewritten + nonNilCount e.pathList
      ∧ last.pathList.length ≤ agg.pathList.length
      ∧ b.parent.rewritten ≤ b'.parent.rewritten := by
  obtain ⟨a, ha, hs', hc', he', hd'⟩ := mergeLoop_spec e.pathList (mergeStart b last) hs
  obtain ⟨c1, c2, c3⟩ := mergeLoop_count e.pathList (mergeStart b last) a ha
  have hcol : collect b e = some
      { parent := { b.parent with
          collected := b.parent.collected + 1
          rewritten := a.rewritten }
        pathIdxs := a.pathIdxs
        last := some { e with pathList := a.nextPathsList } } := by
    rw [collect_merge_eq b last e hl, ha]
    rfl
  exact ⟨_, { e with pathList := a.nextPathsList }, hcol, rfl, hs', hc', he', hd', c1, c2, c3⟩

/-- A merge on slices, with a sound index, of an item that does not share the held backing
array: what it leaves, in terms of the contents. -/
theorem collectMem_holding_spec (grow : Nat → Nat) (bc : bufferChannelMem)
    (last elem : MsgMem) (hl : bc.last = some last) (hvl : last.pathList.Valid bc.mem)
    (hve : elem.pathList.Valid bc.mem) (hne : last.pathList.arr ≠ elem.pathList.arr)
    (hs : IndexSound bc.pathIdxs (readSlice bc.mem last.pathList)) :
    ∃ bc' agg, collectMem grow bc elem = some bc' ∧ bc'.last = some agg
      ∧ agg.pathList.Valid bc'.mem
      ∧ agg.index = elem.index
      ∧ IndexSound bc'.pathIdxs (readSlice bc'.mem agg.pathList)
      ∧ (IndexCovers bc.pathIdxs (readSlice bc.mem last.pathList) →
          IndexCovers bc'.pathIdxs (readSlice bc'.mem agg.pathList))
      ∧ eorEntries (readSlice bc'.mem agg.pathList)
          = eorEntries (readSlice bc.mem last.pathList)
            ++ eorEntries (readSlice bc.mem elem.pathList)
      ∧ (IndexCovers bc.pathIdxs (readSlice bc.mem last.pathList) →
          (liveKeys (readSlice bc.mem last.pathList)).Nodup →
          (liveKeys (readSlice bc'.mem agg.pathList)).Nodup
          ∧ liveEntries (readSlice bc'.mem agg.pathList)
              = (liveEntries (readSlice bc.mem elem.pathList)).foldl upsert
                  (liveEntries (readSlice bc.mem last.pathList)))
      ∧ agg.pathList.len + bc'.parent.rewritten
          = last.pathList.len + bc.parent.rewritten
            + nonNilCount (readSlice bc.mem elem.pathList)
      ∧ last.pathList.len ≤ agg.pathList.len
      ∧ bc.parent.rewritten ≤ bc'.parent.rewritten
      ∧ collect (absState bc) (absMsg bc.mem elem) = some (absState bc') := by
  obtain ⟨r1, r2⟩ := collectMem_refines grow bc elem hve
    (fun l hl' => by
      rw [hl] at hl'
      cases hl'
      exact ⟨hvl, hne⟩)
  have hla : (absState bc).last = some (absMsg bc.mem last) := by simp [absState, hl]
  obtain ⟨b', aggv, hc, hl', p1, p2, p3, p4, p5, p6, p7⟩ :=
    collect_holding_spec (absState bc) (absMsg bc.mem last) (absMsg bc.mem elem) hla hs
  rw [hc] at r1
  cases hm : collectMem grow bc elem with
  | none => rw [hm] at r1; cases r1
  | some bc' =>
    rw [hm] at r1
    simp only [Option.map_some', Option.some.injEq] at r1
    obtain ⟨agg, hagg, hva, hidx⟩ := r2 bc' hm
    have hagv : aggv = absMsg bc'.mem agg := by
      have : (absState bc').last = some aggv := by rw [r1]; exact hl'
      simp only [absState, hagg, Option.map_some', Option.some.injEq] at this
      exact this.symm
    subst hagv
    subst r1
    have hlen1 : (readSlice bc'.mem agg.pathList).length = agg.pathList.len :=
      readSlice_length _ _ hva
    have hlen0 : (readSlice bc.mem last.pathList).length = last.pathList.len :=
      readSlice_length _ _ hvl
    refine ⟨bc', agg, rfl, hagg, hva, hidx, p1, p2, p3, p4, ?_, ?_, p7, hc⟩
    · have := p5
      simp only [absMsg] at this
      rw [hlen1, hlen0] at this
      exact this
    · have := p6
      simp only [absMsg] at this
      rw [hlen1, hlen0] at this
      exact this

theorem flatten_cons_eor (l : PathList) (ls : List PathList) :
    ((l :: ls).map eorEntries).flatten = eorEntries l ++ (ls.map eorEntries).flatten := by
  simp

/-- Items merged one after the other on slices, none sharing the held backing array. -/
theorem collectAllMem_holding (grow : Nat → Nat) (ms : List MsgMem) (bc : bufferChannelMem)
    (last : MsgMem) (hl : bc.last = some last) (hvl : last.pathList.Valid bc.mem)
    (hs : IndexSound bc.pathIdxs (readSlice bc.mem last.pathList))
    (hfree : aliasFree grow bc ms = true) :
    ∃ bc' agg, collectAllMem grow bc ms = some bc' ∧ bc'.last = some agg
      ∧ agg.pathList.Valid bc'.mem
      ∧ IndexSound bc'.pathIdxs (readSlice bc'.mem agg.pathList)
      ∧ eorEntries (readSlice bc'.mem agg.pathList)
          = eorEntries (readSlice bc.mem last.pathList)
            ++ ((snapshots grow bc ms).map eorEntries).flatten
      ∧ (IndexCovers bc.pathIdxs (readSlice bc.mem last.pathList) →
          (liveKeys (readSlice bc.mem last.pathList)).Nodup →
          (liveKeys (readSlice bc'.mem agg.pathList)).Nodup
          ∧ liveEntries (readSlice bc'.mem agg.pathList)
              = (liveEntries (snapshots grow bc ms).flatten).foldl upsert
                  (liveEntries (readSlice bc.mem last.pathList))) := by
  induction ms generalizing bc last with
  | nil =>
    exact ⟨bc, last, rfl, hl, hvl, hs, by simp [snapshots],
      fun _ hnd => ⟨hnd, by simp [snapshots, liveEntries]⟩⟩
  | cons m ms ih =>
    obtain ⟨hvm, hna, hrest⟩ := aliasFree_cons grow bc m ms hfree
    obtain ⟨bc1, agg1, hc1, hl1, hv1, _, hs1, hcv1, he1, hd1, _⟩ :=
      collectMem_holding_spec grow bc last m hl hvl hvm (hna last hl) hs
    obtain ⟨bc', agg, hrun, hl', hv', hs', he', hd'⟩ :=
      ih bc1 agg1 hl1 hv1 hs1 (hrest bc1 hc1)
    have hsnap : snapshots grow bc (m :: ms)
        = readSlice bc.mem m.pathList :: snapshots grow bc1 ms := by
      simp [snapshots, hc1]
    refine ⟨bc', agg, by simp [collectAllMem, hc1, hrun], hl', hv', hs', ?_, ?_⟩
    · rw [he', he1, hsnap, flatten_cons_eor, List.append_assoc]
    · intro hc hnd
      obtain ⟨hnd1, hl1'⟩ := hd1 hc hnd
      obtain ⟨hnd2, hl2⟩ := hd' (hcv1 hc) hnd1
      refine ⟨hnd2, ?_⟩
      rw [hl2, hl1', hsnap]
      simp [liveEntries_append, List.foldl_append]

/-- A non-empty sequence of items collected on slices by a worker that holds nothing, no
merged item sharing the held backing array. -/
theorem collectAllMem_spec (grow : Nat → Nat) (bc : bufferChannelMem) (m : MsgMem)
    (ms : List MsgMem) (hl : bc.last = none) (hidx : bc.pathIdxs = PathIdxs.empty)
    (hfree : aliasFree grow bc (m :: ms) = true) :
    ∃ bc' agg, collectAllMem grow bc (m :: ms) = some bc' ∧ bc'.last = some agg
      ∧ agg.pathList.Valid bc'.mem
      ∧ IndexSound bc'.pathIdxs (readSlice bc'.mem agg.pathList)
      ∧ eorEntries (readSlice bc'.mem agg.pathList)
          = ((snapshots grow bc (m :: ms)).map eorEntries).flatten
      ∧ ((liveKeys (readSlice bc.mem m.pathList)).Nodup →
          (liveKeys (readSlice bc'.mem agg.pathList)).Nodup
          ∧ liveEntries (readSlice bc'.mem agg.pathList)
              = specAggregate (liveEntries (snapshots grow bc (m :: ms)).flatten)) := by
  obtain ⟨hvm, _, hrest⟩ := aliasFree_cons grow bc m ms hfree
  have hc : collectMem grow bc m = some
      { parent := { bc.parent with collected := bc.parent.collected + 1 }
        pathIdxs := seedLoop 0 (readSlice bc.mem m.pathList) PathIdxs.empty
        last := some m
        mem := bc.mem } := by
    simp [collectMem, hl, hidx]
  obtain ⟨bc', agg, hrun, hl', hv', hs', he', hd'⟩ :=
    collectAllMem_holding grow ms
      { parent := { bc.parent with collected := bc.parent.collected + 1 }
        pathIdxs := seedLoop 0 (readSlice bc.mem m.pathList) PathIdxs.empty
        last := some m
        mem := bc.mem }
      m rfl hvm (seed_sound (readSlice bc.mem m.pathList)) (hrest _ hc)
  have hsnap : snapshots grow bc (m :: ms) = readSlice bc.mem m.pathList ::
      snapshots grow
        { parent := { bc.parent with collected := bc.parent.collected + 1 }
          pathIdxs := seedLoop 0 (readSlice bc.mem m.pathList) PathIdxs.empty
          last := some m
          mem := bc.mem } ms := by
    simp [snapshots, hc]
  refine ⟨bc', agg, by simp [collectAllMem, hc, hrun], hl', hv', hs', ?_, ?_⟩
  · rw [he', hsnap, flatten_cons_eor]
  · intro hnd
    obtain ⟨hnd', hlive⟩ := hd' (seed_covers (readSlice bc.mem m.pathList)) hnd
    refine ⟨hnd', ?_⟩
    rw [hlive, hsnap]
    simp only [List.flatten_cons, liveEntries_append]
    rw [specAggregate_append, specAggregate_of_nodup _ hnd]

/-! ## C2 and C3 on slices -/

/-- C2, as stated, fails, in two ways.  When the seeding item carries a key twice (here
with every path list in a backing array of its own), the earlier of the two entries stays
in the aggregate, also after a later item with that key is merged: it is not the most
recent entry with its key.  And when a merged item shares the backing array of the held
aggregate (`arr[:2]` seeds, `arr[:4]` is merged; the keys of the seed are distinct), the
appends of the merge overwrite the cells of the item before the loop reads them, so that
two of its entries never reach the aggregate. -/
theorem duplicate_seed_or_shared_array_breaks_order :
    (aliasFree growDouble (memChannel staleMem) staleSlices = true
      ∧ (collectAllMem growDouble (memChannel staleMem) staleSlices).map
          (fun bc => bc.last.map (fun agg => liveEntries (readSlice bc.mem agg.pathList)))
        = some (some [newPath4 "10.0.0.100" 1, newPath4 "10.0.0.100" 3])
      ∧ specAggregate (liveEntries (snapshots growDouble (memChannel staleMem) staleSlices).flatten)
        = [newPath4 "10.0.0.100" 3])
    ∧ ((liveKeys (readSlice sharedMem { arr := 0, off := 0, len := 2, cap := 4 })).Nodup
      ∧ snapshots growDouble (memChannel sharedMem) sharedItems
        = [[some (newPath4 "10.0.0.1" 1), some eorPath4],
           [some (newPath4 "10.0.0.1" 1), some eorPath4, some (newPath4 "10.0.0.2" 2),
            some (newPath4 "10.0.0.3" 3)]]
      ∧ (collectAllMem growDouble (memChannel sharedMem) sharedItems).map
          (fun bc => bc.last.map (fun agg => liveEntries (readSlice bc.mem agg.pathList)))
        = some (some [newPath4 "10.0.0.1" 1])
      ∧ specAggregate
          (liveEntries (snapshots growDouble (memChannel sharedMem) sharedItems).flatten)
        = [newPath4 "10.0.0.1" 1, newPath4 "10.0.0.2" 2, newPath4 "10.0.0.3" 3]) := by
  refine ⟨⟨rfl, rfl, rfl⟩, by decide, rfl, rfl, rfl⟩

/-- C2 (amended): let a non-empty sequence of items be collected into one aggregate by a
worker that holds nothing (the first seeds it, each later one is merged), every item being
a slice of an allocated array.  If the first item has pairwise distinct keys among its
non-nil, non-EOR entries, and no item has, when it is merged, the backing array of the held
aggregate, then the collection does not panic and the non-nil, non-EOR entries of the
resulting aggregate are those of all the items (as they are when collected) with one entry
per key, in the order of first appearance of the keys, each entry being the most recently
collected one with its key. -/
theorem aggregate_order_without_aliasing (grow : Nat → Nat) (bc : bufferChannelMem)
    (m : MsgMem) (ms : List MsgMem) (hl : bc.last = none)
    (hidx : bc.pathIdxs = PathIdxs.empty) (hfree : aliasFree grow bc (m :: ms) = true)
    (hseed : (liveKeys (readSlice bc.mem m.pathList)).Nodup) :
    ∃ bc' agg, collectAllMem grow bc (m :: ms) = some bc' ∧ bc'.last = some agg
      ∧ (liveKeys (readSlice bc'.mem agg.pathList)).Nodup
      ∧ liveEntries (readSlice bc'.mem agg.pathList)
          = specAggregate (liveEntries (snapshots grow bc (m :: ms)).flatten) := by
  obtain ⟨bc', agg, hrun, hl', _, _, _, hd⟩ := collectAllMem_spec grow bc m ms hl hidx hfree
  exact ⟨bc', agg, hrun, hl', (hd hseed).1, (hd hseed).2⟩

theorem aggregate_order_without_aliasing_witness :
    (∃ bc' agg, collectAllMem growDouble (memChannel multiNlrisMem) multiNlrisSlices = some bc'
      ∧ bc'.last = some agg
      ∧ (liveKeys (readSlice bc'.mem agg.pathList)).Nodup
      ∧ liveEntries (readSlice bc'.mem agg.pathList)
          = specAggregate (liveEntries
              (snapshots growDouble (memChannel multiNlrisMem) multiNlrisSlices).flatten))
    ∧ (collectAllMem growDouble (memChannel multiNlrisMem) multiNlrisSlices).map
        (fun bc => bc.last.map (fun agg => (agg.index, readSlice bc.mem agg.pathList)))
      = some (some (4, multiNlrisExpected))
    ∧ (snapshots growDouble (memChannel multiNlrisMem) multiNlrisSlices)
      = multiNlrisItems.map (fun m => m.pathList) :=
  ⟨aggregate_order_without_aliasing growDouble (memChannel multiNlrisMem)
      { index := 1, pathList := { arr := 0, off := 0, len := 2, cap := 2 } }
      [ { index := 2, pathList := { arr := 1, off := 0, len := 2, cap := 2 } },
        { index := 3, pathList := { arr := 2, off := 0, len := 2, cap := 2 } },
        { index := 4, pathList := { arr := 3, off := 0, len := 2, cap := 2 } } ]
      rfl rfl rfl (by decide),
    rfl, rfl⟩

/-- C3, as stated, fails: when a merged item shares the backing array of the held aggregate
(`arr[:2] = [X, E]` seeds, `arr[:4] = [X, E, R, S]` is merged), the append of the EOR entry
`E` overwrites the cell of `R` before the loop reads it, the loop then reads `E` in place
of `R` and of `S`, and the aggregate ends with four EOR entries where the two items carry
two. -/
theorem shared_array_repeats_eor :
    snapshots growDouble (memChannel sharedMem) sharedItems
      = [[some (newPath4 "10.0.0.1" 1), some eorPath4],
         [some (newPath4 "10.0.0.1" 1), some eorPath4, some (newPath4 "10.0.0.2" 2),
          some (newPath4 "10.0.0.3" 3)]]
    ∧ ((snapshots growDouble (memChannel sharedMem) sharedItems).map eorEntries).flatten
      = [eorPath4, eorPath4]
    ∧ (collectAllMem growDouble (memChannel sharedMem) sharedItems).map
        (fun bc => bc.last.map (fun agg => readSlice bc.mem agg.pathList))
      = some (some [some (newPath4 "10.0.0.1" 1), some eorPath4, some eorPath4, some eorPath4,
          some eorPath4])
    ∧ aliasFree growDouble (memChannel sharedMem) sharedItems = false := by
  refine ⟨rfl, rfl, rfl, rfl⟩

/-- C3 (amended): for every non-empty sequence of items collected into one aggregate by a
worker that holds nothing, every item being a slice of an allocated array and no item
having, when it is merged, the backing array of the held aggregate, whatever keys the items
carry: the collection does not panic, the EOR entries of the aggregate are the EOR entries
of all the items (as they are when collected), concatenated in arrival order, and no
position recorded in the index holds an EOR entry (each holds a non-nil, non-EOR entry with
the key it is recorded under). -/
theorem eor_entries_kept_without_aliasing (grow : Nat → Nat) (bc : bufferChannelMem)
    (m : MsgMem) (ms : List MsgMem) (hl : bc.last = none)
    (hidx : bc.pathIdxs = PathIdxs.empty) (hfree : aliasFree grow bc (m :: ms) = true) :
    ∃ bc' agg, collectAllMem grow bc (m :: ms) = some bc' ∧ bc'.last = some agg
      ∧ eorEntries (readSlice bc'.mem agg.pathList)
          = ((snapshots grow bc (m :: ms)).map eorEntries).flatten
      ∧ (∀ k i, bc'.pathIdxs k = some i →
          ∃ q, (readSlice bc'.mem agg.pathList)[i]? = some (some q) ∧ q.eor = false
            ∧ keyOf q = k) := by
  obtain ⟨bc', agg, hrun, hl', _, hs, he, _⟩ := collectAllMem_spec grow bc m ms hl hidx hfree
  exact ⟨bc', agg, hrun, hl', he, hs⟩

theorem eor_entries_kept_without_aliasing_witness :
    (∃ bc' agg, collectAllMem growDouble (memChannel eorMem) eorSlices = some bc'
      ∧ bc'.last = some agg
      ∧ eorEntries (readSlice bc'.mem agg.pathList)
          = ((snapshots growDouble (memChannel eorMem) eorSlices).map eorEntries).flatten
      ∧ (∀ k i, bc'.pathIdxs k = some i →
          ∃ q, (readSlice bc'.mem agg.pathList)[i]? = some (some q) ∧ q.eor = false
            ∧ keyOf q = k))
    ∧ ((snapshots growDouble (memChannel eorMem) eorSlices).map eorEntries).flatten
        = [eorPath4, { eorPath4 with rf := 131073 }, eorPath4]
    ∧ (collectAllMem growDouble (memChannel eorMem) eorSlices).map
        (fun bc => bc.last.map (fun agg => readSlice bc.mem agg.pathList))
      = some (some [some (newPath4 "10.0.0.100" 3), some eorPath4,
          some { eorPath4 with rf := 131073 }, some eorPath4]) :=
  ⟨eor_entries_kept_without_aliasing growDouble (memChannel eorMem)
      { index := 1, pathList := { arr := 0, off := 0, len := 2, cap := 2 } }
      [ { index := 2, pathList := { arr := 1, off := 0, len := 2, cap := 2 } },
        { index := 3, pathList := { arr := 2, off := 0, len := 3, cap := 3 } } ]
      rfl rfl rfl,
    rfl, rfl⟩

/-! ## C18 and C20 on slices -/

/-- C18, as stated, fails: when the merged item shares the backing array of the held
aggregate (`arr[:2] = [X, E]` seeds, `arr[:3] = [X, E, nil]` is merged), the append of `E`
overwrites the nil cell before the loop reads it, and the loop appends `E` once more: the
list grows by 2 and `rewritten` by 1, where the item has 2 non-nil entries. -/
theorem shared_array_counts_an_entry_twice :
    (collectAllMem growDouble (memChannel sharedNilMem) (sharedNilItems.take 1)).map
        (fun bc => (bc.last.map (fun agg => agg.pathList.len), bc.parent.rewritten))
      = some (some 2, 0)
    ∧ (collectAllMem growDouble (memChannel sharedNilMem) sharedNilItems).map
        (fun bc => (bc.last.map (fun agg => agg.pathList.len), bc.parent.rewritten))
      = some (some 4, 1)
    ∧ snapshots growDouble (memChannel sharedNilMem) sharedNilItems
      = [[some (newPath4 "10.0.0.1" 1), some eorPath4],
         [some (newPath4 "10.0.0.1" 1), some eorPath4, none]]
    ∧ nonNilCount [some (newPath4 "10.0.0.1" 1), some eorPath4, none] = 2 := by
  refine ⟨rfl, rfl, rfl, rfl⟩

/-- C18 (amended): for every state in which an aggregate is held with a valid index (every
recorded position holds a non-nil, non-EOR entry with the key it is recorded under) and
every item that is a slice of an allocated array other than the backing array of the held
aggregate, the merge does not panic and accounts for every non-nil entry of the item's path
list exactly once, as an append or as a rewrite: the growth of the aggregate list plus the
growth of `rewritten` is the number of non-nil entries, and neither the list nor `rewritten`
gets smaller. -/
theorem merge_accounts_without_aliasing (grow : Nat → Nat) (bc : bufferChannelMem)
    (last elem : MsgMem) (hl : bc.last = some last) (hvl : last.pathList.Valid bc.mem)
    (hve : elem.pathList.Valid bc.mem) (hne : last.pathList.arr ≠ elem.pathList.arr)
    (hs : IndexSound bc.pathIdxs (readSlice bc.mem last.pathList)) :
    ∃ bc' agg, collectMem grow bc elem = some bc' ∧ bc'.last = some agg
      ∧ (readSlice bc'.mem agg.pathList).length = agg.pathList.len
      ∧ last.pathList.len ≤ agg.pathList.len
      ∧ bc.parent.rewritten ≤ bc'.parent.rewritten
      ∧ (agg.pathList.len - last.pathList.len)
          + (bc'.parent.rewritten - bc.parent.rewritten)
        = nonNilCount (readSlice bc.mem elem.pathList) := by
  obtain ⟨bc', agg, hc, hl', hv', _, _, _, _, _, h1, h2, h3, _⟩ :=
    collectMem_holding_spec grow bc last elem hl hvl hve hne hs
  exact ⟨bc', agg, hc, hl', readSlice_length _ _ hv', h2, h3, by omega⟩

theorem merge_accounts_without_aliasing_witness :
    ∃ bc' agg, collectMem growDouble heldFirstMem
          { index := 2, pathList := { arr := 1, off := 0, len := 2, cap := 2 } } = some bc'
      ∧ bc'.last = some agg
      ∧ (readSlice bc'.mem agg.pathList).length = agg.pathList.len
      ∧ 2 ≤ agg.pathList.len
      ∧ heldFirstMem.parent.rewritten ≤ bc'.parent.rewritten
      ∧ (agg.pathList.len - 2) + (bc'.parent.rewritten - heldFirstMem.parent.rewritten)
        = nonNilCount (readSlice heldFirstMem.mem { arr := 1, off := 0, len := 2, cap := 2 }) :=
  merge_accounts_without_aliasing growDouble heldFirstMem
    { index := 1, pathList := { arr := 0, off := 0, len := 2, cap := 2 } }
    { index := 2, pathList := { arr := 1, off := 0, len := 2, cap := 2 } }
    rfl ⟨by decide, by decide, by decide⟩ ⟨by decide, by decide, by decide⟩ (by decide)
    (seed_sound firstItem.pathList)

/-- C20, as stated, fails: in the state seeded by the item `[k:1, k:2]` (whose index is
valid), merging that same slice gives `[k:1, k:1]`, because the first overwrite changes the
cell that the loop reads next; merging a second item with the contents `[k:1, k:2]` then
gives `[k:1, k:2]`.  The list after the second merge is not the list after the first. -/
theorem shared_array_merge_not_idempotent :
    snapshots growDouble (memChannel dupMem) dupSlices
      = [dupSeed.pathList, dupSeed.pathList, dupSeed.pathList]
    ∧ (collectAllMem growDouble (memChannel dupMem) (dupSlices.take 2)).map
        (fun bc => bc.last.map (fun agg => readSlice bc.mem agg.pathList))
      = some (some [some (newPath4 "10.0.0.100" 1), some (newPath4 "10.0.0.100" 1)])
    ∧ (collectAllMem growDouble (memChannel dupMem) dupSlices).map
        (fun bc => bc.last.map (fun agg => readSlice bc.mem agg.pathList))
      = some (some [some (newPath4 "10.0.0.100" 1), some (newPath4 "10.0.0.100" 2)])
    ∧ (collectAllMem growDouble (memChannel dupMem) (dupSlices.take 1)).map
        (fun bc => (bc.last.map (fun agg => readSlice bc.mem agg.pathList),
          bc.pathIdxs (keyOf (newPath4 "10.0.0.100" 2))))
      = some (some dupSeed.pathList, some 1) := by
  refine ⟨rfl, rfl, rfl, rfl⟩

/-- C20 (amended): for every state in which an aggregate is held with a valid index, and
every item without EOR entries that is a slice of an allocated array other than the backing
array of the held aggregate, collecting that item and then an item with the same contents,
which again does not share the backing array of the aggregate then held, leaves the same
aggregate path list and the same index as collecting the first alone: the second merge
appends nothing and increases `rewritten` by the number of non-nil entries of the list. -/
theorem merge_twice_without_aliasing (grow : Nat → Nat) (bc : bufferChannelMem)
    (last elem : MsgMem) (hl : bc.last = some last) (hvl : last.pathList.Valid bc.mem)
    (hve : elem.pathList.Valid bc.mem) (hne : last.pathList.arr ≠ elem.pathList.arr)
    (hs : IndexSound bc.pathIdxs (readSlice bc.mem last.pathList))
    (hfree : EorFree (readSlice bc.mem elem.pathList)) :
    ∃ bc1 agg1, collectMem grow bc elem = some bc1 ∧ bc1.last = some agg1
      ∧ ∀ elem' : MsgMem, elem'.pathList.Valid bc1.mem →
          agg1.pathList.arr ≠ elem'.pathList.arr →
          readSlice bc1.mem elem'.pathList = readSlice bc.mem elem.pathList →
          ∃ bc2 agg2, collectMem grow bc1 elem' = some bc2 ∧ bc2.last = some agg2
            ∧ readSlice bc2.mem agg2.pathList = readSlice bc1.mem agg1.pathList
            ∧ bc2.pathIdxs = bc1.pathIdxs
            ∧ agg2.pathList.len = agg1.pathList.len
            ∧ bc2.parent.rewritten
                = bc1.parent.rewritten + nonNilCount (readSlice bc.mem elem.pathList) := by
  obtain ⟨bc1, agg1, hc1, hl1, hv1, _, hs1, _, _, _, _, _, _, hcol1⟩ :=
    collectMem_holding_spec grow bc last elem hl hvl hve hne hs
  refine ⟨bc1, agg1, hc1, hl1, ?_⟩
  intro elem' hve' hne' hsame
  obtain ⟨bc2, agg2, hc2, hl2, hv2, _, _, _, _, _, _, _, _, hcol2⟩ :=
    collectMem_holding_spec grow bc1 agg1 elem' hl1 hv1 hve' hne' hs1
  have hla : (absState bc).last = some (absMsg bc.mem last) := by simp [absState, hl]
  obtain ⟨b1, a1, b2, a2, e1, l1, e2, l2, plist, pidx, _, prw⟩ :=
    merge_twice_same_list (absState bc) (absMsg bc.mem last) (absMsg bc.mem elem)
      (absMsg bc1.mem elem') hla hs hfree (by simp [absMsg, hsame])
  have hb1 : b1 = absState bc1 := Option.some.inj (e1.symm.trans hcol1)
  subst hb1
  have hb2 : b2 = absState bc2 := Option.some.inj (e2.symm.trans hcol2)
  subst hb2
  have ha1 : a1 = absMsg bc1.mem agg1 := by
    simp only [absState, hl1, Option.map_some', Option.some.injEq] at l1
    exact l1.symm
  have ha2 : a2 = absMsg bc2.mem agg2 := by
    simp only [absState, hl2, Option.map_some', Option.some.injEq] at l2
    exact l2.symm
  subst ha1
  subst ha2
  have hlist : readSlice bc2.mem agg2.pathList = readSlice bc1.mem agg1.pathList := plist
  refine ⟨bc2, agg2, hc2, hl2, hlist, pidx, ?_, prw⟩
  rw [← readSlice_length _ _ hv2, ← readSlice_length _ _ hv1, hlist]

theorem merge_twice_without_aliasing_witness :
    ∃ bc1 agg1, collectMem growDouble heldFirstMem
          { index := 2, pathList := { arr := 1, off := 0, len := 2, cap := 2 } } = some bc1
      ∧ bc1.last = some agg1
      ∧ ∀ elem' : MsgMem, elem'.pathList.Valid bc1.mem →
          agg1.pathList.arr ≠ elem'.pathList.arr →
          readSlice bc1.mem elem'.pathList
            = readSlice heldFirstMem.mem { arr := 1, off := 0, len := 2, cap := 2 } →
          ∃ bc2 agg2, collectMem growDouble bc1 elem' = some bc2 ∧ bc2.last = some agg2
            ∧ readSlice bc2.mem agg2.pathList = readSlice bc1.mem agg1.pathList
            ∧ bc2.pathIdxs = bc1.pathIdxs
            ∧ agg2.pathList.len = agg1.pathList.len
            ∧ bc2.parent.rewritten
                = bc1.parent.rewritten
                  + nonNilCount
                      (readSlice heldFirstMem.mem { arr := 1, off := 0, len := 2, cap := 2 }) :=
  merge_twice_without_aliasing growDouble heldFirstMem
    { index := 1, pathList := { arr := 0, off := 0, len := 2, cap := 2 } }
    { index := 2, pathList := { arr := 1, off := 0, len := 2, cap := 2 } }
    rfl ⟨by decide, by decide, by decide⟩ ⟨by decide, by decide, by decide⟩ (by decide)
    (seed_sound firstItem.pathList)
    (by
      intro p hp
      have hp' : some p ∈ secondItem.pathList := hp
      simp only [secondItem, List.mem_cons, List.mem_singleton, Option.some.injEq,
        List.not_mem_nil, or_false] at hp'
      rcases hp' with rfl | rfl <;> rfl)

end Channels
